import Mathlib

/-! # Processing service: job lifecycle and queue-driven worker

A shallow embedding of `services-go-backup/processing/main.go`.

* Clock readings (`time.Now()`) are arguments; a `Time` is the reading in
  nanoseconds (`UnixNano`).
* The Redis client is a state: the string keys with their values and TTLs,
  the list `processing_queue`, and the connection outcomes of the coming
  commands (empty: every command succeeds).
* `json.Marshal` / `json.Unmarshal` are represented by `Doc`: the text of a
  job record, or any other text.
* The file system, `filepath.Glob` and the `ffmpeg` subprocess are an
  interface `OS σ` over a world `σ`.
* A worker run is the list of records it hands to `updateJob`, in order; the
  interleaving semantics (`step`) performs them one at a time. A worker never
  looks at the result of a write, so the list does not depend on the store.
* In `step` a handler call is one step, and so are the dispatcher's dequeue,
  a worker's read and each of a worker's writes. In `concStep` a cancel
  request is two steps, its `GET` and its `SET`, and a step of `step` is a
  step as well.
* The combined output of `ffmpeg` is a list of bytes; `jsonText` is the text
  `json.Marshal` stores for it.
* Log output is not modelled.

The last sections embed the parts of the other services that the processing
service meets or that have properties of their own: the name under which
`upload/main.go` saves a file and its check of the file name, the sets of
notification ids of `notification/main.go`, and the cleanup of old files of
`storage/main.go`.
-/

namespace Processing

/-! ## Data model -/

/-- A clock reading, in nanoseconds since the Unix epoch. -/
abbrev Time := Int

/-- Go constant `time.Hour`, in nanoseconds. -/
def Hour : Int := 3600000000000

/-- Go struct `ProcessingJob` (main.go 31-42); the defaults are Go zero values. -/
structure ProcessingJob where
  ID : String := ""
  FileID : String := ""
  Status : String := ""
  Progress : Int := 0
  CreatedAt : Time := 0
  StartedAt : Option Time := none
  CompletedAt : Option Time := none
  OutputFile : String := ""
  FrameCount : Int := 0
  Error : String := ""
deriving DecidableEq, Repr

/-- Go struct `ProcessRequest` (main.go 44-46). -/
structure ProcessRequest where
  FileID : String
deriving DecidableEq, Repr

/-- The payload of a response (`Data interface{}`), one shape per handler. -/
inductive Payload where
  | empty
  | created (job_id file_id status : String) (created_at : Time)
  | job (j : ProcessingJob)
  | jobs (js : List ProcessingJob) (total : Nat)
deriving DecidableEq, Repr

/-- Go struct `ProcessingResponse` (main.go 24-29). -/
structure ProcessingResponse where
  Success : Bool
  Message : String := ""
  Data : Payload := Payload.empty
  Error : String := ""
deriving DecidableEq, Repr

/-- What `c.JSON(code, body)` sends. -/
structure Reply where
  code : Nat
  body : ProcessingResponse
deriving DecidableEq, Repr

/-! ## JSON -/

/-- A stored text. `job j` is the text `json.Marshal` produces for `j`;
`text p` is any text on which `json.Unmarshal` reports an error, `p` being
what it leaves in a zero-valued target (the empty text leaves the zero value). -/
inductive Doc where
  | job (j : ProcessingJob)
  | text (p : ProcessingJob)
deriving DecidableEq, Repr

/-- Go `json.Marshal(job)`. The string fields of a `ProcessingJob` hold texts
as they are stored (see `jsonText`), so the text written is that of the record
as it stands. -/
def jsonMarshal (j : ProcessingJob) : Doc := Doc.job j

/-- Go `json.Unmarshal(text, &job)` on a zero-valued `job`: the value left in
`job`, and whether the returned error is non-nil. -/
def jsonUnmarshal : Doc → ProcessingJob × Bool
  | Doc.job j => (j, false)
  | Doc.text p => (p, true)

/-- The empty text, which a failed `Get(...).Result()` returns. -/
def emptyDoc : Doc := Doc.text {}

/-! ### Strings in a stored record

A Go string is a sequence of bytes. `json.Marshal` writes the valid UTF-8
encodings in it as they are and U+FFFD for every other byte, so a text read
back from a stored record is valid. The fields of `ProcessingJob` hold texts
as they are stored; the one text of the worker that can carry other bytes,
the combined output of the extraction tool, is given as bytes. -/

/-- Go `utf8.RuneError`, U+FFFD. -/
def RuneError : Char := Char.ofNat 0xFFFD

/-- The rows of the tables `first` and `acceptRanges` of Go package `utf8`
for a first byte that is not ASCII: the size of the encoding it starts and
the range its second byte must lie in; size 0 for a byte that starts none. -/
def firstByte (s0 : Nat) : Nat × Nat × Nat :=
  if 0xC2 ≤ s0 ∧ s0 ≤ 0xDF then (2, 0x80, 0xBF)
  else if s0 = 0xE0 then (3, 0xA0, 0xBF)
  else if (0xE1 ≤ s0 ∧ s0 ≤ 0xEC) ∨ s0 = 0xEE ∨ s0 = 0xEF then (3, 0x80, 0xBF)
  else if s0 = 0xED then (3, 0x80, 0x9F)
  else if s0 = 0xF0 then (4, 0x90, 0xBF)
  else if 0xF1 ≤ s0 ∧ s0 ≤ 0xF3 then (4, 0x80, 0xBF)
  else if s0 = 0xF4 then (4, 0x80, 0x8F)
  else (0, 0, 0)

/-- Go `utf8.DecodeRuneInString` on the bytes of a text that is not empty:
the character at its start and the number of bytes it takes. Bytes that start
no valid encoding yield U+FFFD and 1. -/
def decodeRune (s : List Nat) : Char × Nat :=
  let s0 := s.getD 0 0
  if s0 < 0x80 then (Char.ofNat s0, 1)
  else
    let sz := (firstByte s0).1
    let s1 := s.getD 1 0
    let s2 := s.getD 2 0
    let s3 := s.getD 3 0
    if sz = 0 ∨ s.length < sz then (RuneError, 1)
    else if s1 < (firstByte s0).2.1 ∨ (firstByte s0).2.2 < s1 then (RuneError, 1)
    else if sz ≤ 2 then (Char.ofNat (s0 % 32 * 64 + s1 % 64), 2)
    else if s2 < 0x80 ∨ 0xBF < s2 then (RuneError, 1)
    else if sz ≤ 3 then (Char.ofNat (s0 % 16 * 4096 + s1 % 64 * 64 + s2 % 64), 3)
    else if s3 < 0x80 ∨ 0xBF < s3 then (RuneError, 1)
    else (Char.ofNat (s0 % 8 * 262144 + s1 % 64 * 4096 + s2 % 64 * 64 + s3 % 64), 4)

/-- The loop of the string encoder of `json.Marshal` over the bytes of a Go
string, read back by `json.Unmarshal`: the characters of the valid encodings,
and U+FFFD for each byte that is part of none. The first argument bounds the
number of turns. -/
def jsonRunes : Nat → List Nat → List Char
  | 0, _ => []
  | fuel + 1, s =>
    if s = [] then [] else (decodeRune s).1 :: jsonRunes fuel (s.drop (decodeRune s).2)

/-- The text a Go string of the given bytes has once it is stored in a record:
what `json.Unmarshal` reads back from what `json.Marshal` wrote. -/
def jsonText (bytes : List Nat) : String := String.mk (jsonRunes bytes.length bytes)

/-- The bytes of a text of ASCII characters. -/
def asciiBytes (s : String) : List Nat := s.data.map Char.toNat

/-! ## Redis client -/

/-- One string key with its value and the TTL of its last `SET`. -/
structure Entry where
  key : String
  value : Doc
  ttl : Int
deriving DecidableEq, Repr

/-- The state behind `redisClient`. `conn` lists the outcome of the coming
commands in order: `some e` is a command failing with error text `e`; when the
list is exhausted every command succeeds. -/
structure Redis where
  kv : List Entry := []
  queue : List String := []
  conn : List (Option String) := []
deriving DecidableEq, Repr

/-- The value under a key. -/
def kvGet : List Entry → String → Option Doc
  | [], _ => none
  | e :: es, k => if e.key = k then some e.value else kvGet es k

/-- Writing a key: replaces the entry of that key, or adds one. -/
def kvSet : List Entry → String → Doc → Int → List Entry
  | [], k, v, t => [⟨k, v, t⟩]
  | e :: es, k, v, t => if e.key = k then ⟨k, v, t⟩ :: es else e :: kvSet es k v t

/-- The result of a `GET`. -/
inductive GetResult where
  | val (d : Doc)
  | nil
  | err (e : String)
deriving DecidableEq, Repr

/-- The text part of `Get(...).Result()`: empty unless the command succeeded. -/
def GetResult.text : GetResult → Doc
  | GetResult.val d => d
  | _ => emptyDoc

/-- The connection outcome of the next command. -/
def Redis.next (r : Redis) : Option String × Redis :=
  match r.conn with
  | [] => (none, r)
  | o :: os => (o, { r with conn := os })

/-- Redis `GET key`. -/
def Redis.Get (r : Redis) (key : String) : GetResult × Redis :=
  match r.next with
  | (some e, r1) => (GetResult.err e, r1)
  | (none, r1) =>
    match kvGet r1.kv key with
    | some d => (GetResult.val d, r1)
    | none => (GetResult.nil, r1)

/-- Redis `SET key value EX ttl`; returns the error, if any. -/
def Redis.Set (r : Redis) (key : String) (value : Doc) (ttl : Int) : Option String × Redis :=
  match r.next with
  | (some e, r1) => (some e, r1)
  | (none, r1) => (none, { r1 with kv := kvSet r1.kv key value ttl })

/-- Redis `LPUSH processing_queue value`: pushes at the head. -/
def Redis.LPush (r : Redis) (value : String) : Option String × Redis :=
  match r.next with
  | (some e, r1) => (some e, r1)
  | (none, r1) => (none, { r1 with queue := value :: r1.queue })

/-- Redis `BRPOP processing_queue 0`: pops at the tail. On an empty list the
command blocks, which is `none` with the state as it was. -/
def Redis.BRPop (r : Redis) : Option (Except String String) × Redis :=
  match r.queue.getLast? with
  | none => (none, r)
  | some v =>
    match r.next with
    | (some e, r1) => (some (Except.error e), r1)
    | (none, r1) => (some (Except.ok v), { r1 with queue := r1.queue.dropLast })

/-! ## Job API -/

/-- Go `generateJobID` (main.go 486-488), from the clock reading it takes. -/
def generateJobID (now : Time) : String := "job_" ++ toString now

/-- The text of the validation error of `binding:"required"`. -/
def requiredError : String :=
  "Key: \x27ProcessRequest.FileID\x27 Error:Field validation for \x27FileID\x27 failed on the \x27required\x27 tag"

/-- Gin `c.ShouldBindJSON(&req)` for `ProcessRequest`: `body` is the result of
decoding the request body into the struct (a missing or null `file_id` decodes
to the empty string); the `required` binding then rejects the zero value. -/
def ShouldBindJSON (body : Except String ProcessRequest) : Except String ProcessRequest :=
  match body with
  | Except.error e => Except.error e
  | Except.ok req => if req.FileID = "" then Except.error requiredError else Except.ok req

/-- Go `startProcessing` (main.go 157-209). `idNow` is the clock reading of
`generateJobID`, `createdNow` the one stored as `CreatedAt`. -/
def startProcessing (r : Redis) (body : Except String ProcessRequest) (idNow createdNow : Time) :
    Reply × Redis :=
  match ShouldBindJSON body with
  | Except.error e => (⟨400, { Success := false, Error := "Invalid request: " ++ e }⟩, r)
  | Except.ok req =>
    let jobID := generateJobID idNow
    let job : ProcessingJob :=
      { ID := jobID, FileID := req.FileID, Status := "pending", Progress := 0,
        CreatedAt := createdNow }
    match r.Set ("job:" ++ jobID) (jsonMarshal job) (24 * Hour) with
    | (some e, r1) => (⟨500, { Success := false, Error := "Failed to create job: " ++ e }⟩, r1)
    | (none, r1) =>
      match r1.LPush jobID with
      | (some e, r2) => (⟨500, { Success := false, Error := "Failed to queue job: " ++ e }⟩, r2)
      | (none, r2) =>
        (⟨200, { Success := true, Message := "Processing job created successfully",
                 Data := Payload.created jobID req.FileID "pending" job.CreatedAt }⟩, r2)

/-- Go `cancelProcessing` (main.go 282-321). Only `redis.Nil` is answered 404;
on any other `Get` error the handler goes on with the empty text. -/
def cancelProcessing (r : Redis) (jobID : String) (now : Time) : Reply × Redis :=
  match r.Get ("job:" ++ jobID) with
  | (GetResult.nil, r1) => (⟨404, { Success := false, Error := "Job not found" }⟩, r1)
  | (res, r1) =>
    let job := (jsonUnmarshal res.text).1
    if job.Status ≠ "pending" ∧ job.Status ≠ "processing" then
      (⟨400, { Success := false, Error := "Cannot cancel job with status: " ++ job.Status }⟩, r1)
    else
      let job := { job with Status := "cancelled", CompletedAt := some now }
      let r2 := (r1.Set ("job:" ++ jobID) (jsonMarshal job) (24 * Hour)).2
      (⟨200, { Success := true, Message := "Job cancelled successfully" }⟩, r2)

/-- Go `updateJob` (main.go 480-484): the error of `Set` is dropped. -/
def updateJob (r : Redis) (job : ProcessingJob) : Redis :=
  (r.Set ("job:" ++ job.ID) (jsonMarshal job) (24 * Hour)).2

/-! ## Paths and the operating system -/

/-- The elements of a path between its slashes. -/
def splitSlash : List Char → List (List Char)
  | [] => [[]]
  | c :: cs =>
    match splitSlash cs with
    | [] => [[]]
    | x :: xs => if c = '/' then [] :: x :: xs else (c :: x) :: xs

/-- One element of `filepath.Clean`, on the stack of kept elements (last kept
first): empty and `.` elements are dropped, `..` removes the element before
it, is dropped at the root, and is kept otherwise. -/
def cleanStep (rooted : Bool) (out : List (List Char)) (c : List Char) : List (List Char) :=
  if c = [] ∨ c = ['.'] then out
  else if c = ['.', '.'] then
    match out with
    | top :: rest => if top = ['.', '.'] then c :: out else rest
    | [] => if rooted then [] else [c]
  else c :: out

/-- Go `filepath.Clean` (Unix). -/
def filepathClean (path : String) : String :=
  let cs := path.data
  let rooted : Bool := cs.head? = some '/'
  let out := ((splitSlash cs).foldl (cleanStep rooted) []).reverse
  let body := String.intercalate "/" (out.map String.mk)
  if rooted then "/" ++ body else if body = "" then "." else body

/-- Go `filepath.Join` (Unix): from the first non-empty element on, the
elements are joined with slashes and cleaned. -/
def filepathJoin (elem : List String) : String :=
  match elem.dropWhile (fun e => e = "") with
  | [] => ""
  | es => filepathClean (String.intercalate "/" es)

/-- The operating system as the worker uses it, over a world `σ`.
`Glob` is `filepath.Glob` (`none`: it returns an error); `ffmpeg` is
`exec.Command("ffmpeg", args...).CombinedOutput()`: the world after the run,
the bytes of the combined output, and the text of the error, if any. -/
structure OS (σ : Type) where
  Glob : σ → String → Option (List String)
  MkdirAll : σ → String → σ
  RemoveAll : σ → String → σ
  ffmpeg : σ → List String → σ × List Nat × Option String

/-! ## Worker -/

/-- Go `findInputFile` (main.go 408-416). -/
def findInputFile {σ : Type} (os : OS σ) (w : σ) (fileID : String) : Except String String :=
  let pattern := filepathJoin ["../uploads", fileID ++ "_*"]
  match os.Glob w pattern with
  | some (f :: _) => Except.ok f
  | _ => Except.error ("input file not found for file ID: " ++ fileID)

/-- Go `createZipFile` (main.go 469-478): it logs and returns nil. -/
def createZipFile (_files : List String) (_zipPath : String) : Option String := none

/-- What a call of `processVideo` leaves: the world, the job it mutated
through its pointer, the records it handed to `updateJob` in order, and its
return value. -/
structure VideoRun (σ : Type) where
  world : σ
  job : ProcessingJob
  writes : List ProcessingJob
  result : Except String (String × Int)

/-- Go `processVideo` (main.go 418-467). The deferred `os.RemoveAll(tempDir)`
runs at every return. The text of the returned error has one use, as the
`Error` of the failed record that `processJob` stores; it is given as it is
stored, the bytes of the tool's output rendered by `jsonText`. -/
def processVideo {σ : Type} (os : OS σ) (w : σ) (inputFile jobID : String)
    (job : ProcessingJob) : VideoRun σ :=
  let tempDir := filepathJoin ["processing", jobID]
  let w1 := os.MkdirAll w tempDir
  let job10 := { job with Progress := 10 }
  let framePattern := filepathJoin [tempDir, "frame_%04d.png"]
  match os.ffmpeg w1 ["-i", inputFile, "-vf", "fps=1", "-y", framePattern] with
  | (w2, output, some e) =>
    ⟨os.RemoveAll w2 tempDir, job10, [job10],
      Except.error ("ffmpeg error: " ++ e ++ "\nOutput: " ++ jsonText output)⟩
  | (w2, _, none) =>
    let job70 := { job10 with Progress := 70 }
    match os.Glob w2 (filepathJoin [tempDir, "*.png"]) with
    | some (f :: fs) =>
      let frames := f :: fs
      let zipFilename := "frames_" ++ jobID ++ ".zip"
      let zipPath := filepathJoin ["outputs", zipFilename]
      match createZipFile frames zipPath with
      | some e =>
        ⟨os.RemoveAll w2 tempDir, job70, [job10, job70],
          Except.error ("failed to create ZIP file: " ++ e)⟩
      | none =>
        let job100 := { job70 with Progress := 100 }
        ⟨os.RemoveAll w2 tempDir, job100, [job10, job70, job100],
          Except.ok (zipFilename, (frames.length : Int))⟩
    | _ =>
      ⟨os.RemoveAll w2 tempDir, job70, [job10, job70],
        Except.error "no frames extracted from video"⟩

/-- What a worker run leaves: the world, the records it handed to `updateJob`
in order, and the jobs it handed to `notifyCompletion`. -/
structure JobRun (σ : Type) where
  world : σ
  writes : List ProcessingJob
  notified : List ProcessingJob

/-- Go `processJob` from the cancellation check on (main.go 362-405), for the
record `job` it has read. `now` is the clock reading on entering processing,
`completedAt` the one taken on completion. -/
def processJobBody {σ : Type} (os : OS σ) (w : σ) (job : ProcessingJob) (jobID : String)
    (now completedAt : Time) : JobRun σ :=
  let job0 := { job with Status := "processing", Progress := 0, StartedAt := some now }
  match findInputFile os w job0.FileID with
  | Except.error e =>
    let failed := { job0 with Status := "failed", Error := e, CompletedAt := some now }
    ⟨w, [job0, failed], []⟩
  | Except.ok inputFile =>
    let v := processVideo os w inputFile jobID job0
    match v.result with
    | Except.error e =>
      let failed := { v.job with Status := "failed", Error := e, CompletedAt := some now }
      ⟨v.world, job0 :: (v.writes ++ [failed]), []⟩
    | Except.ok (outputFile, frameCount) =>
      let done := { v.job with Status := "completed", Progress := 100, OutputFile := outputFile,
                                FrameCount := frameCount, CompletedAt := some completedAt }
      ⟨v.world, job0 :: (v.writes ++ [done]), [done]⟩

/-- Go `processJob` up to the cancellation check (main.go 340-360): the
record the worker goes on with, or `none` when it returns at once. -/
def processJobRead (r : Redis) (jobID : String) : Option ProcessingJob × Redis :=
  match r.Get ("job:" ++ jobID) with
  | (GetResult.val jobJSON, r1) =>
    match jsonUnmarshal jobJSON with
    | (_, true) => (none, r1)
    | (job, false) => if job.Status = "cancelled" then (none, r1) else (some job, r1)
  | (_, r1) => (none, r1)

/-- The records a worker for `jobID` hands to `updateJob`, given what it read. -/
def workerWrites {σ : Type} (os : OS σ) (w : σ) (read : Option ProcessingJob) (jobID : String)
    (now completedAt : Time) : List ProcessingJob :=
  match read with
  | none => []
  | some job => (processJobBody os w job jobID now completedAt).writes

/-- Go `processJob` (main.go 340-406) run without interruption: the store
after it, and the records it handed to `updateJob`. -/
def processJob {σ : Type} (os : OS σ) (w : σ) (r : Redis) (jobID : String)
    (now completedAt : Time) : Redis × List ProcessingJob :=
  let (read, r1) := processJobRead r jobID
  let writes := workerWrites os w read jobID now completedAt
  (writes.foldl updateJob r1, writes)

/-! ## The system: handlers, dispatcher and workers interleaved -/

/-- A worker goroutine: spawned for a job id and not yet past its read, or
past it with the `updateJob` calls it still has to make. -/
inductive Worker where
  | spawned (jobID : String)
  | running (pending : List ProcessingJob)
deriving DecidableEq, Repr

/-- The store and the worker goroutines. -/
structure Sys where
  redis : Redis := {}
  workers : List Worker := []
deriving DecidableEq, Repr

/-- One step of the system: a submit or cancel request handled, a dispatcher
iteration, the read of worker `i` (with the world it runs in and the two clock
readings it will take), or the next write of worker `i`. -/
inductive Label (σ : Type) where
  | submit (body : Except String ProcessRequest) (idNow createdNow : Time)
  | cancel (jobID : String) (now : Time)
  | dequeue
  | workerRead (i : Nat) (w : σ) (now completedAt : Time)
  | workerWrite (i : Nat)

/-- The dispatcher iteration of `jobProcessor` (main.go 326-337): a dequeued
id starts a worker; an error is logged and the loop goes on. -/
def jobProcessorStep (s : Sys) : Sys :=
  match s.redis.BRPop with
  | (some (Except.ok jobID), r1) => { redis := r1, workers := s.workers ++ [Worker.spawned jobID] }
  | (_, r1) => { s with redis := r1 }

/-- The effect of a step. A worker step on a goroutine that is not there, or
not at that point, changes nothing. -/
def step {σ : Type} (os : OS σ) (s : Sys) : Label σ → Sys
  | Label.submit body idNow createdNow =>
    { s with redis := (startProcessing s.redis body idNow createdNow).2 }
  | Label.cancel jobID now => { s with redis := (cancelProcessing s.redis jobID now).2 }
  | Label.dequeue => jobProcessorStep s
  | Label.workerRead i w now completedAt =>
    match s.workers.get? i with
    | some (Worker.spawned jobID) =>
      let (read, r1) := processJobRead s.redis jobID
      { redis := r1,
        workers := s.workers.set i (Worker.running (workerWrites os w read jobID now completedAt)) }
    | _ => s
  | Label.workerWrite i =>
    match s.workers.get? i with
    | some (Worker.running (job :: rest)) =>
      { redis := updateJob s.redis job, workers := s.workers.set i (Worker.running rest) }
    | _ => s

/-- The system after a sequence of steps. -/
def run {σ : Type} (os : OS σ) (s : Sys) (ls : List (Label σ)) : Sys :=
  ls.foldl (step os) s

/-- The states the system reaches from an empty store, whatever the
connection outcomes. -/
def Reachable {σ : Type} (os : OS σ) (s : Sys) : Prop :=
  ∃ (conn : List (Option String)) (ls : List (Label σ)), s = run os { redis := { conn := conn } } ls

/-! ## Job API: status and list -/

/-- Go `getProcessingStatus` (main.go 211-245). `parseErr` is the text of the
error `json.Unmarshal` reports when it rejects the stored text. -/
def getProcessingStatus (r : Redis) (jobID : String) (parseErr : String) : Reply × Redis :=
  match r.Get ("job:" ++ jobID) with
  | (GetResult.nil, r1) => (⟨404, { Success := false, Error := "Job not found" }⟩, r1)
  | (GetResult.err e, r1) =>
    (⟨500, { Success := false, Error := "Failed to get job status: " ++ e }⟩, r1)
  | (GetResult.val jobJSON, r1) =>
    match jsonUnmarshal jobJSON with
    | (_, true) =>
      (⟨500, { Success := false, Error := "Failed to parse job data: " ++ parseErr }⟩, r1)
    | (job, false) =>
      (⟨200, { Success := true, Message := "Job status retrieved", Data := Payload.job job }⟩, r1)

/-- Whether a text matches `rest` after skipping some of its characters: the
`*` of a Redis pattern. -/
def starMatch (rest : List Char → Bool) : List Char → Bool
  | [] => rest []
  | c :: cs => rest (c :: cs) || starMatch rest cs

/-- Redis glob-style matching for patterns made of plain characters, `?` and
`*` (the only kind the service uses). -/
def globMatch : List Char → List Char → Bool
  | [] => fun s => s.isEmpty
  | p :: ps =>
    if p = '*' then starMatch (globMatch ps)
    else fun s =>
      match s with
      | [] => false
      | c :: cs => (p = '?' || p = c) && globMatch ps cs

/-- Redis `KEYS pattern`. -/
def Redis.Keys (r : Redis) (pattern : String) : Except String (List String) × Redis :=
  match r.next with
  | (some e, r1) => (Except.error e, r1)
  | (none, r1) =>
    (Except.ok ((r1.kv.map (fun e => e.key)).filter (fun k => globMatch pattern.data k.data)), r1)

/-- One turn of the loop of `listJobs` (main.go 260-270): a key whose `Get`
fails or whose text does not decode is skipped. -/
def listJobsStep (acc : List ProcessingJob × Redis) (key : String) : List ProcessingJob × Redis :=
  match acc.2.Get key with
  | (GetResult.val jobJSON, r1) =>
    match jsonUnmarshal jobJSON with
    | (job, false) => (acc.1 ++ [job], r1)
    | (_, true) => (acc.1, r1)
  | (_, r1) => (acc.1, r1)

/-- Go `listJobs` (main.go 247-280). -/
def listJobs (r : Redis) : Reply × Redis :=
  match r.Keys "job:*" with
  | (Except.error e, r1) =>
    (⟨500, { Success := false, Error := "Failed to list jobs: " ++ e }⟩, r1)
  | (Except.ok keys, r1) =>
    let out := keys.foldl listJobsStep ([], r1)
    (⟨200, { Success := true, Message := "Jobs listed successfully",
             Data := Payload.jobs out.1 out.1.length }⟩, out.2)

/-- Stage C of `processVideo` (main.go 453-460) on its own: the archive name,
and the result of `createZipFile` for the frames and the archive path; the
world is handed through, `createZipFile` making no call that changes it. -/
def stageC {σ : Type} (w : σ) (frames : List String) (jobID : String) :
    σ × String × Option String :=
  let zipFilename := "frames_" ++ jobID ++ ".zip"
  let zipPath := filepathJoin ["outputs", zipFilename]
  (w, zipFilename, createZipFile frames zipPath)

/-! ## A small operating system for concrete runs -/

/-- Whether a path matches a pattern with at most one `*`: a pattern without
`*` matches itself; otherwise the path starts with the part before the `*`,
ends with the part after it, and the `*` stands for no slash. -/
def matchStar (pattern path : String) : Bool :=
  let pre := pattern.data.takeWhile (fun c => c ≠ '*')
  let post := (pattern.data.dropWhile (fun c => c ≠ '*')).drop 1
  if pattern.data.all (fun c => c ≠ '*') then pattern = path
  else
    pre.isPrefixOf path.data && post.reverse.isPrefixOf path.data.reverse
      && decide (pre.length + post.length ≤ path.data.length)
      && ((path.data.drop pre.length).take (path.data.length - pre.length - post.length)).all
          (fun c => c ≠ '/')

/-- A file system as the list of its file paths, with an `ffmpeg` that
writes three frames when its input exists and fails otherwise. -/
def testOS : OS (List String) where
  Glob := fun w pattern => some (w.filter (matchStar pattern))
  MkdirAll := fun w _ => w
  RemoveAll := fun w dir => w.filter (fun p => !(dir ++ "/").data.isPrefixOf p.data)
  ffmpeg := fun w args =>
    if w.contains (args.getD 1 "") then
      let dir := ((args.getD 5 "").data.reverse.dropWhile (fun c => c ≠ '/')).reverse
      (w ++ ["frame_0001.png", "frame_0002.png", "frame_0003.png"].map
              (fun f => String.mk dir ++ f), [], none)
    else (w, asciiBytes "No such file or directory", some "exit status 1")

/-! ## Vocabulary of the specification -/

/-- The statuses of the data model. -/
def statuses : List String := ["pending", "processing", "completed", "failed", "cancelled"]

/-- The terminal statuses. -/
def terminal (s : String) : Prop := s = "completed" ∨ s = "failed" ∨ s = "cancelled"

instance instDecidableTerminal (s : String) : Decidable (terminal s) := by
  unfold terminal; infer_instance

/-- The edges of the state machine a worker may take. -/
def Edge (a b : String) : Prop :=
  (a = "pending" ∧ b = "processing") ∨ (a = "processing" ∧ b = "completed") ∨
    (a = "processing" ∧ b = "failed")

/-- Two successive statuses of a record: the same status, or an edge. -/
def Follows (a b : String) : Prop := a = b ∨ Edge a b

instance instDecidableEdge (a b : String) : Decidable (Edge a b) := by
  unfold Edge; infer_instance

instance instDecidableFollows (a b : String) : Decidable (Follows a b) := by
  unfold Follows; infer_instance

/-- Whether a step writes under the key: a submit that draws the id of that
key, or a worker write addressed to it. -/
def writesKey {σ : Type} (s : Sys) (key : String) : Label σ → Bool
  | Label.submit _ idNow _ => "job:" ++ generateJobID idNow = key
  | Label.workerWrite i =>
    match s.workers.get? i with
    | some (Worker.running (job :: _)) => "job:" ++ job.ID = key
    | _ => false
  | _ => false

/-- A sequence of steps none of which writes under the key. -/
def avoids {σ : Type} (os : OS σ) (s : Sys) (key : String) : List (Label σ) → Bool
  | [] => true
  | l :: ls => !writesKey s key l && avoids os (step os s l) key ls

/-- Every stored value is a job record for which `P` holds with its key, and
`P` holds for every record a worker still has to write, with the key it will
be written under. -/
def Inv (P : String → ProcessingJob → Prop) (s : Sys) : Prop :=
  (∀ k d, kvGet s.redis.kv k = some d → ∃ j, d = Doc.job j ∧ P k j) ∧
  (∀ ws, Worker.running ws ∈ s.workers → ∀ x ∈ ws, P ("job:" ++ x.ID) x)

/-! ## Concrete runs -/

/-- The uploads directory of the concrete runs. -/
def demoUploads : List String := ["../uploads/abc123_1700000000_video.mp4"]

/-- A concrete run: a submit for file `abc123`, its dispatch, and the read of
its worker. -/
def demoStart : List (Label (List String)) :=
  [Label.submit (Except.ok ⟨"abc123"⟩) 1 2, Label.dequeue, Label.workerRead 0 demoUploads 3 4]

/-- The record the submit of `demoStart` stores. -/
def demoPending : ProcessingJob :=
  { ID := "job_1", FileID := "abc123", Status := "pending", Progress := 0, CreatedAt := 2 }

/-- A store holding one record under the key of job `job_1`. -/
def demoStore (j : ProcessingJob) : List Entry := [⟨"job:job_1", Doc.job j, 24 * Hour⟩]

/-- The world after the `ffmpeg` of `testOS` has run for job `job_1`. -/
def demoFrames : List String :=
  ["processing/job_1/frame_0001.png", "processing/job_1/frame_0002.png",
    "processing/job_1/frame_0003.png"]

/-- The record of `demoPending` after a cancel at time 5. -/
def demoCancelled : ProcessingJob :=
  { demoPending with Status := "cancelled", CompletedAt := some 5 }

/-- A pending record whose file id matches no upload. -/
def demoMissing : ProcessingJob := { demoPending with FileID := "missing" }

/-- The record of `demoPending` after a successful worker run. -/
def demoCompleted : ProcessingJob :=
  { demoPending with Status := "completed", Progress := 100, StartedAt := some 3,
                     CompletedAt := some 4, OutputFile := "frames_job_1.zip", FrameCount := 3 }

/-! ## Vocabulary of the specification: fields, reads, ids, listing, queue -/

/-- The result fields of a record agree with its status: an output name and a
frame count exactly when it is completed, an error exactly when it is failed. -/
def resultFields (j : ProcessingJob) : Prop :=
  (j.OutputFile ≠ "" ↔ j.Status = "completed") ∧
  (j.FrameCount ≠ 0 ↔ j.Status = "completed") ∧
  (j.Error ≠ "" ↔ j.Status = "failed")

instance instDecidableResultFields (j : ProcessingJob) : Decidable (resultFields j) := by
  unfold resultFields; infer_instance

/-- The timestamps of a record agree with its status: no `CompletedAt` while
pending or processing, one in a terminal status; no `StartedAt` while pending,
one in status processing, completed or failed. -/
def timestampsOK (j : ProcessingJob) : Prop :=
  ((j.Status = "pending" ∨ j.Status = "processing") → j.CompletedAt = none) ∧
  (terminal j.Status → j.CompletedAt ≠ none) ∧
  (j.Status = "pending" → j.StartedAt = none) ∧
  ((j.Status = "processing" ∨ j.Status = "completed" ∨ j.Status = "failed") →
    j.StartedAt ≠ none)

instance instDecidableTimestampsOK (j : ProcessingJob) : Decidable (timestampsOK j) := by
  unfold timestampsOK; infer_instance

/-- Whether the read of a step finds its record as submit left it: a worker
read that goes on (the record is not cancelled) finds status `pending`. Every
other step passes. -/
def readsPendingStep {σ : Type} (s : Sys) : Label σ → Bool
  | Label.workerRead i _ _ _ =>
    match s.workers.get? i with
    | some (Worker.spawned jobID) =>
      match (processJobRead s.redis jobID).1 with
      | some j => j.Status = "pending"
      | none => true
    | _ => true
  | _ => true

/-- A sequence of steps in which every worker starts from a record as submit
created it. -/
def readsPending {σ : Type} (os : OS σ) (s : Sys) : List (Label σ) → Bool
  | [] => true
  | l :: ls => readsPendingStep s l && readsPending os (step os s l) ls

/-- The job ids of the submit steps of a sequence whose request is valid, in
order. -/
def submitIds {σ : Type} : List (Label σ) → List String
  | [] => []
  | Label.submit (Except.ok req) idNow _ :: ls =>
    if req.FileID = "" then submitIds ls else generateJobID idNow :: submitIds ls
  | _ :: ls => submitIds ls

/-- The value of a decimal digit character. -/
def digitVal (c : Char) : Nat := c.toNat - 48

/-- The number a list of decimal digits stands for. -/
def decodeNat (cs : List Char) : Nat := cs.foldl (fun acc c => acc * 10 + digitVal c) 0

/-- On a connection whose commands succeed, the keys of the store are those of
the job ids `ids`, in order, and every record a worker still has to write
belongs to one of these jobs. -/
def Listed (s : Sys) (ids : List String) : Prop :=
  s.redis.conn = [] ∧
  s.redis.kv.map (fun e => e.key) = ids.map (fun id => "job:" ++ id) ∧
  (∀ ws, Worker.running ws ∈ s.workers → ∀ x ∈ ws, x.ID ∈ ids)

/-- The dispatcher's dequeue repeated `n` times on the store alone: the ids
it obtains, in order. A failed or blocked `BRPop` obtains nothing. -/
def drain : Nat → Redis → List String × Redis
  | 0, r => ([], r)
  | n + 1, r =>
    match r.BRPop with
    | (some (Except.ok v), r1) => ((v :: (drain n r1).1), (drain n r1).2)
    | (_, r1) => drain n r1

/-- The submit steps of a list of valid requests, each with the two clock
readings its handler takes. -/
def submitSteps {σ : Type} (reqs : List (ProcessRequest × Time × Time)) : List (Label σ) :=
  reqs.map (fun q => Label.submit (Except.ok q.1) q.2.1 q.2.2)

/-- The TTL of the entry under a key. -/
def kvTTL : List Entry → String → Option Int
  | [], _ => none
  | e :: es, k => if e.key = k then some e.ttl else kvTTL es k

/-! ## Concrete runs: failing tools, equal and different ids -/

/-- An `ffmpeg` that exits without error and writes no frame. -/
def quietOS : OS (List String) :=
  { testOS with ffmpeg := fun w _ => (w, [], none) }

/-- An `ffmpeg` that fails with an output of ten bytes, the fifth of which,
`0xff`, is part of no valid UTF-8 encoding. -/
def garbledOS : OS (List String) :=
  { testOS with
    ffmpeg := fun w _ => (w, [98, 97, 100, 32, 255, 32, 98, 121, 116, 101], some "exit status 1") }

/-- An `ffmpeg` that fails with a diagnostic. -/
def failingOS : OS (List String) :=
  { testOS with
    ffmpeg := fun w _ =>
      (w, asciiBytes "Invalid data found when processing input", some "exit status 1") }

/-- Two submissions that read the same clock value. -/
def demoCollision : List (Label (List String)) :=
  [Label.submit (Except.ok ⟨"abc123"⟩) 1 2, Label.submit (Except.ok ⟨"other"⟩) 1 3]

/-- Two submissions with different ids, a cancel of the second, and the
complete worker run of the first. -/
def demoTwoJobs : List (Label (List String)) :=
  [Label.submit (Except.ok ⟨"abc123"⟩) 1 2, Label.submit (Except.ok ⟨"other"⟩) 5 6,
    Label.cancel "job_5" 7, Label.dequeue, Label.workerRead 0 demoUploads 3 4,
    Label.workerWrite 0, Label.workerWrite 0, Label.workerWrite 0, Label.workerWrite 0,
    Label.workerWrite 0]

/-- The job ids of the workers that have not read yet, in order. -/
def spawnedIds : List Worker → List String
  | [] => []
  | Worker.spawned id :: ws => id :: spawnedIds ws
  | Worker.running _ :: ws => spawnedIds ws

/-- The job ids waiting for their worker's read: those in the queue and
those of the workers spawned and not yet past their read. -/
def waiting (s : Sys) : List String := s.redis.queue ++ spawnedIds s.workers

/-- One worker per job: no id waits twice; a waiting id is among the ids
`used` by submissions so far and its record, if stored, is pending or
cancelled; a record a worker still has to write belongs to a job that is used
and no longer waits. -/
def Owned (s : Sys) (used : List String) : Prop :=
  (waiting s).Nodup ∧
  (∀ id ∈ waiting s, id ∈ used) ∧
  (∀ id ∈ waiting s, ∀ d, kvGet s.redis.kv ("job:" ++ id) = some d →
    ∃ j, d = Doc.job j ∧ (j.Status = "pending" ∨ j.Status = "cancelled")) ∧
  (∀ ws, Worker.running ws ∈ s.workers → ∀ x ∈ ws, x.ID ∉ waiting s ∧ x.ID ∈ used)

/-! ## Worker: notification -/

/-- Go `notifyCompletion` (main.go 490-497): it writes a log line and makes no
other call, so the store is as it was. -/
def notifyCompletion (r : Redis) (_job : ProcessingJob) : Redis := r

/-! ## Concrete runs: a worker in progress -/

/-- The record of `demoPending` while its worker runs, at a progress value. -/
def demoProcessing (p : Int) : ProcessingJob :=
  { demoPending with Status := "processing", Progress := p, StartedAt := some 3 }

/-! ## Upload service (`upload/main.go`): saved names, and the lookup by file id -/

/-- Go struct `Config` of the upload service (upload/main.go 20-25). -/
structure Config where
  RedisURL : String
  StorageServiceURL : String
  MaxFileSize : Int
  AllowedExtensions : List String
deriving DecidableEq, Repr

/-- Go `loadConfig` (upload/main.go 77-84); the two URLs are what `getEnv`
returns for them. -/
def loadConfig (redisURL storageServiceURL : String) : Config :=
  { RedisURL := redisURL, StorageServiceURL := storageServiceURL,
    MaxFileSize := 500 * 1024 * 1024,
    AllowedExtensions := [".mp4", ".avi", ".mov", ".mkv", ".wmv", ".flv", ".webm"] }

/-- The loop of Go `filepath.Ext` over the characters of the path from the
last one back, `acc` being the characters passed so far: it ends at a slash
with the empty text, and at a dot with the text from that dot on. -/
def extScan : List Char → List Char → List Char
  | [], _ => []
  | c :: cs, acc => if c = '/' then [] else if c = '.' then '.' :: acc else extScan cs (c :: acc)

/-- Go `filepath.Ext` (Unix). -/
def filepathExt (path : String) : String := String.mk (extScan path.data.reverse [])

/-- Go `strings.ToLower`, given the mapping `unicode.ToLower` of single
characters. -/
def stringsToLower (unicodeToLower : Char → Char) (s : String) : String :=
  String.mk (s.data.map unicodeToLower)

/-- Go `isValidVideoFile` (upload/main.go 363-372), for the configuration in
`config`. -/
def isValidVideoFile (unicodeToLower : Char → Char) (config : Config) (filename : String) : Bool :=
  let ext := stringsToLower unicodeToLower (filepathExt filename)
  config.AllowedExtensions.any (fun validExt => ext = validExt)

/-- The last element of a path: the text after its last slash. -/
def lastElement (path : String) : List Char :=
  (path.data.reverse.takeWhile (fun c => c ≠ '/')).reverse

/-- The extension of a file name in the words of the specification: the text
from the last dot of the last path element, and the empty text when that
element has no dot. -/
def extensionOf (path : String) : String :=
  if '.' ∈ lastElement path then
    String.mk ('.' :: ((lastElement path).reverse.takeWhile (fun c => c ≠ '.')).reverse)
  else ""

/-! ## Notification service (`notification/main.go`)

The store of this service holds the notifications under string keys
`notification:<id>` and the two sets `notifications:all` and
`notifications:unread`. No string key equals a set key, so the sets are
components of their own. As in the processing service, `conn` lists the
outcomes of the coming commands. A TTL is recorded and does not run out; an
`EXPIRE` with a TTL that is not positive deletes its set at once. -/

/-- Go constant `time.Second`, in nanoseconds. -/
def Second : Int := 1000000000

/-- A value of Go type `int64` after an arithmetic operation that may wrap. -/
def wrap64 (x : Int) : Int := (x + 2 ^ 63) % 2 ^ 64 - 2 ^ 63

/-- Go struct `Notification` (notification/main.go 26-35); `Kind` is the Go
field `Type`, and `Data` is the JSON text of the field. -/
structure Notification where
  ID : String := ""
  Kind : String := ""
  Title : String := ""
  Message : String := ""
  Data : String := ""
  Read : Bool := false
  CreatedAt : Time := 0
  ExpiresAt : Option Time := none
deriving DecidableEq, Repr

/-- Go struct `CreateNotificationRequest` (notification/main.go 37-43);
`Kind` is the Go field `Type`. -/
structure CreateNotificationRequest where
  Kind : String
  Title : String
  Message : String
  Data : String := ""
  TTL : Int := 0
deriving DecidableEq, Repr

/-- Go struct `MarkReadRequest` (notification/main.go 45-47); `none` is the
nil slice a body without the field decodes to. -/
structure MarkReadRequest where
  NotificationIDs : Option (List String)
deriving DecidableEq, Repr

/-- A stored text: the one `json.Marshal` produces for a notification, or a
text that `json.Unmarshal` rejects. -/
inductive NDoc where
  | notification (n : Notification)
  | text
deriving DecidableEq, Repr

/-- One string key of the notification store. -/
structure NEntry where
  key : String
  value : NDoc
  ttl : Int
deriving DecidableEq, Repr

/-- The keys of the two sets: `notifications:all` and `notifications:unread`. -/
inductive SetKey where
  | all
  | unread
deriving DecidableEq, Repr

/-- The state behind `redisClient` in the notification service. A set that
has no member does not exist as a key, and has no TTL. -/
structure NRedis where
  kv : List NEntry := []
  all : List String := []
  unread : List String := []
  allTTL : Option Int := none
  unreadTTL : Option Int := none
  conn : List (Option String) := []
deriving DecidableEq, Repr

/-- The value under a string key. -/
def nkvGet : List NEntry → String → Option NDoc
  | [], _ => none
  | e :: es, k => if e.key = k then some e.value else nkvGet es k

/-- Writing a string key. -/
def nkvSet : List NEntry → String → NDoc → Int → List NEntry
  | [], k, v, t => [⟨k, v, t⟩]
  | e :: es, k, v, t => if e.key = k then ⟨k, v, t⟩ :: es else e :: nkvSet es k v t

/-- The connection outcome of the next command. -/
def NRedis.next (r : NRedis) : Option String × NRedis :=
  match r.conn with
  | [] => (none, r)
  | o :: os => (o, { r with conn := os })

/-- The members of a set, in the order `SMEMBERS` returns them. -/
def NRedis.members (r : NRedis) : SetKey → List String
  | SetKey.all => r.all
  | SetKey.unread => r.unread

/-- The store with the members of a set replaced; an emptied set is gone
with its TTL. -/
def NRedis.withMembers (r : NRedis) (k : SetKey) (ms : List String) : NRedis :=
  match k with
  | SetKey.all => { r with all := ms, allTTL := if ms = [] then none else r.allTTL }
  | SetKey.unread => { r with unread := ms, unreadTTL := if ms = [] then none else r.unreadTTL }

/-- The result of a `GET`: the text, or the error (`redis.Nil` included). -/
def NRedis.Get (r : NRedis) (key : String) : Except String NDoc × NRedis :=
  match r.next with
  | (some e, r1) => (Except.error e, r1)
  | (none, r1) =>
    match nkvGet r1.kv key with
    | some d => (Except.ok d, r1)
    | none => (Except.error "redis: nil", r1)

/-- Redis `SET key value EX ttl`. -/
def NRedis.Set (r : NRedis) (key : String) (value : NDoc) (ttl : Int) : Option String × NRedis :=
  match r.next with
  | (some e, r1) => (some e, r1)
  | (none, r1) => (none, { r1 with kv := nkvSet r1.kv key value ttl })

/-- Redis `DEL` of a string key. -/
def NRedis.Del (r : NRedis) (key : String) : Option String × NRedis :=
  match r.next with
  | (some e, r1) => (some e, r1)
  | (none, r1) => (none, { r1 with kv := r1.kv.filter (fun e => e.key ≠ key) })

/-- Redis `DEL` of a set key. -/
def NRedis.DelSet (r : NRedis) (k : SetKey) : Option String × NRedis :=
  match r.next with
  | (some e, r1) => (some e, r1)
  | (none, r1) => (none, r1.withMembers k [])

/-- Redis `SADD set member`. -/
def NRedis.SAdd (r : NRedis) (k : SetKey) (member : String) : Option String × NRedis :=
  match r.next with
  | (some e, r1) => (some e, r1)
  | (none, r1) =>
    (none, if member ∈ r1.members k then r1 else r1.withMembers k (r1.members k ++ [member]))

/-- Redis `SREM set member`. -/
def NRedis.SRem (r : NRedis) (k : SetKey) (member : String) : Option String × NRedis :=
  match r.next with
  | (some e, r1) => (some e, r1)
  | (none, r1) => (none, r1.withMembers k ((r1.members k).filter (fun m => m ≠ member)))

/-- Redis `SMEMBERS set`. -/
def NRedis.SMembers (r : NRedis) (k : SetKey) : Except String (List String) × NRedis :=
  match r.next with
  | (some e, r1) => (Except.error e, r1)
  | (none, r1) => (Except.ok (r1.members k), r1)

/-- Redis `EXPIRE set ttl`: a set that does not exist is left alone, and a TTL
that is not positive deletes the set. -/
def NRedis.Expire (r : NRedis) (k : SetKey) (ttl : Int) : Option String × NRedis :=
  match r.next with
  | (some e, r1) => (some e, r1)
  | (none, r1) =>
    if r1.members k = [] then (none, r1)
    else if ttl ≤ 0 then (none, r1.withMembers k [])
    else
      match k with
      | SetKey.all => (none, { r1 with allTTL := some ttl })
      | SetKey.unread => (none, { r1 with unreadTTL := some ttl })

/-- The payload of a response of the notification service. -/
inductive NPayload where
  | empty
  | notification (n : Notification)
  | updated (updated_count : Nat)
  | deleted (deleted_count : Nat)
deriving DecidableEq, Repr

/-- What `c.JSON(code, NotificationResponse{...})` sends. -/
structure NReply where
  code : Nat
  Success : Bool
  Message : String := ""
  Data : NPayload := NPayload.empty
  Error : String := ""
deriving DecidableEq, Repr

/-- Go `generateNotificationID` (notification/main.go 510-512). -/
def generateNotificationID (now : Time) : String := "notif_" ++ toString now

/-- The validation error of one `binding:"required"` field. -/
def requiredTag (struct field : String) : String :=
  "Key: \x27" ++ struct ++ "." ++ field ++ "\x27 Error:Field validation for \x27" ++ field ++
    "\x27 failed on the \x27required\x27 tag"

/-- Gin `c.ShouldBindJSON(&req)` for `CreateNotificationRequest`: the
`required` binding rejects an empty `Type`, `Title` or `Message`, and the
error lists the rejected fields in order. -/
def bindCreate (body : Except String CreateNotificationRequest) :
    Except String CreateNotificationRequest :=
  match body with
  | Except.error e => Except.error e
  | Except.ok req =>
    let missing :=
      (if req.Kind = "" then ["Type"] else []) ++ (if req.Title = "" then ["Title"] else []) ++
        (if req.Message = "" then ["Message"] else [])
    if missing = [] then Except.ok req
    else Except.error
      (String.intercalate "\n" (missing.map (requiredTag "CreateNotificationRequest")))

/-- Gin `c.ShouldBindJSON(&req)` for `MarkReadRequest`: the `required` binding
rejects the nil slice. -/
def bindMarkRead (body : Except String MarkReadRequest) : Except String (List String) :=
  match body with
  | Except.error e => Except.error e
  | Except.ok req =>
    match req.NotificationIDs with
    | none => Except.error (requiredTag "MarkReadRequest" "NotificationIDs")
    | some ids => Except.ok ids

/-- Go `createNotification` (notification/main.go 199-265). `idNow`,
`createdNow` and `expiresNow` are the clock readings it takes, in order of
the source text. -/
def createNotification (r : NRedis) (body : Except String CreateNotificationRequest)
    (idNow createdNow expiresNow : Time) : NReply × NRedis :=
  match bindCreate body with
  | Except.error e => (⟨400, false, "", NPayload.empty, "Invalid request: " ++ e⟩, r)
  | Except.ok req =>
    let notificationID := generateNotificationID idNow
    let created : Notification :=
      { ID := notificationID, Kind := req.Kind, Title := req.Title, Message := req.Message,
        Data := req.Data, Read := false, CreatedAt := createdNow }
    let notification :=
      if req.TTL > 0 then
        { created with ExpiresAt := some (expiresNow + wrap64 (req.TTL * Second)) }
      else created
    let ttl := if req.TTL > 0 then wrap64 (req.TTL * Second) else 24 * Hour
    match r.Set ("notification:" ++ notificationID) (NDoc.notification notification) ttl with
    | (some e, r1) =>
      (⟨500, false, "", NPayload.empty, "Failed to create notification: " ++ e⟩, r1)
    | (none, r1) =>
      let r2 := (r1.SAdd SetKey.all notificationID).2
      let r3 := (r2.SAdd SetKey.unread notificationID).2
      let r4 := (r3.Expire SetKey.all ttl).2
      let r5 := (r4.Expire SetKey.unread ttl).2
      (⟨201, true, "Notification created successfully", NPayload.notification notification,
        ""⟩, r5)

/-- Go `deleteNotification` (notification/main.go 303-326). -/
def deleteNotification (r : NRedis) (notificationID : String) : NReply × NRedis :=
  match r.Del ("notification:" ++ notificationID) with
  | (some e, r1) =>
    (⟨500, false, "", NPayload.empty, "Failed to delete notification: " ++ e⟩, r1)
  | (none, r1) =>
    let r2 := (r1.SRem SetKey.all notificationID).2
    let r3 := (r2.SRem SetKey.unread notificationID).2
    (⟨200, true, "Notification deleted successfully", NPayload.empty, ""⟩, r3)

/-- One turn of the loop of `markNotificationsAsRead` (notification/main.go
341-364), on the count so far and the store. -/
def markReadStep (acc : Nat × NRedis) (notificationID : String) : Nat × NRedis :=
  match acc.2.Get ("notification:" ++ notificationID) with
  | (Except.error _, r1) => (acc.1, r1)
  | (Except.ok NDoc.text, r1) => (acc.1, r1)
  | (Except.ok (NDoc.notification n), r1) =>
    let r2 := (r1.Set ("notification:" ++ notificationID)
      (NDoc.notification { n with Read := true }) (24 * Hour)).2
    let r3 := (r2.SRem SetKey.unread notificationID).2
    (acc.1 + 1, r3)

/-- Go `markNotificationsAsRead` (notification/main.go 328-373). -/
def markNotificationsAsRead (r : NRedis) (body : Except String MarkReadRequest) :
    NReply × NRedis :=
  match bindMarkRead body with
  | Except.error e => (⟨400, false, "", NPayload.empty, "Invalid request: " ++ e⟩, r)
  | Except.ok ids =>
    let out := ids.foldl markReadStep (0, r)
    (⟨200, true, "Marked " ++ toString out.1 ++ " notifications as read",
      NPayload.updated out.1, ""⟩, out.2)

/-- One turn of the loop of `markAllNotificationsAsRead` (notification/main.go
389-409). -/
def markAllStep (acc : Nat × NRedis) (notificationID : String) : Nat × NRedis :=
  match acc.2.Get ("notification:" ++ notificationID) with
  | (Except.error _, r1) => (acc.1, r1)
  | (Except.ok NDoc.text, r1) => (acc.1, r1)
  | (Except.ok (NDoc.notification n), r1) =>
    let r2 := (r1.Set ("notification:" ++ notificationID)
      (NDoc.notification { n with Read := true }) (24 * Hour)).2
    (acc.1 + 1, r2)

/-- Go `markAllNotificationsAsRead` (notification/main.go 375-421). -/
def markAllNotificationsAsRead (r : NRedis) : NReply × NRedis :=
  match r.SMembers SetKey.unread with
  | (Except.error e, r1) =>
    (⟨500, false, "", NPayload.empty, "Failed to get unread notifications: " ++ e⟩, r1)
  | (Except.ok unreadIDs, r1) =>
    let out := unreadIDs.foldl markAllStep (0, r1)
    let r2 := (out.2.DelSet SetKey.unread).2
    (⟨200, true, "Marked all " ++ toString out.1 ++ " notifications as read",
      NPayload.updated out.1, ""⟩, r2)

/-- Go `deleteAllNotifications` (notification/main.go 423-452). -/
def deleteAllNotifications (r : NRedis) : NReply × NRedis :=
  match r.SMembers SetKey.all with
  | (Except.error e, r1) =>
    (⟨500, false, "", NPayload.empty, "Failed to get notifications: " ++ e⟩, r1)
  | (Except.ok notificationIDs, r1) =>
    let r2 := notificationIDs.foldl (fun acc id => (acc.Del ("notification:" ++ id)).2) r1
    let r3 := (r2.DelSet SetKey.all).2
    let r4 := (r3.DelSet SetKey.unread).2
    (⟨200, true, "Deleted " ++ toString notificationIDs.length ++ " notifications",
      NPayload.deleted notificationIDs.length, ""⟩, r4)

/-- One turn of the loop of `cleanupExpiredNotifications` (notification/main.go
539-562), on the count so far and the store; `now` is the clock reading taken
before the loop. -/
def cleanupStep (now : Time) (acc : Nat × NRedis) (id : String) : Nat × NRedis :=
  match acc.2.Get ("notification:" ++ id) with
  | (Except.error _, r1) =>
    let r2 := (r1.SRem SetKey.all id).2
    let r3 := (r2.SRem SetKey.unread id).2
    (acc.1 + 1, r3)
  | (Except.ok NDoc.text, r1) => (acc.1, r1)
  | (Except.ok (NDoc.notification n), r1) =>
    match n.ExpiresAt with
    | some expiresAt =>
      if now > expiresAt then
        let r2 := (r1.Del ("notification:" ++ id)).2
        let r3 := (r2.SRem SetKey.all id).2
        let r4 := (r3.SRem SetKey.unread id).2
        (acc.1 + 1, r4)
      else (acc.1, r1)
    | none => (acc.1, r1)

/-- Go `cleanupExpiredNotifications` (notification/main.go 526-567): the
store it leaves. -/
def cleanupExpiredNotifications (r : NRedis) (now : Time) : NRedis :=
  match r.SMembers SetKey.all with
  | (Except.error _, r1) => r1
  | (Except.ok notificationIDs, r1) => (notificationIDs.foldl (cleanupStep now) (0, r1)).2

/-- A call of one of the operations that change the notification sets. -/
inductive NOp where
  | create (body : Except String CreateNotificationRequest) (idNow createdNow expiresNow : Time)
  | delete (notificationID : String)
  | markRead (body : Except String MarkReadRequest)
  | markAllRead
  | deleteAll
  | cleanup (now : Time)

/-- The store after a call. -/
def NRedis.apply (r : NRedis) : NOp → NRedis
  | NOp.create body idNow createdNow expiresNow =>
    (createNotification r body idNow createdNow expiresNow).2
  | NOp.delete notificationID => (deleteNotification r notificationID).2
  | NOp.markRead body => (markNotificationsAsRead r body).2
  | NOp.markAllRead => (markAllNotificationsAsRead r).2
  | NOp.deleteAll => (deleteAllNotifications r).2
  | NOp.cleanup now => cleanupExpiredNotifications r now

/-- What `os.Stat` reports of a file, as far as `cleanupOldFiles` reads it. -/
structure FileStat where
  Size : Int
  ModTime : Time
deriving DecidableEq, Repr

/-- The file system as `cleanupOldFiles` uses it, over a world `σ`: `Glob` is
`filepath.Glob` (`none`: it returns an error), `Stat` is `os.Stat` (`none`: it
returns an error), `Remove` is `os.Remove`: the world after the call, and
whether it returned no error. -/
structure Disk (σ : Type) where
  Glob : σ → String → Option (List String)
  Stat : σ → String → Option FileStat
  Remove : σ → String → σ × Bool

/-- Go `filepath.Base` (Unix). -/
def filepathBase (path : String) : String :=
  if path = "" then "."
  else
    let stripped := path.data.reverse.dropWhile (fun c => c = '/')
    let last := (stripped.takeWhile (fun c => c ≠ '/')).reverse
    if last = [] then "/" else String.mk last

/-- Go `t.Sub(u)`: the difference as a `time.Duration`, which saturates at
the ends of the 64-bit range. -/
def timeSub (t u : Time) : Int := max (-(2 ^ 63)) (min (2 ^ 63 - 1) (t - u))

/-- The variables of `cleanupOldFiles` during its loops: the world, the
slice `deletedFiles`, the sum `totalSize`, and the number of clock readings
taken so far. -/
structure Cleanup (σ : Type) where
  world : σ
  deletedFiles : List String
  totalSize : Int
  readings : Nat

/-- One turn of the inner loop of `cleanupOldFiles` (storage/main.go 417-429).
`clock n` is the reading `time.Since` takes when `n` readings were taken
before. -/
def cleanupFile {σ : Type} (disk : Disk σ) (clock : Nat → Time) (acc : Cleanup σ)
    (file : String) : Cleanup σ :=
  match disk.Stat acc.world file with
  | none => acc
  | some stat =>
    if timeSub (clock acc.readings) stat.ModTime > 24 * Hour then
      let totalSize := wrap64 (acc.totalSize + stat.Size)
      match disk.Remove acc.world file with
      | (w1, true) =>
        ⟨w1, acc.deletedFiles ++ [filepathBase file], totalSize, acc.readings + 1⟩
      | (w1, false) => ⟨w1, acc.deletedFiles, totalSize, acc.readings + 1⟩
    else { acc with readings := acc.readings + 1 }

/-- One turn of the outer loop of `cleanupOldFiles` (storage/main.go 411-430). -/
def cleanupDir {σ : Type} (disk : Disk σ) (clock : Nat → Time) (acc : Cleanup σ)
    (dir : String) : Cleanup σ :=
  match disk.Glob acc.world (filepathJoin [dir, "*"]) with
  | none => acc
  | some files => files.foldl (cleanupFile disk clock) acc

/-- The `Data` of the response of `cleanupOldFiles`. -/
structure CleanupData where
  deleted_files : List String
  files_count : Nat
  bytes_freed : Int
deriving DecidableEq, Repr

/-- Go `cleanupOldFiles` (storage/main.go 402-443): the data of its response,
which is always 200 `Cleanup completed successfully`, and the world it
leaves. -/
def cleanupOldFiles {σ : Type} (disk : Disk σ) (clock : Nat → Time) (w : σ) : CleanupData × σ :=
  let out := ["uploads", "outputs"].foldl (cleanupDir disk clock) ⟨w, [], 0, 0⟩
  (⟨out.deletedFiles, out.deletedFiles.length, out.totalSize⟩, out.world)

/-- An entry of a directory in the concrete runs of the storage service:
`busy` marks an entry that `os.Remove` refuses, such as a directory that is
not empty. -/
structure DiskEntry where
  path : String
  size : Int
  modTime : Time
  busy : Bool
deriving DecidableEq, Repr

/-- A file system as the list of its entries. -/
def listDisk : Disk (List DiskEntry) where
  Glob := fun w pattern => some ((w.map (fun e => e.path)).filter (matchStar pattern))
  Stat := fun w file => (w.find? (fun e => e.path = file)).map (fun e => ⟨e.size, e.modTime⟩)
  Remove := fun w file =>
    match w.find? (fun e => e.path = file) with
    | some e => if e.busy then (w, false) else (w.filter (fun x => x.path ≠ file), true)
    | none => (w, false)

/-- Two entries of `uploads` written at time 0: a video of 1000 bytes, and a
directory that is not empty, whose own size is 4096 bytes. -/
def demoDisk : List DiskEntry :=
  [⟨"uploads/old.mp4", 1000, 0, false⟩, ⟨"uploads/parts", 4096, 0, true⟩]

/-! ## The system with a cancel request as two steps

`cancelProcessing` sends two commands, the `GET` of main.go 288 and the `SET`
of main.go 315, and steps of the workers and of other requests may come
between them. Here a cancel request is the step of its `GET`, after which it
is rejected or holds the record it is about to store, and the step of its
`SET`. A step of `step` is a step here as well: a cancel request then runs
without interruption. A submit stays one step: its `SET` is its one write to
the store and its `LPUSH` its one write to the queue. -/

/-- Go `cancelProcessing` up to its `SET` (main.go 282-314): the reply with
which it returns before that, or the record it goes on to store. `now` is the
clock reading of main.go 311. -/
def cancelRead (r : Redis) (jobID : String) (now : Time) : (Reply ⊕ ProcessingJob) × Redis :=
  match r.Get ("job:" ++ jobID) with
  | (GetResult.nil, r1) => (Sum.inl ⟨404, { Success := false, Error := "Job not found" }⟩, r1)
  | (res, r1) =>
    let job := (jsonUnmarshal res.text).1
    if job.Status ≠ "pending" ∧ job.Status ≠ "processing" then
      (Sum.inl ⟨400, { Success := false,
                       Error := "Cannot cancel job with status: " ++ job.Status }⟩, r1)
    else (Sum.inr { job with Status := "cancelled", CompletedAt := some now }, r1)

/-- Go `cancelProcessing` from its `SET` on (main.go 315-320), for the record
it holds: the error of `Set` is dropped. -/
def cancelWrite (r : Redis) (jobID : String) (job : ProcessingJob) : Reply × Redis :=
  (⟨200, { Success := true, Message := "Job cancelled successfully" }⟩,
    (r.Set ("job:" ++ jobID) (jsonMarshal job) (24 * Hour)).2)

/-- A cancel request between its two commands: the id of the request and the
record it is about to store. -/
structure Cancel where
  jobID : String
  job : ProcessingJob
deriving DecidableEq, Repr

/-- The store, the worker goroutines, and the cancel requests that are past
their `GET`: `none` once the request has sent its `SET`. -/
structure ConcSys where
  sys : Sys := {}
  cancels : List (Option Cancel) := []
deriving DecidableEq, Repr

/-- One step of the system with cancel requests in two steps: a step of
`step`, the `GET` of a new cancel request, or the `SET` of the cancel request
`c`. -/
inductive ConcLabel (σ : Type) where
  | whole (l : Label σ)
  | cancelRead (jobID : String) (now : Time)
  | cancelWrite (c : Nat)

/-- The effect of a step. The `SET` of a request that is not there, or has
sent it already, changes nothing. -/
def concStep {σ : Type} (os : OS σ) (s : ConcSys) : ConcLabel σ → ConcSys
  | ConcLabel.whole l => { s with sys := step os s.sys l }
  | ConcLabel.cancelRead jobID now =>
    match cancelRead s.sys.redis jobID now with
    | (Sum.inl _, r1) => { s with sys := { s.sys with redis := r1 } }
    | (Sum.inr job, r1) =>
      { sys := { s.sys with redis := r1 }, cancels := s.cancels ++ [some ⟨jobID, job⟩] }
  | ConcLabel.cancelWrite c =>
    match s.cancels.get? c with
    | some (some cancel) =>
      { sys := { s.sys with redis := (cancelWrite s.sys.redis cancel.jobID cancel.job).2 },
        cancels := s.cancels.set c none }
    | _ => s

/-- The system after a sequence of steps. -/
def concRun {σ : Type} (os : OS σ) (s : ConcSys) (ls : List (ConcLabel σ)) : ConcSys :=
  ls.foldl (concStep os) s

/-- Whether a step writes under the key: a step of `step` that does, or the
`SET` of a cancel request for the job of that key. The `GET` of a cancel
request writes nothing. -/
def concWritesKey {σ : Type} (s : ConcSys) (key : String) : ConcLabel σ → Bool
  | ConcLabel.whole l => writesKey s.sys key l
  | ConcLabel.cancelRead _ _ => false
  | ConcLabel.cancelWrite c =>
    match s.cancels.get? c with
    | some (some cancel) => "job:" ++ cancel.jobID = key
    | _ => false

/-- A sequence of steps none of which writes under the key. -/
def concAvoids {σ : Type} (os : OS σ) (s : ConcSys) (key : String) : List (ConcLabel σ) → Bool
  | [] => true
  | l :: ls => !concWritesKey s key l && concAvoids os (concStep os s l) key ls

/-- The number of write steps of worker `i` in a sequence of steps. -/
def concWriteSteps {σ : Type} (i : Nat) : List (ConcLabel σ) → Nat
  | [] => 0
  | ConcLabel.whole (Label.workerWrite k) :: ls => (if k = i then 1 else 0) + concWriteSteps i ls
  | _ :: ls => concWriteSteps i ls

/-- The state after `demoStart` and the first write of the worker: the stored
record is processing at progress 0 and the worker has four writes to make. -/
def demoRunning : ConcSys :=
  { sys := ⟨⟨demoStore (demoProcessing 0), [], []⟩,
      [Worker.running [demoProcessing 10, demoProcessing 70, demoProcessing 100,
        demoCompleted]]⟩ }

/-- A second job, for file `other`, submitted with id `job_5` and dispatched
while the first one runs: its submit, its dispatch, the read of its worker
and the two writes of that worker, which finds no input. -/
def demoSecondJob : List (ConcLabel (List String)) :=
  [ConcLabel.whole (Label.submit (Except.ok ⟨"other"⟩) 5 6), ConcLabel.whole Label.dequeue,
    ConcLabel.whole (Label.workerRead 1 demoUploads 7 8), ConcLabel.whole (Label.workerWrite 1),
    ConcLabel.whole (Label.workerWrite 1)]

/-! # Theorems -/

/-! ## Strings in a stored record -/

theorem decodeRune_ascii (b : Nat) (rest : List Nat) (h : b < 128) :
    decodeRune (b :: rest) = (Char.ofNat b, 1) := by
  simp [decodeRune, h]

theorem jsonRunes_ascii (cs : List Char) (h : ∀ c ∈ cs, c.toNat < 128) (fuel : Nat)
    (hf : cs.length ≤ fuel) : jsonRunes fuel (cs.map Char.toNat) = cs := by
  induction cs generalizing fuel with
  | nil => cases fuel <;> simp [jsonRunes]
  | cons c cs ih =>
    cases fuel with
    | zero => simp at hf
    | succ fuel =>
      have hc := h c (List.mem_cons_self _ _)
      simp only [List.map_cons, jsonRunes, decodeRune_ascii _ _ hc, List.drop_succ_cons,
        List.drop_zero]
      rw [ih (fun x hx => h x (List.mem_cons_of_mem _ hx)) fuel (by simpa using hf)]
      simp [Char.ofNat_toNat]

/-- A text of ASCII characters is stored as it is. -/
theorem jsonText_ascii (s : String) (h : ∀ c ∈ s.data, c.toNat < 128) :
    jsonText (asciiBytes s) = s := by
  unfold jsonText asciiBytes
  rw [jsonRunes_ascii s.data h _ (by simp)]

/-! ## The store -/

theorem kvGet_kvSet (kv : List Entry) (k : String) (v : Doc) (t : Int) (k' : String) :
    kvGet (kvSet kv k v t) k' = if k' = k then some v else kvGet kv k' := by
  induction kv with
  | nil =>
    by_cases h : k = k' <;> simp [kvSet, kvGet, h, eq_comm]
  | cons e es ih =>
    by_cases he : e.key = k
    · by_cases h : k' = k
      · simp [kvSet, kvGet, he, h]
      · have : ¬ k = k' := fun x => h x.symm
        simp [kvSet, kvGet, he, h, this]
    · by_cases h : k' = k
      · subst h; simp [kvSet, kvGet, he, ih]
      · by_cases h2 : e.key = k'
        · simp [kvSet, kvGet, he, h, h2]
        · simp [kvSet, kvGet, he, h, h2, ih]

theorem redisGet_kv (r : Redis) (k : String) : (r.Get k).2.kv = r.kv := by
  unfold Redis.Get Redis.next
  rcases hc : r.conn with _ | ⟨_ | e, os⟩ <;> simp <;> cases kvGet r.kv k <;> simp

theorem redisSet_kv (r : Redis) (k : String) (v : Doc) (t : Int) :
    (r.Set k v t).2.kv = r.kv ∨ (r.Set k v t).2.kv = kvSet r.kv k v t := by
  unfold Redis.Set Redis.next
  rcases hc : r.conn with _ | ⟨_ | e, os⟩ <;> simp

theorem redisBRPop_kv (r : Redis) : r.BRPop.2.kv = r.kv := by
  unfold Redis.BRPop Redis.next
  cases r.queue.getLast? with
  | none => simp
  | some v => rcases hc : r.conn with _ | ⟨_ | e, os⟩ <;> simp

theorem updateJob_kv (r : Redis) (job : ProcessingJob) :
    (updateJob r job).kv = r.kv ∨
      (updateJob r job).kv = kvSet r.kv ("job:" ++ job.ID) (Doc.job job) (24 * Hour) :=
  redisSet_kv r _ _ _

theorem updateJob_healthy (kv : List Entry) (queue : List String) (job : ProcessingJob) :
    updateJob ⟨kv, queue, []⟩ job =
      ⟨kvSet kv ("job:" ++ job.ID) (Doc.job job) (24 * Hour), queue, []⟩ := by
  simp [updateJob, Redis.Set, Redis.next, jsonMarshal]

theorem foldl_updateJob_healthy (ws : List ProcessingJob) (kv : List Entry)
    (queue : List String) :
    ∃ kv', ws.foldl updateJob ⟨kv, queue, []⟩ = ⟨kv', queue, []⟩ := by
  induction ws generalizing kv with
  | nil => exact ⟨kv, rfl⟩
  | cons x xs ih =>
    rw [List.foldl_cons, updateJob_healthy]
    exact ih _

theorem foldl_updateJob_last (kv : List Entry) (queue : List String)
    (pre : List ProcessingJob) (x : ProcessingJob) :
    kvGet ((pre ++ [x]).foldl updateJob ⟨kv, queue, []⟩).kv ("job:" ++ x.ID) =
      some (Doc.job x) := by
  obtain ⟨kv', h⟩ := foldl_updateJob_healthy pre kv queue
  rw [List.foldl_append, h]
  simp [updateJob_healthy, kvGet_kvSet]

/-- On a connection without errors, each record handed to `updateJob` is the
stored record of its key right after that call. -/
theorem writes_persisted (kv : List Entry) (queue : List String) (ws : List ProcessingJob)
    (n : Nat) (x : ProcessingJob) (h : ws.get? n = some x) :
    kvGet ((ws.take (n + 1)).foldl updateJob ⟨kv, queue, []⟩).kv ("job:" ++ x.ID) =
      some (Doc.job x) := by
  have : ws.take (n + 1) = ws.take n ++ [x] := by
    rw [List.take_succ]
    simp at h
    simp [h]
  rw [this]
  exact foldl_updateJob_last kv queue _ x

theorem append_ne_empty (a b : String) (h : a ≠ "") : a ++ b ≠ "" := by
  intro hab
  have := congrArg String.length hab
  simp at this
  exact h (String.ext (List.eq_nil_of_length_eq_zero this.1))

/-! ## Effect of the handlers on the store -/

theorem startProcessing_kv (r : Redis) (body : Except String ProcessRequest)
    (idNow createdNow : Time) :
    (startProcessing r body idNow createdNow).2.kv = r.kv ∨
    ∃ req, body = Except.ok req ∧ req.FileID ≠ "" ∧
      (startProcessing r body idNow createdNow).2.kv =
        kvSet r.kv ("job:" ++ generateJobID idNow)
          (Doc.job { ID := generateJobID idNow, FileID := req.FileID, Status := "pending",
                     Progress := 0, CreatedAt := createdNow }) (24 * Hour) := by
  cases body with
  | error e => left; simp [startProcessing, ShouldBindJSON]
  | ok req =>
    by_cases hf : req.FileID = ""
    · left; simp [startProcessing, ShouldBindJSON, hf]
    · obtain ⟨kv, queue, conn⟩ := r
      rcases conn with _ | ⟨_ | e, _ | ⟨_ | e', os⟩⟩ <;>
        simp [startProcessing, Redis.Set, Redis.LPush, Redis.next, ShouldBindJSON, hf,
          jsonMarshal]

theorem cancelProcessing_kv (r : Redis) (jobID : String) (now : Time) :
    (cancelProcessing r jobID now).2.kv = r.kv ∨
    ∃ d, kvGet r.kv ("job:" ++ jobID) = some d ∧
      ((jsonUnmarshal d).1.Status = "pending" ∨ (jsonUnmarshal d).1.Status = "processing") ∧
      (cancelProcessing r jobID now).2.kv =
        kvSet r.kv ("job:" ++ jobID)
          (Doc.job { (jsonUnmarshal d).1 with Status := "cancelled", CompletedAt := some now })
          (24 * Hour) := by
  obtain ⟨kv, queue, conn⟩ := r
  have e1 : ("" : String) ≠ "pending" := by decide
  have e2 : ("" : String) ≠ "processing" := by decide
  have he : (jsonUnmarshal emptyDoc).1.Status = "" := rfl
  cases hg : kvGet kv ("job:" ++ jobID) with
  | none =>
    left
    rcases conn with _ | ⟨_ | e, os⟩ <;>
      simp [cancelProcessing, Redis.Get, Redis.next, hg, GetResult.text, he, e1, e2]
  | some d =>
    by_cases hst : (jsonUnmarshal d).1.Status ≠ "pending" ∧
        (jsonUnmarshal d).1.Status ≠ "processing"
    · left
      rcases conn with _ | ⟨_ | e, os⟩ <;>
        simp [cancelProcessing, Redis.Get, Redis.next, hg, GetResult.text, he, e1, e2, hst]
    · have hor : (jsonUnmarshal d).1.Status = "pending" ∨
          (jsonUnmarshal d).1.Status = "processing" := by
        by_cases hp : (jsonUnmarshal d).1.Status = "pending"
        · exact Or.inl hp
        · by_cases hq : (jsonUnmarshal d).1.Status = "processing"
          · exact Or.inr hq
          · exact absurd ⟨hp, hq⟩ hst
      rcases conn with _ | ⟨_ | e, _ | ⟨_ | e', os⟩⟩ <;>
        simp [cancelProcessing, Redis.Get, Redis.Set, Redis.next, hg, GetResult.text, he,
          jsonMarshal, e1, e2, hst, hor]

theorem jobProcessorStep_effect (s : Sys) :
    (jobProcessorStep s).redis.kv = s.redis.kv ∧
    ((jobProcessorStep s).workers = s.workers ∨
      ∃ jobID, (jobProcessorStep s).workers = s.workers ++ [Worker.spawned jobID]) := by
  have hk := redisBRPop_kv s.redis
  unfold jobProcessorStep
  rcases hb : s.redis.BRPop with ⟨_ | ⟨e | jobID⟩, r1⟩ <;> rw [hb] at hk <;> simp at hk ⊢ <;>
    exact hk

/-! ## The worker -/

theorem processJobRead_kv (r : Redis) (jobID : String) :
    (processJobRead r jobID).2.kv = r.kv := by
  have h := redisGet_kv r ("job:" ++ jobID)
  unfold processJobRead
  rcases hg : r.Get ("job:" ++ jobID) with ⟨res, r1⟩
  rw [hg] at h
  cases res with
  | val d =>
    cases d with
    | job j => by_cases hc : j.Status = "cancelled" <;> simpa [jsonUnmarshal, hc] using h
    | text p => simpa [jsonUnmarshal] using h
  | nil => simpa using h
  | err e => simpa using h

theorem processJobRead_cancelled (r : Redis) (jobID : String) (j : ProcessingJob)
    (hget : kvGet r.kv ("job:" ++ jobID) = some (Doc.job j)) (hst : j.Status = "cancelled") :
    (processJobRead r jobID).1 = none := by
  unfold processJobRead Redis.Get Redis.next
  rcases hc : r.conn with _ | ⟨_ | e, os⟩ <;> simp [hget, jsonUnmarshal, hst]

theorem processJobRead_healthy (kv : List Entry) (queue : List String) (jobID : String)
    (j : ProcessingJob) (hget : kvGet kv ("job:" ++ jobID) = some (Doc.job j))
    (hst : j.Status ≠ "cancelled") :
    processJobRead ⟨kv, queue, []⟩ jobID = (some j, ⟨kv, queue, []⟩) := by
  simp [processJobRead, Redis.Get, Redis.next, hget, jsonUnmarshal, hst]

theorem processJobRead_some (r : Redis) (jobID : String) (j : ProcessingJob)
    (h : (processJobRead r jobID).1 = some j) :
    kvGet r.kv ("job:" ++ jobID) = some (Doc.job j) ∧ j.Status ≠ "cancelled" := by
  obtain ⟨kv, queue, conn⟩ := r
  have key : ∀ c, (processJobRead ⟨kv, queue, c⟩ jobID).1 = some j →
      (c = [] ∨ ∃ os, c = none :: os) →
      kvGet kv ("job:" ++ jobID) = some (Doc.job j) ∧ j.Status ≠ "cancelled" := by
    intro c h hc
    have h' : (match kvGet kv ("job:" ++ jobID) with
        | some (Doc.job j') => if j'.Status = "cancelled" then none else some j'
        | _ => none) = some j := by
      rcases hc with rfl | ⟨os, rfl⟩ <;>
        simp only [processJobRead, Redis.Get, Redis.next] at h <;>
        rcases hg : kvGet kv ("job:" ++ jobID) with _ | ⟨j' | p⟩ <;>
        simp only [hg, jsonUnmarshal] at h ⊢ <;> first | exact h | split at h <;> simp_all
    rcases hg : kvGet kv ("job:" ++ jobID) with _ | ⟨j' | p⟩ <;> simp only [hg] at h'
    · cases h'
    · by_cases hc' : j'.Status = "cancelled"
      · simp [hc'] at h'
      · simp [hc'] at h'
        subst h'
        exact ⟨rfl, hc'⟩
    · cases h'
  rcases conn with _ | ⟨_ | e, os⟩
  · exact key _ h (Or.inl rfl)
  · exact key _ h (Or.inr ⟨os, rfl⟩)
  · simp [processJobRead, Redis.Get, Redis.next] at h

theorem findInputFile_error {σ : Type} (os : OS σ) (w : σ) (fileID e : String)
    (h : findInputFile os w fileID = Except.error e) :
    e = "input file not found for file ID: " ++ fileID := by
  unfold findInputFile at h
  rcases hg : os.Glob w (filepathJoin ["../uploads", fileID ++ "_*"]) with _ | ⟨_ | ⟨f, fs⟩⟩ <;>
    simp [hg] at h <;> exact h.symm

/-- The four shapes of a worker run: input not found; extraction tool error;
no frames (or a packaging error); success. -/
theorem processJobBody_writes_cases {σ : Type} (os : OS σ) (w : σ) (j : ProcessingJob)
    (jobID : String) (now completedAt : Time) :
    (∃ e, (processJobBody os w j jobID now completedAt).writes =
      [{ j with Status := "processing", Progress := 0, StartedAt := some now },
       { j with Status := "failed", Progress := 0, StartedAt := some now, Error := e,
                CompletedAt := some now }]) ∨
    (∃ e, (processJobBody os w j jobID now completedAt).writes =
      [{ j with Status := "processing", Progress := 0, StartedAt := some now },
       { j with Status := "processing", Progress := 10, StartedAt := some now },
       { j with Status := "failed", Progress := 10, StartedAt := some now, Error := e,
                CompletedAt := some now }]) ∨
    (∃ e, (processJobBody os w j jobID now completedAt).writes =
      [{ j with Status := "processing", Progress := 0, StartedAt := some now },
       { j with Status := "processing", Progress := 10, StartedAt := some now },
       { j with Status := "processing", Progress := 70, StartedAt := some now },
       { j with Status := "failed", Progress := 70, StartedAt := some now, Error := e,
                CompletedAt := some now }]) ∨
    (∃ n : Int, 1 ≤ n ∧ (processJobBody os w j jobID now completedAt).writes =
      [{ j with Status := "processing", Progress := 0, StartedAt := some now },
       { j with Status := "processing", Progress := 10, StartedAt := some now },
       { j with Status := "processing", Progress := 70, StartedAt := some now },
       { j with Status := "processing", Progress := 100, StartedAt := some now },
       { j with Status := "completed", Progress := 100, StartedAt := some now,
                OutputFile := "frames_" ++ jobID ++ ".zip", FrameCount := n,
                CompletedAt := some completedAt }]) := by
  unfold processJobBody
  cases hf : findInputFile os w j.FileID with
  | error e => left; exact ⟨e, by simp [hf]⟩
  | ok input =>
    right
    simp only [hf]
    unfold processVideo
    rcases hff : os.ffmpeg (os.MkdirAll w (filepathJoin ["processing", jobID]))
      ["-i", input, "-vf", "fps=1", "-y",
        filepathJoin [filepathJoin ["processing", jobID], "frame_%04d.png"]] with ⟨w2, out, err⟩
    cases err with
    | some e =>
      left; exact ⟨"ffmpeg error: " ++ e ++ "\nOutput: " ++ jsonText out, by simp [hff]⟩
    | none =>
      right
      rcases hg : os.Glob w2 (filepathJoin [filepathJoin ["processing", jobID], "*.png"])
        with _ | ⟨_ | ⟨f, fs⟩⟩
      · left; exact ⟨"no frames extracted from video", by simp [hff, hg]⟩
      · left; exact ⟨"no frames extracted from video", by simp [hff, hg]⟩
      · right
        refine ⟨((f :: fs).length : Int), by simp, ?_⟩
        simp [hff, hg, createZipFile]

/-! ## The interleaved system -/

theorem inv_step {σ : Type} (os : OS σ) (P : String → ProcessingJob → Prop)
    (hsubmit : ∀ idNow fileID created, fileID ≠ "" →
      P ("job:" ++ generateJobID idNow)
        { ID := generateJobID idNow, FileID := fileID, Status := "pending", Progress := 0,
          CreatedAt := created })
    (hcancel : ∀ jobID j now, P ("job:" ++ jobID) j →
      j.Status = "pending" ∨ j.Status = "processing" →
      P ("job:" ++ jobID) { j with Status := "cancelled", CompletedAt := some now })
    (hworker : ∀ w jobID j now completedAt, P ("job:" ++ jobID) j → j.Status ≠ "cancelled" →
      ∀ x ∈ (processJobBody os w j jobID now completedAt).writes, P ("job:" ++ x.ID) x)
    (s : Sys) (l : Label σ) (h : Inv P s) : Inv P (step os s l) := by
  obtain ⟨hkv, hws⟩ := h
  have hset : ∀ (kv' : List Entry) key j, (kv' = s.redis.kv ∨
      kv' = kvSet s.redis.kv key (Doc.job j) (24 * Hour)) → P key j →
      ∀ k d, kvGet kv' k = some d → ∃ j, d = Doc.job j ∧ P k j := by
    intro kv' key j hor hP k d hd
    rcases hor with rfl | rfl
    · exact hkv k d hd
    · rw [kvGet_kvSet] at hd
      by_cases hk : k = key
      · rw [if_pos hk] at hd
        cases hd
        exact ⟨j, rfl, hk ▸ hP⟩
      · rw [if_neg hk] at hd
        exact hkv k d hd
  cases l with
  | submit body idNow createdNow =>
    refine ⟨?_, hws⟩
    rcases startProcessing_kv s.redis body idNow createdNow with h | ⟨req, _, hne, h⟩
    · intro k d hd
      simp only [step] at hd
      rw [h] at hd
      exact hkv k d hd
    · exact hset _ _ _ (Or.inr h) (hsubmit idNow req.FileID createdNow hne)
  | cancel jobID now =>
    refine ⟨?_, hws⟩
    rcases cancelProcessing_kv s.redis jobID now with h | ⟨d, hd, hst, h⟩
    · intro k d hd
      simp only [step] at hd
      rw [h] at hd
      exact hkv k d hd
    · obtain ⟨j, rfl, hP⟩ := hkv _ d hd
      exact hset _ _ _ (Or.inr h) (hcancel jobID j now hP hst)
  | dequeue =>
    obtain ⟨h1, h2⟩ := jobProcessorStep_effect s
    refine ⟨?_, ?_⟩
    · intro k d hd
      simp only [step] at hd
      rw [h1] at hd
      exact hkv k d hd
    · intro ws hmem
      simp only [step] at hmem
      rcases h2 with h2 | ⟨jobID, h2⟩ <;> rw [h2] at hmem
      · exact hws ws hmem
      · simp at hmem
        exact hws ws hmem
  | workerRead i w now completedAt =>
    simp only [step]
    rcases hi : s.workers.get? i with _ | ⟨jobID | pending⟩
    · exact ⟨hkv, hws⟩
    · have hk := processJobRead_kv s.redis jobID
      have hsome := processJobRead_some s.redis jobID
      refine ⟨by simp only [hk]; exact hkv, ?_⟩
      intro ws hmem x hx
      rcases List.mem_or_eq_of_mem_set hmem with hmem | heq
      · exact hws ws hmem x hx
      · cases heq
        cases hread : (processJobRead s.redis jobID).1 with
        | none => rw [hread] at hx; simp [workerWrites] at hx
        | some j =>
          rw [hread] at hx
          obtain ⟨hg, hnc⟩ := hsome j hread
          obtain ⟨j', hj', hP⟩ := hkv _ _ hg
          cases hj'
          exact hworker w jobID j now completedAt hP hnc x hx
    · exact ⟨hkv, hws⟩
  | workerWrite i =>
    simp only [step]
    rcases hi : s.workers.get? i with _ | ⟨jobID | pending⟩
    · exact ⟨hkv, hws⟩
    · exact ⟨hkv, hws⟩
    · cases pending with
      | nil => exact ⟨hkv, hws⟩
      | cons job rest =>
        have hmem : Worker.running (job :: rest) ∈ s.workers := List.get?_mem hi
        have hP := hws _ hmem
        refine ⟨hset _ _ _ (updateJob_kv s.redis job) (hP job (List.mem_cons_self _ _)), ?_⟩
        intro ws hm x hx
        rcases List.mem_or_eq_of_mem_set hm with hm | heq
        · exact hws ws hm x hx
        · cases heq
          exact hP x (List.mem_cons_of_mem _ hx)

theorem inv_reachable {σ : Type} (os : OS σ) (P : String → ProcessingJob → Prop)
    (hsubmit : ∀ idNow fileID created, fileID ≠ "" →
      P ("job:" ++ generateJobID idNow)
        { ID := generateJobID idNow, FileID := fileID, Status := "pending", Progress := 0,
          CreatedAt := created })
    (hcancel : ∀ jobID j now, P ("job:" ++ jobID) j →
      j.Status = "pending" ∨ j.Status = "processing" →
      P ("job:" ++ jobID) { j with Status := "cancelled", CompletedAt := some now })
    (hworker : ∀ w jobID j now completedAt, P ("job:" ++ jobID) j → j.Status ≠ "cancelled" →
      ∀ x ∈ (processJobBody os w j jobID now completedAt).writes, P ("job:" ++ x.ID) x)
    (s : Sys) (h : Reachable os s) : Inv P s := by
  obtain ⟨conn, ls, rfl⟩ := h
  have hgen : ∀ (ls : List (Label σ)) (s0 : Sys), Inv P s0 → Inv P (run os s0 ls) := by
    intro ls
    induction ls with
    | nil => intro s0 h0; exact h0
    | cons l ls ih =>
      intro s0 h0
      exact ih _ (inv_step os P hsubmit hcancel hworker s0 l h0)
  apply hgen
  exact ⟨by intro k d hd; simp [kvGet] at hd, by intro ws hmem; simp at hmem⟩

/-- In every reachable state each stored value is a job record with a status
of the data model, stored under the key of its own id. -/
theorem reachable_statuses {σ : Type} (os : OS σ) (s : Sys) (h : Reachable os s) (k : String)
    (d : Doc) (hget : kvGet s.redis.kv k = some d) :
    ∃ j, d = Doc.job j ∧ j.Status ∈ statuses ∧ k = "job:" ++ j.ID := by
  have hinv := inv_reachable os (fun k j => j.Status ∈ statuses ∧ k = "job:" ++ j.ID)
    (by intro _ _ _ _; simp [statuses])
    (by intro _ _ _ h _; simpa [statuses] using h.2)
    (by
      intro w jobID j now completedAt _ _
      rcases processJobBody_writes_cases os w j jobID now completedAt with
        ⟨e, h⟩ | ⟨e, h⟩ | ⟨e, h⟩ | ⟨n, _, h⟩ <;> rw [h] <;> simp [statuses])
    s h
  exact hinv.1 k d hget

theorem terminal_frame_step {σ : Type} (os : OS σ) (s : Sys) (key : String) (j : ProcessingJob)
    (l : Label σ) (hget : kvGet s.redis.kv key = some (Doc.job j)) (hterm : terminal j.Status)
    (hav : writesKey s key l = false) :
    kvGet (step os s l).redis.kv key = some (Doc.job j) := by
  cases l with
  | submit body idNow createdNow =>
    simp only [writesKey, decide_eq_false_iff_not] at hav
    simp only [step]
    rcases startProcessing_kv s.redis body idNow createdNow with h | ⟨req, _, _, h⟩
    · rw [h]; exact hget
    · rw [h, kvGet_kvSet, if_neg (fun hk => hav hk.symm)]; exact hget
  | cancel jobID now =>
    simp only [step]
    rcases cancelProcessing_kv s.redis jobID now with h | ⟨d, hd, hst, h⟩
    · rw [h]; exact hget
    · rw [h, kvGet_kvSet]
      by_cases hk : key = "job:" ++ jobID
      · subst hk
        rw [hget] at hd
        cases hd
        simp only [jsonUnmarshal] at hst
        rcases hterm with ht | ht | ht <;> rw [ht] at hst <;> simp at hst
      · rw [if_neg hk]; exact hget
  | dequeue =>
    simp only [step]
    rw [(jobProcessorStep_effect s).1]; exact hget
  | workerRead i w now completedAt =>
    simp only [step]
    rcases hi : s.workers.get? i with _ | ⟨jobID | pending⟩
    · exact hget
    · simp only [processJobRead_kv]; exact hget
    · exact hget
  | workerWrite i =>
    simp only [step]
    rcases hi : s.workers.get? i with _ | ⟨jobID | pending⟩
    · exact hget
    · exact hget
    · cases pending with
      | nil => exact hget
      | cons job rest =>
        simp only [writesKey, hi, decide_eq_false_iff_not] at hav
        simp only
        rcases updateJob_kv s.redis job with h | h
        · rw [h]; exact hget
        · rw [h, kvGet_kvSet, if_neg (fun hk => hav hk.symm)]; exact hget


theorem run_worker_writes {σ : Type} (os : OS σ) (i : Nat) (ws : List ProcessingJob)
    (r : Redis) (workers : List Worker) (hi : workers.get? i = some (Worker.running ws)) :
    (run os ⟨r, workers⟩ (List.replicate ws.length (Label.workerWrite i))).redis =
      ws.foldl updateJob r := by
  induction ws generalizing r workers with
  | nil => rfl
  | cons x xs ih =>
    have hlt : i < workers.length := by
      rcases Nat.lt_or_ge i workers.length with h | h
      · exact h
      · rw [List.get?_eq_none.mpr h] at hi
        cases hi
    simp only [List.length_cons, List.replicate_succ, run, List.foldl_cons, step, hi]
    exact ih (updateJob r x) (workers.set i (Worker.running xs)) (by simp [hlt])

/-- A worker's read step followed by all its write steps, with no other step
in between, leaves the store that `processJob` leaves. -/
theorem run_worker_eq_processJob {σ : Type} (os : OS σ) (s : Sys) (i : Nat) (jobID : String)
    (w : σ) (now completedAt : Time) (hi : s.workers.get? i = some (Worker.spawned jobID)) :
    (run os s (Label.workerRead i w now completedAt ::
        List.replicate (processJob os w s.redis jobID now completedAt).2.length
          (Label.workerWrite i))).redis =
      (processJob os w s.redis jobID now completedAt).1 := by
  have hlt : i < s.workers.length := by
    rcases Nat.lt_or_ge i s.workers.length with h | h
    · exact h
    · rw [List.get?_eq_none.mpr h] at hi
      cases hi
  simp only [run, List.foldl_cons, step, hi, processJob]
  exact run_worker_writes os i _ _ _ (by simp [hlt])

/-! ## Job API: submit and cancel -/

/-- C1. A submit request whose `file_id` is empty or missing (or whose body
does not decode) is answered 400 and leaves store and queue as they were.
Any other request, on a connection whose commands succeed, is answered 200,
stores under the key of the new job id the record with that id, the given
`file_id`, status `pending` and progress 0, leaves the other keys as they
were, and pushes the job id onto the processing queue. -/
theorem startProcessing_contract (kv : List Entry) (queue : List String)
    (conn : List (Option String)) (body : Except String ProcessRequest)
    (idNow createdNow : Time) :
    ((∀ req, body = Except.ok req → req.FileID = "") →
      (startProcessing ⟨kv, queue, conn⟩ body idNow createdNow).1.code = 400 ∧
      (startProcessing ⟨kv, queue, conn⟩ body idNow createdNow).2 = ⟨kv, queue, conn⟩) ∧
    (∀ req, body = Except.ok req → req.FileID ≠ "" →
      (startProcessing ⟨kv, queue, []⟩ body idNow createdNow).1.code = 200 ∧
      kvGet (startProcessing ⟨kv, queue, []⟩ body idNow createdNow).2.kv
          ("job:" ++ generateJobID idNow) =
        some (Doc.job { ID := generateJobID idNow, FileID := req.FileID, Status := "pending",
                        Progress := 0, CreatedAt := createdNow }) ∧
      (∀ k, k ≠ "job:" ++ generateJobID idNow →
        kvGet (startProcessing ⟨kv, queue, []⟩ body idNow createdNow).2.kv k = kvGet kv k) ∧
      (startProcessing ⟨kv, queue, []⟩ body idNow createdNow).2.queue =
        generateJobID idNow :: queue) := by
  constructor
  · intro h
    cases body with
    | error e => simp [startProcessing, ShouldBindJSON]
    | ok req => simp [startProcessing, ShouldBindJSON, h req rfl]
  · intro req hb hne
    subst hb
    simp [startProcessing, ShouldBindJSON, hne, Redis.Set, Redis.LPush, Redis.next, kvGet_kvSet,
      jsonMarshal]
    intro k hk
    simp [hk]

theorem startProcessing_contract_witness :
    (startProcessing ⟨[], [], []⟩ (Except.ok ⟨""⟩) 1 2).1.code = 400 ∧
    (startProcessing ⟨[], [], []⟩ (Except.ok ⟨""⟩) 1 2).2 = ⟨[], [], []⟩ ∧
    (startProcessing ⟨[], [], []⟩ (Except.ok ⟨"abc123"⟩) 1 2).1.code = 200 ∧
    (startProcessing ⟨[], [], []⟩ (Except.ok ⟨"abc123"⟩) 1 2).2.queue = ["job_1"] :=
  ⟨((startProcessing_contract [] [] [] (Except.ok ⟨""⟩) 1 2).1
      (fun req h => by cases h; rfl)).1,
   ((startProcessing_contract [] [] [] (Except.ok ⟨""⟩) 1 2).1
      (fun req h => by cases h; rfl)).2,
   ((startProcessing_contract [] [] [] (Except.ok ⟨"abc123"⟩) 1 2).2 ⟨"abc123"⟩ rfl
      (by decide)).1,
   ((startProcessing_contract [] [] [] (Except.ok ⟨"abc123"⟩) 1 2).2 ⟨"abc123"⟩ rfl
      (by decide)).2.2.2⟩

/-- C2. For a stored job whose status is `pending` or `processing`, on a
connection whose commands succeed, `cancelProcessing` answers 200 and the
record stored afterwards is the one read with status `cancelled` and
`CompletedAt` the time of the call. -/
theorem cancelProcessing_cancels (kv : List Entry) (queue : List String) (jobID : String)
    (now : Time) (j : ProcessingJob)
    (hget : kvGet kv ("job:" ++ jobID) = some (Doc.job j))
    (hst : j.Status = "pending" ∨ j.Status = "processing") :
    (cancelProcessing ⟨kv, queue, []⟩ jobID now).1.code = 200 ∧
    kvGet (cancelProcessing ⟨kv, queue, []⟩ jobID now).2.kv ("job:" ++ jobID) =
      some (Doc.job { j with Status := "cancelled", CompletedAt := some now }) := by
  rcases hst with h | h <;>
    simp [cancelProcessing, Redis.Get, Redis.Set, Redis.next, hget, GetResult.text, jsonUnmarshal,
      jsonMarshal, h, kvGet_kvSet]

theorem cancelProcessing_cancels_witness :
    (cancelProcessing ⟨demoStore demoPending, [], []⟩ "job_1" 5).1.code = 200 ∧
    kvGet (cancelProcessing ⟨demoStore demoPending, [], []⟩ "job_1" 5).2.kv "job:job_1" =
      some (Doc.job { demoPending with Status := "cancelled", CompletedAt := some 5 }) :=
  cancelProcessing_cancels (demoStore demoPending) [] "job_1" 5 demoPending (by decide)
    (Or.inl rfl)

/-- C3. When the record under the job's key, if there is one, is a job record
with a status of the data model, `cancelProcessing` answers 404 exactly when
there is no record and 400 exactly when the record's status is terminal; it
answers something other than 200 in these two cases only, and then the store
and the queue are as before the call. -/
theorem cancelProcessing_rejections (kv : List Entry) (queue : List String) (jobID : String)
    (now : Time)
    (hwf : ∀ d, kvGet kv ("job:" ++ jobID) = some d → ∃ j, d = Doc.job j ∧ j.Status ∈ statuses) :
    ((cancelProcessing ⟨kv, queue, []⟩ jobID now).1.code = 404 ↔
      kvGet kv ("job:" ++ jobID) = none) ∧
    ((cancelProcessing ⟨kv, queue, []⟩ jobID now).1.code = 400 ↔
      ∃ j, kvGet kv ("job:" ++ jobID) = some (Doc.job j) ∧ terminal j.Status) ∧
    ((cancelProcessing ⟨kv, queue, []⟩ jobID now).1.code ≠ 200 ↔
      (cancelProcessing ⟨kv, queue, []⟩ jobID now).1.code = 404 ∨
      (cancelProcessing ⟨kv, queue, []⟩ jobID now).1.code = 400) ∧
    ((cancelProcessing ⟨kv, queue, []⟩ jobID now).1.code ≠ 200 →
      (cancelProcessing ⟨kv, queue, []⟩ jobID now).2 = ⟨kv, queue, []⟩) := by
  cases hg : kvGet kv ("job:" ++ jobID) with
  | none => simp [cancelProcessing, Redis.Get, Redis.next, hg]
  | some d =>
    obtain ⟨j, rfl, hj⟩ := hwf d hg
    simp only [statuses, List.mem_cons, List.mem_singleton, List.not_mem_nil, or_false] at hj
    rcases hj with h | h | h | h | h <;>
      simp [cancelProcessing, Redis.Get, Redis.Set, Redis.next, hg, GetResult.text, jsonUnmarshal,
        jsonMarshal, h, terminal]

theorem cancelProcessing_rejections_witness :
    (cancelProcessing ⟨demoStore demoCompleted, [], []⟩ "job_1" 5).1.code = 400 ∧
    (cancelProcessing ⟨demoStore demoCompleted, [], []⟩ "job_1" 5).2 =
      ⟨demoStore demoCompleted, [], []⟩ :=
  have h := cancelProcessing_rejections (demoStore demoCompleted) [] "job_1" 5
    (fun d hd => ⟨demoCompleted,
      by
        have h0 : kvGet (demoStore demoCompleted) ("job:" ++ "job_1") =
            some (Doc.job demoCompleted) := by decide
        rw [h0] at hd
        exact (Option.some.inj hd).symm,
      by decide⟩)
  have h400 : (cancelProcessing ⟨demoStore demoCompleted, [], []⟩ "job_1" 5).1.code = 400 :=
    h.2.1.2 ⟨demoCompleted, by decide, by decide⟩
  ⟨h400, h.2.2.2 (fun h200 => by rw [h400] at h200; exact absurd h200 (by decide))⟩

/-! ## Worker runs -/

/-- C4. When the record the worker reads has status `cancelled`, the worker
hands nothing to `updateJob`: the run leaves every key as it was, the record
is the one the cancel left, and in the interleaved system the worker's read
step leaves it with no write to make, so that its write step changes
nothing. This holds whatever the connection does. -/
theorem processJob_cancelled_no_write {σ : Type} (os : OS σ) (w : σ) (r : Redis)
    (jobID : String) (now completedAt : Time) (j : ProcessingJob)
    (hget : kvGet r.kv ("job:" ++ jobID) = some (Doc.job j)) (hst : j.Status = "cancelled") :
    (processJob os w r jobID now completedAt).2 = [] ∧
    (processJob os w r jobID now completedAt).1.kv = r.kv ∧
    kvGet (processJob os w r jobID now completedAt).1.kv ("job:" ++ jobID) = some (Doc.job j) ∧
    ∀ (workers : List Worker) (i : Nat), workers.get? i = some (Worker.spawned jobID) →
      (step os ⟨r, workers⟩ (Label.workerRead i w now completedAt)).redis.kv = r.kv ∧
      (step os ⟨r, workers⟩ (Label.workerRead i w now completedAt)).workers.get? i =
        some (Worker.running []) ∧
      step os (step os ⟨r, workers⟩ (Label.workerRead i w now completedAt))
          (Label.workerWrite i) =
        step os ⟨r, workers⟩ (Label.workerRead i w now completedAt) := by
  have h1 := processJobRead_cancelled r jobID j hget hst
  have h2 := processJobRead_kv r jobID
  have hp : (processJob os w r jobID now completedAt).2 = [] ∧
      (processJob os w r jobID now completedAt).1.kv = r.kv := by
    unfold processJob
    rcases hr : processJobRead r jobID with ⟨read, r1⟩
    rw [hr] at h1 h2
    simp only at h1 h2
    subst h1
    simp [workerWrites, h2]
  refine ⟨hp.1, hp.2, by rw [hp.2]; exact hget, ?_⟩
  intro workers i hi
  have hlt : i < workers.length := by
    rcases Nat.lt_or_ge i workers.length with h | h
    · exact h
    · rw [List.get?_eq_none.mpr h] at hi
      cases hi
  have hs : step os ⟨r, workers⟩ (Label.workerRead i w now completedAt) =
      ⟨(processJobRead r jobID).2, workers.set i (Worker.running [])⟩ := by
    simp only [step, hi]
    rcases hr : processJobRead r jobID with ⟨read, r1⟩
    rw [hr] at h1
    simp only at h1
    subst h1
    simp [workerWrites]
  rw [hs]
  refine ⟨h2, by simp [hlt], ?_⟩
  simp [step, hlt]

theorem processJob_cancelled_no_write_witness :
    (processJob testOS demoUploads ⟨demoStore demoCancelled, [], []⟩ "job_1" 6 7).2 = [] ∧
    kvGet (processJob testOS demoUploads ⟨demoStore demoCancelled, [], []⟩ "job_1" 6 7).1.kv
        ("job:" ++ "job_1") = some (Doc.job demoCancelled) :=
  have h := processJob_cancelled_no_write testOS demoUploads
    ⟨demoStore demoCancelled, [], []⟩ "job_1" 6 7 demoCancelled (by decide) rfl
  ⟨h.1, h.2.2.1⟩

/-- C5. When `findInputFile` finds no match for the file id of the job the
worker has read, the run, on a connection whose commands succeed, ends with
the stored record in status `failed` with the error
`input file not found for file ID: ` followed by the file id, which is not
empty, and hands no record with status `completed` to `updateJob`. -/
theorem processJob_input_not_found {σ : Type} (os : OS σ) (w : σ) (kv : List Entry)
    (queue : List String) (jobID : String) (now completedAt : Time) (j : ProcessingJob)
    (e : String)
    (hget : kvGet kv ("job:" ++ jobID) = some (Doc.job j)) (hst : j.Status ≠ "cancelled")
    (hfind : findInputFile os w j.FileID = Except.error e) :
    kvGet (processJob os w ⟨kv, queue, []⟩ jobID now completedAt).1.kv ("job:" ++ j.ID) =
      some (Doc.job { j with Status := "failed", Progress := 0, StartedAt := some now,
                             Error := "input file not found for file ID: " ++ j.FileID,
                             CompletedAt := some now }) ∧
    "input file not found for file ID: " ++ j.FileID ≠ "" ∧
    ∀ x ∈ (processJob os w ⟨kv, queue, []⟩ jobID now completedAt).2, x.Status ≠ "completed" := by
  have he := findInputFile_error os w j.FileID e hfind
  subst he
  have hw : workerWrites os w (some j) jobID now completedAt =
      [{ j with Status := "processing", Progress := 0, StartedAt := some now },
       { j with Status := "failed", Progress := 0, StartedAt := some now,
                Error := "input file not found for file ID: " ++ j.FileID,
                CompletedAt := some now }] := by
    simp [workerWrites, processJobBody, hfind]
  refine ⟨?_, append_ne_empty _ _ (by decide), ?_⟩
  · simp [processJob, processJobRead_healthy kv queue jobID j hget hst, hw, updateJob_healthy,
      kvGet_kvSet]
  · simp [processJob, processJobRead_healthy kv queue jobID j hget hst, hw]

theorem processJob_input_not_found_witness :
    findInputFile testOS demoUploads "missing" =
      Except.error "input file not found for file ID: missing" ∧
    kvGet (processJob testOS demoUploads ⟨demoStore demoMissing, [], []⟩ "job_1" 3 4).1.kv
        "job:job_1" =
      some (Doc.job { demoMissing with Status := "failed", StartedAt := some 3,
                                       CompletedAt := some 3,
                                       Error := "input file not found for file ID: missing" }) :=
  ⟨by rfl,
    (processJob_input_not_found testOS demoUploads (demoStore demoMissing) [] "job_1" 3 4
      demoMissing "input file not found for file ID: missing"
      (by decide) (by decide) (by rfl)).1⟩

/-- C6. When the input of the job the worker has read resolves, the
extraction tool reports no error and the frame listing has `n ≥ 1` entries,
the run for job id `jobID`, on a connection whose commands succeed, ends with
the stored record in status `completed`, with progress 100, frame count `n`
and output name `frames_` followed by `jobID` and `.zip`. -/
theorem processJob_completed {σ : Type} (os : OS σ) (w w2 : σ) (kv : List Entry)
    (queue : List String) (jobID : String) (now completedAt : Time) (j : ProcessingJob)
    (inputFile : String) (output : List Nat) (frames : List String)
    (hget : kvGet kv ("job:" ++ jobID) = some (Doc.job j)) (hst : j.Status ≠ "cancelled")
    (hfind : findInputFile os w j.FileID = Except.ok inputFile)
    (hff : os.ffmpeg (os.MkdirAll w (filepathJoin ["processing", jobID]))
        ["-i", inputFile, "-vf", "fps=1", "-y",
          filepathJoin [filepathJoin ["processing", jobID], "frame_%04d.png"]] =
        (w2, output, none))
    (hglob : os.Glob w2 (filepathJoin [filepathJoin ["processing", jobID], "*.png"]) =
        some frames)
    (hn : 1 ≤ frames.length) :
    kvGet (processJob os w ⟨kv, queue, []⟩ jobID now completedAt).1.kv ("job:" ++ j.ID) =
      some (Doc.job { j with Status := "completed", Progress := 100, StartedAt := some now,
                             OutputFile := "frames_" ++ jobID ++ ".zip",
                             FrameCount := (frames.length : Int),
                             CompletedAt := some completedAt }) := by
  obtain ⟨f, fs, rfl⟩ : ∃ f fs, frames = f :: fs := by
    cases frames with
    | nil => simp at hn
    | cons f fs => exact ⟨f, fs, rfl⟩
  have hw : workerWrites os w (some j) jobID now completedAt =
      [{ j with Status := "processing", Progress := 0, StartedAt := some now },
       { j with Status := "processing", Progress := 10, StartedAt := some now },
       { j with Status := "processing", Progress := 70, StartedAt := some now },
       { j with Status := "processing", Progress := 100, StartedAt := some now },
       { j with Status := "completed", Progress := 100, StartedAt := some now,
                OutputFile := "frames_" ++ jobID ++ ".zip",
                FrameCount := ((f :: fs).length : Int),
                CompletedAt := some completedAt }] := by
    simp [workerWrites, processJobBody, hfind, processVideo, hff, hglob, createZipFile]
  simp [processJob, processJobRead_healthy kv queue jobID j hget hst, hw, updateJob_healthy,
    kvGet_kvSet]

theorem processJob_completed_witness :
    testOS.Glob (demoUploads ++ demoFrames) "processing/job_1/*.png" = some demoFrames ∧
    demoFrames.length = 3 ∧
    kvGet (processJob testOS demoUploads ⟨demoStore demoPending, [], []⟩ "job_1" 3 4).1.kv
        "job:job_1" = some (Doc.job demoCompleted) :=
  ⟨by decide, by decide,
    processJob_completed testOS demoUploads (demoUploads ++ demoFrames) (demoStore demoPending)
      [] "job_1" 3 4 demoPending "../uploads/abc123_1700000000_video.mp4" [] demoFrames
      (by decide) (by decide) (by rfl) (by decide) (by decide) (by decide)⟩

/-- C7 (as stated) fails. After submit, dequeue and the worker's read, a
cancel stores the record with the terminal status `cancelled`; the next step,
the worker's first write, replaces it by a record with status `processing`
and no `CompletedAt`. And with the cancel request taken as its two commands:
its `GET` comes after the first write of the worker and reads the record as
processing, the worker makes its other four writes and the stored record has
the terminal status `completed`, and the `SET` of the cancel request then
replaces it by the record that was read, with status `cancelled`, progress 0
and no output. -/
theorem terminal_record_overwritten :
    kvGet (run testOS {} (demoStart ++ [Label.cancel "job_1" 5])).redis.kv "job:job_1" =
      some (Doc.job demoCancelled) ∧
    terminal demoCancelled.Status ∧
    kvGet (run testOS {} (demoStart ++ [Label.cancel "job_1" 5, Label.workerWrite 0])).redis.kv
        "job:job_1" =
      some (Doc.job { demoPending with Status := "processing", StartedAt := some 3 }) ∧
    kvGet (concRun testOS {} (demoStart.map ConcLabel.whole ++
        [ConcLabel.whole (Label.workerWrite 0), ConcLabel.cancelRead "job_1" 5,
          ConcLabel.whole (Label.workerWrite 0), ConcLabel.whole (Label.workerWrite 0),
          ConcLabel.whole (Label.workerWrite 0),
          ConcLabel.whole (Label.workerWrite 0)])).sys.redis.kv "job:job_1" =
      some (Doc.job demoCompleted) ∧
    terminal demoCompleted.Status ∧
    kvGet (concRun testOS {} (demoStart.map ConcLabel.whole ++
        [ConcLabel.whole (Label.workerWrite 0), ConcLabel.cancelRead "job_1" 5,
          ConcLabel.whole (Label.workerWrite 0), ConcLabel.whole (Label.workerWrite 0),
          ConcLabel.whole (Label.workerWrite 0), ConcLabel.whole (Label.workerWrite 0),
          ConcLabel.cancelWrite 0])).sys.redis.kv "job:job_1" =
      some (Doc.job { demoProcessing 0 with Status := "cancelled", CompletedAt := some 5 }) := by
  decide

/-- C8. For a worker run on a job whose stored record is `pending`, on a
connection whose commands succeed: the statuses of the records it hands to
`updateJob`, in order and starting from `pending`, only repeat or follow the
edges pending to processing, processing to completed and processing to
failed; the first record written is the one read with status `processing`,
progress 0 and `StartedAt` set; a record with status `completed` is never the
first one written; and each record is the stored record of its key right
after it is written. -/
theorem processJob_status_edges {σ : Type} (os : OS σ) (w : σ) (kv : List Entry)
    (queue : List String) (jobID : String) (now completedAt : Time) (j : ProcessingJob)
    (hget : kvGet kv ("job:" ++ jobID) = some (Doc.job j)) (hst : j.Status = "pending") :
    List.Chain Follows j.Status
      ((processJob os w ⟨kv, queue, []⟩ jobID now completedAt).2.map (fun x => x.Status)) ∧
    (processJob os w ⟨kv, queue, []⟩ jobID now completedAt).2.head? =
      some { j with Status := "processing", Progress := 0, StartedAt := some now } ∧
    (∀ n x, (processJob os w ⟨kv, queue, []⟩ jobID now completedAt).2.get? n = some x →
      x.Status = "completed" → 0 < n) ∧
    (∀ n x, (processJob os w ⟨kv, queue, []⟩ jobID now completedAt).2.get? n = some x →
      kvGet (((processJob os w ⟨kv, queue, []⟩ jobID now completedAt).2.take (n + 1)).foldl
        updateJob ⟨kv, queue, []⟩).kv ("job:" ++ x.ID) = some (Doc.job x)) := by
  have hne : j.Status ≠ "cancelled" := by rw [hst]; decide
  have hp : (processJob os w ⟨kv, queue, []⟩ jobID now completedAt).2 =
      (processJobBody os w j jobID now completedAt).writes := by
    simp [processJob, processJobRead_healthy kv queue jobID j hget hne, workerWrites]
  rw [hp, hst]
  refine ⟨?_, ?_, ?_, fun n x h => writes_persisted kv queue _ n x h⟩
  · rcases processJobBody_writes_cases os w j jobID now completedAt with
      ⟨e, h⟩ | ⟨e, h⟩ | ⟨e, h⟩ | ⟨n, _, h⟩ <;> rw [h] <;> simp [Follows, Edge]
  · rcases processJobBody_writes_cases os w j jobID now completedAt with
      ⟨e, h⟩ | ⟨e, h⟩ | ⟨e, h⟩ | ⟨n, _, h⟩ <;> rw [h] <;> simp
  · intro n x hx hc
    rcases Nat.eq_zero_or_pos n with h0 | h0
    · subst h0
      rcases processJobBody_writes_cases os w j jobID now completedAt with
        ⟨e, h⟩ | ⟨e, h⟩ | ⟨e, h⟩ | ⟨n, _, h⟩ <;> rw [h] at hx <;> simp at hx <;>
        subst hx <;> simp at hc
    · exact h0

theorem processJob_status_edges_witness :
    (processJob testOS demoUploads ⟨demoStore demoPending, [], []⟩ "job_1" 3 4).2.map
        (fun x => x.Status) =
      ["processing", "processing", "processing", "processing", "completed"] ∧
    List.Chain Follows demoPending.Status
      ((processJob testOS demoUploads ⟨demoStore demoPending, [], []⟩ "job_1" 3 4).2.map
        (fun x => x.Status)) :=
  ⟨by decide,
    (processJob_status_edges testOS demoUploads (demoStore demoPending) [] "job_1" 3 4
      demoPending (by decide) rfl).1⟩


/-- C9 (as amended). In every reachable state, whatever the interleaving and
the connection outcomes, a stored job record with status `completed` has
progress 100. -/
theorem stored_completed_has_full_progress {σ : Type} (os : OS σ) (s : Sys)
    (h : Reachable os s) (k : String) (j : ProcessingJob)
    (hget : kvGet s.redis.kv k = some (Doc.job j)) (hst : j.Status = "completed") :
    j.Progress = 100 := by
  have hinv := inv_reachable os (fun _ j => j.Status = "completed" → j.Progress = 100)
    (by intro _ _ _ _ hc; simp at hc)
    (by intro _ _ _ _ _ hc; simp at hc)
    (by
      intro w jobID j now completedAt _ _
      rcases processJobBody_writes_cases os w j jobID now completedAt with
        ⟨e, h⟩ | ⟨e, h⟩ | ⟨e, h⟩ | ⟨n, _, h⟩ <;> rw [h] <;> simp)
    s h
  obtain ⟨j', hj', hP⟩ := hinv.1 k _ hget
  cases hj'
  exact hP hst

theorem stored_completed_has_full_progress_witness :
    Reachable testOS (run testOS {} (demoStart ++ [Label.workerWrite 0, Label.workerWrite 0,
        Label.workerWrite 0, Label.workerWrite 0, Label.workerWrite 0])) ∧
    kvGet (run testOS {} (demoStart ++ [Label.workerWrite 0, Label.workerWrite 0,
        Label.workerWrite 0, Label.workerWrite 0, Label.workerWrite 0])).redis.kv "job:job_1" =
      some (Doc.job demoCompleted) ∧
    demoCompleted.Progress = 100 :=
  ⟨⟨[], _, rfl⟩, by decide,
    stored_completed_has_full_progress testOS
      (run testOS {} (demoStart ++ [Label.workerWrite 0, Label.workerWrite 0,
        Label.workerWrite 0, Label.workerWrite 0, Label.workerWrite 0]))
      ⟨[], _, rfl⟩ "job:job_1" demoCompleted (by decide) rfl⟩

/-- C9 (as stated) fails. After submit, dequeue, the worker's read and its
first four writes, the stored record has progress 100 and status
`processing`: the worker persists the checkpoint after packaging before the
write that completes the job. -/
theorem full_progress_while_processing :
    kvGet (run testOS {} (demoStart ++ [Label.workerWrite 0, Label.workerWrite 0,
        Label.workerWrite 0, Label.workerWrite 0])).redis.kv "job:job_1" =
      some (Doc.job { demoPending with Status := "processing", Progress := 100,
                                       StartedAt := some 3 }) := by
  decide

/-- C10. For every worker run, the progress values of the records it hands
to `updateJob`, in order, lie between 0 and 100, never decrease and, repeats
left out, are 0, 10, 70, 100 or a prefix of it; on a connection whose
commands succeed each of these records is the stored record of its key right
after it is written. -/
theorem processJob_progress_monotone {σ : Type} (os : OS σ) (w : σ) (r : Redis)
    (jobID : String) (now completedAt : Time) :
    (∀ x ∈ (processJob os w r jobID now completedAt).2, 0 ≤ x.Progress ∧ x.Progress ≤ 100) ∧
    List.Chain' (fun a b : Int => a ≤ b)
      ((processJob os w r jobID now completedAt).2.map (fun x => x.Progress)) ∧
    List.destutter (fun a b : Int => a ≠ b)
      ((processJob os w r jobID now completedAt).2.map (fun x => x.Progress)) <+:
        [0, 10, 70, 100] ∧
    (r.conn = [] → ∀ n x, (processJob os w r jobID now completedAt).2.get? n = some x →
      kvGet (((processJob os w r jobID now completedAt).2.take (n + 1)).foldl
        updateJob (processJobRead r jobID).2).kv ("job:" ++ x.ID) = some (Doc.job x)) := by
  have hp : (processJob os w r jobID now completedAt).2 =
      workerWrites os w (processJobRead r jobID).1 jobID now completedAt := by
    simp [processJob]
  have hpersist : r.conn = [] → ∀ n x,
      (processJob os w r jobID now completedAt).2.get? n = some x →
      kvGet (((processJob os w r jobID now completedAt).2.take (n + 1)).foldl
        updateJob (processJobRead r jobID).2).kv ("job:" ++ x.ID) = some (Doc.job x) := by
    intro hc n x hx
    obtain ⟨kv, queue, conn⟩ := r
    simp only at hc
    subst hc
    have hr : (processJobRead ⟨kv, queue, []⟩ jobID).2 = ⟨kv, queue, []⟩ := by
      simp only [processJobRead, Redis.Get, Redis.next]
      rcases kvGet kv ("job:" ++ jobID) with _ | ⟨j | p⟩
      · rfl
      · simp only [jsonUnmarshal]; split <;> rfl
      · rfl
    rw [hr]
    exact writes_persisted kv queue _ n x hx
  refine ⟨?_, ?_, ?_, hpersist⟩ <;> rw [hp] <;>
    cases (processJobRead r jobID).1 with
    | none => simp [workerWrites]
    | some j =>
      simp only [workerWrites]
      rcases processJobBody_writes_cases os w j jobID now completedAt with
        ⟨e, h⟩ | ⟨e, h⟩ | ⟨e, h⟩ | ⟨n, _, h⟩ <;> rw [h] <;>
        first
          | (simp; done)
          | (simp only [List.map_cons, List.map_nil]; decide)

theorem processJob_progress_monotone_witness :
    (processJob testOS demoUploads ⟨demoStore demoPending, [], []⟩ "job_1" 3 4).2.map
        (fun x => x.Progress) = [0, 10, 70, 100, 100] ∧
    kvGet (((processJob testOS demoUploads ⟨demoStore demoPending, [], []⟩ "job_1" 3 4).2.take
        (3 + 1)).foldl updateJob
        (processJobRead ⟨demoStore demoPending, [], []⟩ "job_1").2).kv
        ("job:" ++ "job_1") =
      some (Doc.job { demoPending with Status := "processing", Progress := 100,
                                       StartedAt := some 3 }) :=
  ⟨by decide,
    (processJob_progress_monotone testOS demoUploads ⟨demoStore demoPending, [], []⟩ "job_1"
      3 4).2.2.2 rfl 3
      { demoPending with Status := "processing", Progress := 100, StartedAt := some 3 }
      (by decide)⟩

/-! ## Runs in which every worker starts from a pending record -/

theorem inv_step_pending {σ : Type} (os : OS σ) (P : String → ProcessingJob → Prop)
    (hsubmit : ∀ idNow fileID created, fileID ≠ "" →
      P ("job:" ++ generateJobID idNow)
        { ID := generateJobID idNow, FileID := fileID, Status := "pending", Progress := 0,
          CreatedAt := created })
    (hcancel : ∀ jobID j now, P ("job:" ++ jobID) j →
      j.Status = "pending" ∨ j.Status = "processing" →
      P ("job:" ++ jobID) { j with Status := "cancelled", CompletedAt := some now })
    (hworker : ∀ w jobID j now completedAt, P ("job:" ++ jobID) j → j.Status = "pending" →
      ∀ x ∈ (processJobBody os w j jobID now completedAt).writes, P ("job:" ++ x.ID) x)
    (s : Sys) (l : Label σ) (h : Inv P s) (hr : readsPendingStep s l = true) :
    Inv P (step os s l) := by
  obtain ⟨hkv, hws⟩ := h
  have hset : ∀ (kv' : List Entry) key j, (kv' = s.redis.kv ∨
      kv' = kvSet s.redis.kv key (Doc.job j) (24 * Hour)) → P key j →
      ∀ k d, kvGet kv' k = some d → ∃ j, d = Doc.job j ∧ P k j := by
    intro kv' key j hor hP k d hd
    rcases hor with rfl | rfl
    · exact hkv k d hd
    · rw [kvGet_kvSet] at hd
      by_cases hk : k = key
      · rw [if_pos hk] at hd
        cases hd
        exact ⟨j, rfl, hk ▸ hP⟩
      · rw [if_neg hk] at hd
        exact hkv k d hd
  cases l with
  | submit body idNow createdNow =>
    refine ⟨?_, hws⟩
    rcases startProcessing_kv s.redis body idNow createdNow with h | ⟨req, _, hne, h⟩
    · intro k d hd
      simp only [step] at hd
      rw [h] at hd
      exact hkv k d hd
    · exact hset _ _ _ (Or.inr h) (hsubmit idNow req.FileID createdNow hne)
  | cancel jobID now =>
    refine ⟨?_, hws⟩
    rcases cancelProcessing_kv s.redis jobID now with h | ⟨d, hd, hst, h⟩
    · intro k d hd
      simp only [step] at hd
      rw [h] at hd
      exact hkv k d hd
    · obtain ⟨j, rfl, hP⟩ := hkv _ d hd
      exact hset _ _ _ (Or.inr h) (hcancel jobID j now hP hst)
  | dequeue =>
    obtain ⟨h1, h2⟩ := jobProcessorStep_effect s
    refine ⟨?_, ?_⟩
    · intro k d hd
      simp only [step] at hd
      rw [h1] at hd
      exact hkv k d hd
    · intro ws hmem
      simp only [step] at hmem
      rcases h2 with h2 | ⟨jobID, h2⟩ <;> rw [h2] at hmem
      · exact hws ws hmem
      · simp at hmem
        exact hws ws hmem
  | workerRead i w now completedAt =>
    simp only [step]
    rcases hi : s.workers.get? i with _ | ⟨jobID | pending⟩
    · exact ⟨hkv, hws⟩
    · have hk := processJobRead_kv s.redis jobID
      have hsome := processJobRead_some s.redis jobID
      refine ⟨by simp only [hk]; exact hkv, ?_⟩
      intro ws hmem x hx
      rcases List.mem_or_eq_of_mem_set hmem with hmem | heq
      · exact hws ws hmem x hx
      · cases heq
        cases hread : (processJobRead s.redis jobID).1 with
        | none => rw [hread] at hx; simp [workerWrites] at hx
        | some j =>
          rw [hread] at hx
          obtain ⟨hg, _⟩ := hsome j hread
          obtain ⟨j', hj', hP⟩ := hkv _ _ hg
          cases hj'
          have hpend : j.Status = "pending" := by
            simp only [readsPendingStep, hi, hread] at hr
            simpa using hr
          exact hworker w jobID j now completedAt hP hpend x hx
    · exact ⟨hkv, hws⟩
  | workerWrite i =>
    simp only [step]
    rcases hi : s.workers.get? i with _ | ⟨jobID | pending⟩
    · exact ⟨hkv, hws⟩
    · exact ⟨hkv, hws⟩
    · cases pending with
      | nil => exact ⟨hkv, hws⟩
      | cons job rest =>
        have hmem : Worker.running (job :: rest) ∈ s.workers := List.get?_mem hi
        have hP := hws _ hmem
        refine ⟨hset _ _ _ (updateJob_kv s.redis job) (hP job (List.mem_cons_self _ _)), ?_⟩
        intro ws hm x hx
        rcases List.mem_or_eq_of_mem_set hm with hm | heq
        · exact hws ws hm x hx
        · cases heq
          exact hP x (List.mem_cons_of_mem _ hx)

theorem inv_run_pending {σ : Type} (os : OS σ) (P : String → ProcessingJob → Prop)
    (hsubmit : ∀ idNow fileID created, fileID ≠ "" →
      P ("job:" ++ generateJobID idNow)
        { ID := generateJobID idNow, FileID := fileID, Status := "pending", Progress := 0,
          CreatedAt := created })
    (hcancel : ∀ jobID j now, P ("job:" ++ jobID) j →
      j.Status = "pending" ∨ j.Status = "processing" →
      P ("job:" ++ jobID) { j with Status := "cancelled", CompletedAt := some now })
    (hworker : ∀ w jobID j now completedAt, P ("job:" ++ jobID) j → j.Status = "pending" →
      ∀ x ∈ (processJobBody os w j jobID now completedAt).writes, P ("job:" ++ x.ID) x)
    (ls : List (Label σ)) (s : Sys) (h : Inv P s) (hr : readsPending os s ls = true) :
    Inv P (run os s ls) := by
  induction ls generalizing s with
  | nil => exact h
  | cons l ls ih =>
    simp only [readsPending, Bool.and_eq_true] at hr
    exact ih (step os s l) (inv_step_pending os P hsubmit hcancel hworker s l h hr.1) hr.2

theorem inv_init (P : String → ProcessingJob → Prop) (conn : List (Option String)) :
    Inv P { redis := { conn := conn } } :=
  ⟨by intro k d hd; simp [kvGet] at hd, by intro ws hmem; simp at hmem⟩


/-- The four shapes of a worker run, with what is known of the error text and
of the frame count. -/
theorem processJobBody_writes_shapes {σ : Type} (os : OS σ) (w : σ) (j : ProcessingJob)
    (jobID : String) (now completedAt : Time) :
    (∃ e, e ≠ "" ∧ (processJobBody os w j jobID now completedAt).writes =
      [{ j with Status := "processing", Progress := 0, StartedAt := some now },
       { j with Status := "failed", Progress := 0, StartedAt := some now, Error := e,
                CompletedAt := some now }]) ∨
    (∃ e, e ≠ "" ∧ (processJobBody os w j jobID now completedAt).writes =
      [{ j with Status := "processing", Progress := 0, StartedAt := some now },
       { j with Status := "processing", Progress := 10, StartedAt := some now },
       { j with Status := "failed", Progress := 10, StartedAt := some now, Error := e,
                CompletedAt := some now }]) ∨
    (∃ e, e ≠ "" ∧ (processJobBody os w j jobID now completedAt).writes =
      [{ j with Status := "processing", Progress := 0, StartedAt := some now },
       { j with Status := "processing", Progress := 10, StartedAt := some now },
       { j with Status := "processing", Progress := 70, StartedAt := some now },
       { j with Status := "failed", Progress := 70, StartedAt := some now, Error := e,
                CompletedAt := some now }]) ∨
    (∃ n : Int, 1 ≤ n ∧ (processJobBody os w j jobID now completedAt).writes =
      [{ j with Status := "processing", Progress := 0, StartedAt := some now },
       { j with Status := "processing", Progress := 10, StartedAt := some now },
       { j with Status := "processing", Progress := 70, StartedAt := some now },
       { j with Status := "processing", Progress := 100, StartedAt := some now },
       { j with Status := "completed", Progress := 100, StartedAt := some now,
                OutputFile := "frames_" ++ jobID ++ ".zip", FrameCount := n,
                CompletedAt := some completedAt }]) := by
  unfold processJobBody
  cases hf : findInputFile os w j.FileID with
  | error e =>
    left
    have he := findInputFile_error os w j.FileID e hf
    exact ⟨e, by rw [he]; exact append_ne_empty _ _ (by decide), by simp [hf]⟩
  | ok input =>
    right
    simp only [hf]
    unfold processVideo
    rcases hff : os.ffmpeg (os.MkdirAll w (filepathJoin ["processing", jobID]))
      ["-i", input, "-vf", "fps=1", "-y",
        filepathJoin [filepathJoin ["processing", jobID], "frame_%04d.png"]] with ⟨w2, out, err⟩
    cases err with
    | some e =>
      left
      refine ⟨"ffmpeg error: " ++ e ++ "\nOutput: " ++ jsonText out, ?_, by simp [hff]⟩
      exact append_ne_empty _ _ (append_ne_empty _ _ (append_ne_empty _ _ (by decide)))
    | none =>
      right
      rcases hg : os.Glob w2 (filepathJoin [filepathJoin ["processing", jobID], "*.png"])
        with _ | ⟨_ | ⟨f, fs⟩⟩
      · left; exact ⟨"no frames extracted from video", by decide, by simp [hff, hg]⟩
      · left; exact ⟨"no frames extracted from video", by decide, by simp [hff, hg]⟩
      · right
        refine ⟨((f :: fs).length : Int), by simp, ?_⟩
        simp [hff, hg, createZipFile]

theorem resultFields_worker {σ : Type} (os : OS σ) (w : σ) (j : ProcessingJob)
    (jobID : String) (now completedAt : Time) (hj : resultFields j)
    (hst : j.Status = "pending") :
    ∀ x ∈ (processJobBody os w j jobID now completedAt).writes, resultFields x := by
  obtain ⟨h1, h2, h3⟩ := hj
  have ho : j.OutputFile = "" := by
    by_contra h; have := h1.mp h; rw [hst] at this; exact absurd this (by decide)
  have hc : j.FrameCount = 0 := by
    by_contra h; have := h2.mp h; rw [hst] at this; exact absurd this (by decide)
  have he : j.Error = "" := by
    by_contra h; have := h3.mp h; rw [hst] at this; exact absurd this (by decide)
  have hz : ("frames_" ++ jobID ++ ".zip" : String) ≠ "" :=
    append_ne_empty _ _ (append_ne_empty _ _ (by decide))
  rcases processJobBody_writes_shapes os w j jobID now completedAt with
    ⟨e, hne, h⟩ | ⟨e, hne, h⟩ | ⟨e, hne, h⟩ | ⟨n, hne, h⟩ <;> rw [h] <;>
    simp [resultFields, ho, hc, he, hne, hz]
  omega

theorem resultFields_cancel (j : ProcessingJob) (now : Time) (hj : resultFields j)
    (hst : j.Status = "pending" ∨ j.Status = "processing") :
    resultFields { j with Status := "cancelled", CompletedAt := some now } := by
  obtain ⟨h1, h2, h3⟩ := hj
  have ho : j.OutputFile = "" := by
    by_contra h; have := h1.mp h
    rcases hst with hst | hst <;> rw [hst] at this <;> exact absurd this (by decide)
  have hc : j.FrameCount = 0 := by
    by_contra h; have := h2.mp h
    rcases hst with hst | hst <;> rw [hst] at this <;> exact absurd this (by decide)
  have he : j.Error = "" := by
    by_contra h; have := h3.mp h
    rcases hst with hst | hst <;> rw [hst] at this <;> exact absurd this (by decide)
  simp [resultFields, ho, hc, he]

/-- C11. In every run of the system from an empty store in which each worker
starts from a record as submit created it (its read finds the record pending,
or cancelled and then it writes nothing), whatever the interleaving and the
connection outcomes, every stored job record has a non-empty output name
exactly when its status is `completed`, a non-zero frame count exactly when
its status is `completed`, and a non-empty error exactly when its status is
`failed`. Every run whose submissions are assigned pairwise different job ids
is such a run (`readsPending_of_nodup`). -/
theorem stored_result_fields {σ : Type} (os : OS σ) (conn : List (Option String))
    (ls : List (Label σ)) (hr : readsPending os { redis := { conn := conn } } ls = true)
    (k : String) (j : ProcessingJob)
    (hget : kvGet (run os { redis := { conn := conn } } ls).redis.kv k = some (Doc.job j)) :
    (j.OutputFile ≠ "" ∧ j.FrameCount ≠ 0 ↔ j.Status = "completed") ∧
    (j.Error ≠ "" ↔ j.Status = "failed") ∧ resultFields j := by
  have hinv := inv_run_pending os (fun _ j => resultFields j)
    (by intro _ _ _ _; simp [resultFields])
    (fun _ j now hj hst => resultFields_cancel j now hj hst)
    (fun w jobID j now completedAt hj hst => resultFields_worker os w j jobID now completedAt hj hst)
    ls _ (inv_init _ conn) hr
  obtain ⟨j', hj', hP⟩ := hinv.1 k _ hget
  cases hj'
  refine ⟨?_, hP.2.2, hP⟩
  obtain ⟨h1, h2, _⟩ := hP
  constructor
  · intro h; exact h1.mp h.1
  · intro h; exact ⟨h1.mpr h, h2.mpr h⟩

theorem stored_result_fields_witness :
    readsPending testOS {} (demoStart ++ [Label.workerWrite 0, Label.workerWrite 0,
        Label.workerWrite 0, Label.workerWrite 0, Label.workerWrite 0]) = true ∧
    kvGet (run testOS {} (demoStart ++ [Label.workerWrite 0, Label.workerWrite 0,
        Label.workerWrite 0, Label.workerWrite 0, Label.workerWrite 0])).redis.kv "job:job_1" =
      some (Doc.job demoCompleted) ∧
    resultFields demoCompleted :=
  ⟨by decide, by decide,
    (stored_result_fields testOS [] (demoStart ++ [Label.workerWrite 0, Label.workerWrite 0,
        Label.workerWrite 0, Label.workerWrite 0, Label.workerWrite 0]) (by decide)
      "job:job_1" demoCompleted (by decide)).2.2⟩

theorem timestampsOK_worker {σ : Type} (os : OS σ) (w : σ) (j : ProcessingJob)
    (jobID : String) (now completedAt : Time) (hj : timestampsOK j)
    (hst : j.Status = "pending") :
    ∀ x ∈ (processJobBody os w j jobID now completedAt).writes, timestampsOK x := by
  have hc : j.CompletedAt = none := hj.1 (Or.inl hst)
  rcases processJobBody_writes_cases os w j jobID now completedAt with
    ⟨e, h⟩ | ⟨e, h⟩ | ⟨e, h⟩ | ⟨n, _, h⟩ <;> rw [h] <;>
    simp [timestampsOK, terminal, hc]

theorem timestampsOK_cancel (j : ProcessingJob) (now : Time) :
    timestampsOK { j with Status := "cancelled", CompletedAt := some now } := by
  simp [timestampsOK, terminal]

/-- C12 (as amended). In every run of the system from an empty store in
which each worker starts from a record as submit created it (as in every run
whose submissions are assigned pairwise different job ids), every stored
job record has no `CompletedAt` while its status is pending or processing and
has one when its status is terminal, has no `StartedAt` while pending and has
one when processing, completed or failed. A worker that reads a record
without `CompletedAt` sets `StartedAt` to the clock reading it takes on
entering processing in every record it writes, leaves `CompletedAt` unset in
every record it writes with status processing, and sets it in the failed or
completed record that ends its run. -/
theorem stored_timestamps {σ : Type} (os : OS σ) :
    (∀ (conn : List (Option String)) (ls : List (Label σ)),
      readsPending os { redis := { conn := conn } } ls = true →
      ∀ k j, kvGet (run os { redis := { conn := conn } } ls).redis.kv k = some (Doc.job j) →
        timestampsOK j) ∧
    (∀ (w : σ) (j : ProcessingJob) (jobID : String) (now completedAt : Time),
      j.CompletedAt = none →
      ∀ x ∈ (processJobBody os w j jobID now completedAt).writes,
        x.StartedAt = some now ∧
        (x.Status = "processing" → x.CompletedAt = none) ∧
        (x.Status = "failed" → x.CompletedAt = some now) ∧
        (x.Status = "completed" → x.CompletedAt = some completedAt) ∧
        (x.Status = "processing" ∨ x.Status = "failed" ∨ x.Status = "completed")) := by
  constructor
  · intro conn ls hr k j hget
    have hinv := inv_run_pending os (fun _ j => timestampsOK j)
      (by intro _ _ _ _; simp [timestampsOK, terminal])
      (fun _ j now _ _ => timestampsOK_cancel j now)
      (fun w jobID j now completedAt hj hst =>
        timestampsOK_worker os w j jobID now completedAt hj hst)
      ls _ (inv_init _ conn) hr
    obtain ⟨j', hj', hP⟩ := hinv.1 k _ hget
    cases hj'
    exact hP
  · intro w j jobID now completedAt hc
    rcases processJobBody_writes_cases os w j jobID now completedAt with
      ⟨e, h⟩ | ⟨e, h⟩ | ⟨e, h⟩ | ⟨n, _, h⟩ <;> rw [h] <;> simp [hc]

theorem stored_timestamps_witness :
    readsPending testOS {} (demoStart ++ [Label.workerWrite 0, Label.workerWrite 0,
        Label.workerWrite 0, Label.workerWrite 0, Label.workerWrite 0]) = true ∧
    kvGet (run testOS {} (demoStart ++ [Label.workerWrite 0, Label.workerWrite 0,
        Label.workerWrite 0, Label.workerWrite 0, Label.workerWrite 0])).redis.kv "job:job_1" =
      some (Doc.job demoCompleted) ∧
    timestampsOK demoCompleted :=
  ⟨by decide, by decide,
    (stored_timestamps testOS).1 [] (demoStart ++ [Label.workerWrite 0, Label.workerWrite 0,
        Label.workerWrite 0, Label.workerWrite 0, Label.workerWrite 0]) (by decide)
      "job:job_1" demoCompleted (by decide)⟩

/-- C12 (as stated) fails. After submit, dequeue, the worker's read and its
first write, a cancel at time 5 stores `CompletedAt = 5`; the worker's next
write stores the record without `CompletedAt`, and its last write stores
`CompletedAt = 4`: the stored timestamp has changed, and was set twice. -/
theorem completedAt_changes_after_cancel :
    (kvGet (run testOS {} (demoStart ++ [Label.workerWrite 0,
        Label.cancel "job_1" 5])).redis.kv "job:job_1").map
        (fun d => (jsonUnmarshal d).1.CompletedAt) = some (some 5) ∧
    (kvGet (run testOS {} (demoStart ++ [Label.workerWrite 0, Label.cancel "job_1" 5,
        Label.workerWrite 0])).redis.kv "job:job_1").map
        (fun d => (jsonUnmarshal d).1.CompletedAt) = some none ∧
    (kvGet (run testOS {} (demoStart ++ [Label.workerWrite 0, Label.cancel "job_1" 5,
        Label.workerWrite 0, Label.workerWrite 0, Label.workerWrite 0,
        Label.workerWrite 0])).redis.kv "job:job_1").map
        (fun d => (jsonUnmarshal d).1.CompletedAt) = some (some 4) := by
  decide

/-! ## Job ids -/

theorem digitVal_digitChar (d : Nat) (h : d < 10) : digitVal (Nat.digitChar d) = d := by
  interval_cases d <;> rfl

theorem digitChar_ne_minus (d : Nat) (h : d < 10) : Nat.digitChar d ≠ '-' := by
  interval_cases d <;> decide

theorem foldl_toDigitsCore (fuel n : Nat) (ds : List Char) (h : n < fuel) :
    (Nat.toDigitsCore 10 fuel n ds).foldl (fun acc c => acc * 10 + digitVal c) 0 =
      ds.foldl (fun acc c => acc * 10 + digitVal c) n := by
  induction fuel generalizing n ds with
  | zero => omega
  | succ fuel ih =>
    have hd : digitVal (Nat.digitChar (n % 10)) = n % 10 :=
      digitVal_digitChar _ (Nat.mod_lt _ (by decide))
    simp only [Nat.toDigitsCore]
    split
    · rename_i h0
      have hn : n % 10 = n := by omega
      simp only [List.foldl_cons, Nat.zero_mul, Nat.zero_add, hd]
      rw [hn]
    · rename_i h0
      rw [ih (n / 10) _ (by omega)]
      simp only [List.foldl_cons, hd]
      congr 1
      omega

theorem decodeNat_toDigits (n : Nat) : decodeNat (Nat.toDigits 10 n) = n := by
  simp [decodeNat, Nat.toDigits, foldl_toDigitsCore (n + 1) n [] (by omega)]

theorem toDigitsCore_no_minus (fuel n : Nat) (ds : List Char) (h : ∀ c ∈ ds, c ≠ '-') :
    ∀ c ∈ Nat.toDigitsCore 10 fuel n ds, c ≠ '-' := by
  induction fuel generalizing n ds with
  | zero => simpa [Nat.toDigitsCore] using h
  | succ fuel ih =>
    have hd : Nat.digitChar (n % 10) ≠ '-' := digitChar_ne_minus _ (Nat.mod_lt _ (by decide))
    have hds : ∀ c ∈ Nat.digitChar (n % 10) :: ds, c ≠ '-' := by
      intro c hc
      rcases List.mem_cons.mp hc with rfl | hc
      · exact hd
      · exact h c hc
    simp only [Nat.toDigitsCore]
    split
    · exact hds
    · exact ih _ _ hds

theorem natRepr_injective (a b : Nat) (h : Nat.repr a = Nat.repr b) : a = b := by
  have h1 : Nat.toDigits 10 a = Nat.toDigits 10 b := by
    have := congrArg String.data h
    simpa [Nat.repr, List.asString] using this
  have := congrArg decodeNat h1
  simpa [decodeNat_toDigits] using this

theorem natRepr_no_minus (a : Nat) (s : String) : Nat.repr a ≠ "-" ++ s := by
  intro h
  have h1 := congrArg String.data h
  have h2 : ∀ c ∈ Nat.toDigits 10 a, c ≠ '-' :=
    toDigitsCore_no_minus (a + 1) a [] (by simp)
  have h3 : ('-' : Char) ∈ Nat.toDigits 10 a := by
    have : (Nat.repr a).data = Nat.toDigits 10 a := by simp [Nat.repr, List.asString]
    rw [← this, h1]
    simp
  exact h2 _ h3 rfl

theorem append_left_cancel (p a b : String) (h : p ++ a = p ++ b) : a = b := by
  have := congrArg String.data h
  simp only [String.data_append] at this
  exact String.ext (List.append_cancel_left this)

theorem intToString_injective (a b : Int) (h : toString a = toString b) : a = b := by
  cases a with
  | ofNat m =>
    cases b with
    | ofNat n =>
      have : Nat.repr m = Nat.repr n := h
      rw [natRepr_injective m n this]
    | negSucc n =>
      have : Nat.repr m = "-" ++ Nat.repr (n + 1) := h
      exact absurd this (natRepr_no_minus m _)
  | negSucc m =>
    cases b with
    | ofNat n =>
      have : "-" ++ Nat.repr (m + 1) = Nat.repr n := h
      exact absurd this.symm (natRepr_no_minus n _)
    | negSucc n =>
      have : "-" ++ Nat.repr (m + 1) = "-" ++ Nat.repr (n + 1) := h
      have := natRepr_injective _ _ (append_left_cancel _ _ _ this)
      have hmn : m = n := by omega
      rw [hmn]

theorem generateJobID_injective (t1 t2 : Time) (h : generateJobID t1 = generateJobID t2) :
    t1 = t2 :=
  intToString_injective t1 t2 (append_left_cancel "job_" _ _ h)

theorem jobKey_injective (a b : String) (h : "job:" ++ a = "job:" ++ b) : a = b :=
  append_left_cancel "job:" a b h

/-- C13 (as amended). Two submissions whose clock readings differ are
assigned different job ids, and a submission drawing another id than the one
of an earlier job leaves that job's record as it was, whatever the request
and the connection outcomes. (Two submissions that read the same nanosecond
are assigned the same id.) -/
theorem distinct_readings_distinct_ids (t1 t2 : Time) (h : t1 ≠ t2) :
    generateJobID t1 ≠ generateJobID t2 ∧
    ∀ (r : Redis) (body : Except String ProcessRequest) (createdNow : Time),
      kvGet (startProcessing r body t2 createdNow).2.kv ("job:" ++ generateJobID t1) =
        kvGet r.kv ("job:" ++ generateJobID t1) := by
  have hne : generateJobID t1 ≠ generateJobID t2 :=
    fun heq => h (generateJobID_injective t1 t2 heq)
  refine ⟨hne, ?_⟩
  intro r body createdNow
  rcases startProcessing_kv r body t2 createdNow with hk | ⟨req, _, _, hk⟩
  · rw [hk]
  · rw [hk, kvGet_kvSet, if_neg (fun heq => hne (jobKey_injective _ _ heq))]

theorem distinct_readings_distinct_ids_witness :
    generateJobID 1 ≠ generateJobID 2 ∧
    kvGet (startProcessing ⟨demoStore demoPending, [], []⟩ (Except.ok ⟨"other"⟩) 2 3).2.kv
        ("job:" ++ generateJobID 1) =
      kvGet (demoStore demoPending) ("job:" ++ generateJobID 1) :=
  ⟨(distinct_readings_distinct_ids 1 2 (by decide)).1,
    (distinct_readings_distinct_ids 1 2 (by decide)).2 ⟨demoStore demoPending, [], []⟩
      (Except.ok ⟨"other"⟩) 3⟩

/-- C13 (as stated) fails. Two submissions that read the same clock value are
both answered 200 with the same job id, and the second replaces the record of
the first: the store then holds one record, with the file id of the second. -/
theorem same_reading_same_id :
    (startProcessing {} (Except.ok ⟨"abc123"⟩) 1 2).1.code = 200 ∧
    (startProcessing (startProcessing {} (Except.ok ⟨"abc123"⟩) 1 2).2
        (Except.ok ⟨"other"⟩) 1 3).1.code = 200 ∧
    (startProcessing {} (Except.ok ⟨"abc123"⟩) 1 2).1.body.Data =
      Payload.created "job_1" "abc123" "pending" 2 ∧
    (startProcessing (startProcessing {} (Except.ok ⟨"abc123"⟩) 1 2).2
        (Except.ok ⟨"other"⟩) 1 3).1.body.Data = Payload.created "job_1" "other" "pending" 3 ∧
    kvGet (startProcessing {} (Except.ok ⟨"abc123"⟩) 1 2).2.kv "job:job_1" =
      some (Doc.job demoPending) ∧
    (startProcessing (startProcessing {} (Except.ok ⟨"abc123"⟩) 1 2).2
        (Except.ok ⟨"other"⟩) 1 3).2.kv =
      demoStore { demoPending with FileID := "other", CreatedAt := 3 } := by
  decide

/-! ## Listing -/

theorem kvSet_keys (kv : List Entry) (k : String) (v : Doc) (t : Int) :
    (kvSet kv k v t).map (fun e => e.key) =
      if k ∈ kv.map (fun e => e.key) then kv.map (fun e => e.key)
      else kv.map (fun e => e.key) ++ [k] := by
  induction kv with
  | nil => simp [kvSet]
  | cons e es ih =>
    by_cases he : e.key = k
    · simp [kvSet, he]
    · have hne : ¬ k = e.key := fun h => he h.symm
      simp only [kvSet, he, if_false, List.map_cons, List.mem_cons, hne, false_or, ih]
      split <;> simp

theorem kvGet_isSome_iff (kv : List Entry) (k : String) :
    (∃ d, kvGet kv k = some d) ↔ k ∈ kv.map (fun e => e.key) := by
  induction kv with
  | nil => simp [kvGet]
  | cons e es ih =>
    by_cases he : e.key = k
    · simp [kvGet, he]
    · have hne : ¬ k = e.key := fun h => he h.symm
      simp [kvGet, he, hne, ih]

theorem mem_jobKeys (id : String) (ids : List String) :
    "job:" ++ id ∈ ids.map (fun id => "job:" ++ id) ↔ id ∈ ids := by
  constructor
  · intro h
    obtain ⟨a, ha, heq⟩ := List.mem_map.mp h
    rw [← jobKey_injective _ _ heq]
    exact ha
  · intro h
    exact List.mem_map.mpr ⟨id, h, rfl⟩

theorem processJobBody_writes_id {σ : Type} (os : OS σ) (w : σ) (j : ProcessingJob)
    (jobID : String) (now completedAt : Time) :
    ∀ x ∈ (processJobBody os w j jobID now completedAt).writes, x.ID = j.ID := by
  rcases processJobBody_writes_cases os w j jobID now completedAt with
    ⟨e, h⟩ | ⟨e, h⟩ | ⟨e, h⟩ | ⟨n, _, h⟩ <;> rw [h] <;> simp

theorem startProcessing_healthy (kv : List Entry) (queue : List String)
    (body : Except String ProcessRequest) (idNow createdNow : Time) :
    (startProcessing ⟨kv, queue, []⟩ body idNow createdNow).2 =
      match body with
      | Except.ok req =>
        if req.FileID = "" then ⟨kv, queue, []⟩
        else
          ⟨kvSet kv ("job:" ++ generateJobID idNow)
              (Doc.job { ID := generateJobID idNow, FileID := req.FileID, Status := "pending",
                         Progress := 0, CreatedAt := createdNow }) (24 * Hour),
            generateJobID idNow :: queue, []⟩
      | Except.error _ => ⟨kv, queue, []⟩ := by
  cases body with
  | error e => simp [startProcessing, ShouldBindJSON]
  | ok req =>
    by_cases hf : req.FileID = ""
    · simp [startProcessing, ShouldBindJSON, hf]
    · simp [startProcessing, ShouldBindJSON, hf, Redis.Set, Redis.LPush, Redis.next, jsonMarshal]

theorem cancelProcessing_conn (kv : List Entry) (queue : List String) (jobID : String)
    (now : Time) : (cancelProcessing ⟨kv, queue, []⟩ jobID now).2.conn = [] := by
  have e1 : ("" : String) ≠ "pending" := by decide
  have e2 : ("" : String) ≠ "processing" := by decide
  cases hg : kvGet kv ("job:" ++ jobID) with
  | none => simp [cancelProcessing, Redis.Get, Redis.next, hg]
  | some d =>
    by_cases hst : (jsonUnmarshal d).1.Status ≠ "pending" ∧
        (jsonUnmarshal d).1.Status ≠ "processing"
    · simp [cancelProcessing, Redis.Get, Redis.next, hg, GetResult.text, hst]
    · simp [cancelProcessing, Redis.Get, Redis.Set, Redis.next, hg, GetResult.text, hst]

theorem jobProcessorStep_conn (s : Sys) (h : s.redis.conn = []) :
    (jobProcessorStep s).redis.conn = [] := by
  obtain ⟨⟨kv, queue, conn⟩, workers⟩ := s
  simp only at h
  subst h
  simp only [jobProcessorStep, Redis.BRPop, Redis.next]
  cases queue.getLast? <;> simp

theorem processJobRead_healthy_state (kv : List Entry) (queue : List String) (jobID : String) :
    (processJobRead ⟨kv, queue, []⟩ jobID).2 = ⟨kv, queue, []⟩ := by
  simp only [processJobRead, Redis.Get, Redis.next]
  rcases kvGet kv ("job:" ++ jobID) with _ | ⟨j | p⟩
  · rfl
  · simp only [jsonUnmarshal]; split <;> rfl
  · rfl

theorem listed_step {σ : Type} (os : OS σ) (s : Sys) (ids : List String) (l : Label σ)
    (hinv : Inv (fun k j => j.Status ∈ statuses ∧ k = "job:" ++ j.ID) s)
    (h : Listed s ids) (hnd : (ids ++ submitIds [l]).Nodup) :
    Listed (step os s l) (ids ++ submitIds [l]) := by
  obtain ⟨⟨kv, queue, conn⟩, workers⟩ := s
  obtain ⟨hc, hk, hw⟩ := h
  simp only at hc hk hw
  subst hc
  have hsetOld : ∀ (id : String) (v : Doc), id ∈ ids →
      (kvSet kv ("job:" ++ id) v (24 * Hour)).map (fun e => e.key) =
        ids.map (fun id => "job:" ++ id) := by
    intro id v hid
    rw [kvSet_keys, hk, if_pos ((mem_jobKeys id ids).mpr hid)]
  cases l with
  | submit body idNow createdNow =>
    simp only [step, startProcessing_healthy]
    cases body with
    | error e => simpa [submitIds, Listed] using ⟨hk, hw⟩
    | ok req =>
      by_cases hf : req.FileID = ""
      · simpa [submitIds, Listed, hf] using ⟨hk, hw⟩
      · simp only [submitIds, hf, if_false] at hnd ⊢
        have hfresh : generateJobID idNow ∉ ids := by
          intro hmem
          have := List.nodup_append.mp hnd
          exact this.2.2 hmem (List.mem_singleton.mpr rfl)
        refine ⟨rfl, ?_, ?_⟩
        · simp only
          rw [kvSet_keys, hk, if_neg (fun hm => hfresh ((mem_jobKeys _ _).mp hm))]
          simp
        · intro ws hmem x hx
          exact List.mem_append_left _ (hw ws hmem x hx)
  | cancel jobID now =>
    simp only [submitIds, List.append_nil]
    refine ⟨cancelProcessing_conn kv queue jobID now, ?_, hw⟩
    simp only [step]
    rcases cancelProcessing_kv ⟨kv, queue, []⟩ jobID now with hkv | ⟨d, hd, _, hkv⟩
    · rw [hkv]; exact hk
    · rw [hkv]
      have hmem : "job:" ++ jobID ∈ kv.map (fun e => e.key) :=
        (kvGet_isSome_iff kv _).mp ⟨d, hd⟩
      rw [hk] at hmem
      exact hsetOld jobID _ ((mem_jobKeys _ _).mp hmem)
  | dequeue =>
    simp only [submitIds, List.append_nil]
    obtain ⟨h1, h2⟩ := jobProcessorStep_effect ⟨⟨kv, queue, []⟩, workers⟩
    refine ⟨jobProcessorStep_conn _ rfl, ?_, ?_⟩
    · simp only [step]; rw [h1]; exact hk
    · intro ws hmem x hx
      simp only [step] at hmem
      rcases h2 with h2 | ⟨jobID, h2⟩ <;> rw [h2] at hmem
      · exact hw ws hmem x hx
      · simp at hmem
        exact hw ws hmem x hx
  | workerRead i w now completedAt =>
    simp only [submitIds, List.append_nil, step]
    rcases hi : workers.get? i with _ | ⟨jobID | pending⟩
    · exact ⟨rfl, hk, hw⟩
    · simp only [hi, processJobRead_healthy_state]
      refine ⟨rfl, hk, ?_⟩
      intro ws hmem x hx
      rcases List.mem_or_eq_of_mem_set hmem with hmem | heq
      · exact hw ws hmem x hx
      · cases heq
        cases hread : (processJobRead ⟨kv, queue, []⟩ jobID).1 with
        | none => rw [hread] at hx; simp [workerWrites] at hx
        | some j =>
          rw [hread] at hx
          obtain ⟨hg, _⟩ := processJobRead_some _ jobID j hread
          obtain ⟨j', hj', _, hkey⟩ := hinv.1 _ _ hg
          cases hj'
          have hid : x.ID = j.ID := processJobBody_writes_id os w j jobID now completedAt x hx
          have hmemk : "job:" ++ jobID ∈ kv.map (fun e => e.key) :=
            (kvGet_isSome_iff kv _).mp ⟨_, hg⟩
          rw [hk] at hmemk
          rw [hid, ← jobKey_injective _ _ hkey]
          exact (mem_jobKeys _ _).mp hmemk
    · simp only [hi]
      exact ⟨rfl, hk, hw⟩
  | workerWrite i =>
    simp only [submitIds, List.append_nil, step]
    rcases hi : workers.get? i with _ | ⟨jobID | pending⟩
    · exact ⟨rfl, hk, hw⟩
    · simp only [hi]; exact ⟨rfl, hk, hw⟩
    · cases pending with
      | nil => simp only [hi]; exact ⟨rfl, hk, hw⟩
      | cons job rest =>
        simp only [hi]
        have hmem : Worker.running (job :: rest) ∈ workers := List.get?_mem hi
        have hP := hw _ hmem
        refine ⟨by simp [updateJob_healthy], ?_, ?_⟩
        · simp only [updateJob_healthy]
          exact hsetOld job.ID _ (hP job (List.mem_cons_self _ _))
        · intro ws hm x hx
          rcases List.mem_or_eq_of_mem_set hm with hm | heq
          · exact hw ws hm x hx
          · cases heq
            exact hP x (List.mem_cons_of_mem _ hx)

theorem submitIds_cons {σ : Type} (l : Label σ) (ls : List (Label σ)) :
    submitIds (l :: ls) = submitIds [l] ++ submitIds ls := by
  cases l with
  | submit body idNow createdNow =>
    cases body with
    | error e => simp [submitIds]
    | ok req => by_cases hf : req.FileID = "" <;> simp [submitIds, hf]
  | cancel jobID now => simp [submitIds]
  | dequeue => simp [submitIds]
  | workerRead i w now completedAt => simp [submitIds]
  | workerWrite i => simp [submitIds]

theorem inv_statuses_step {σ : Type} (os : OS σ) (s : Sys) (l : Label σ)
    (h : Inv (fun k j => j.Status ∈ statuses ∧ k = "job:" ++ j.ID) s) :
    Inv (fun k j => j.Status ∈ statuses ∧ k = "job:" ++ j.ID) (step os s l) :=
  inv_step os (fun k j => j.Status ∈ statuses ∧ k = "job:" ++ j.ID)
    (by intro _ _ _ _; simp [statuses])
    (by intro _ _ _ h _; simpa [statuses] using h.2)
    (by
      intro w jobID j now completedAt _ _
      rcases processJobBody_writes_cases os w j jobID now completedAt with
        ⟨e, h⟩ | ⟨e, h⟩ | ⟨e, h⟩ | ⟨n, _, h⟩ <;> rw [h] <;> simp [statuses])
    s l h

theorem listed_run {σ : Type} (os : OS σ) (ls : List (Label σ)) (s : Sys) (ids : List String)
    (hinv : Inv (fun k j => j.Status ∈ statuses ∧ k = "job:" ++ j.ID) s)
    (h : Listed s ids) (hnd : (ids ++ submitIds ls).Nodup) :
    Listed (run os s ls) (ids ++ submitIds ls) ∧
      Inv (fun k j => j.Status ∈ statuses ∧ k = "job:" ++ j.ID) (run os s ls) := by
  induction ls generalizing s ids with
  | nil => simpa [submitIds, run] using ⟨h, hinv⟩
  | cons l ls ih =>
    rw [submitIds_cons, ← List.append_assoc] at hnd ⊢
    have hnd1 : (ids ++ submitIds [l]).Nodup := (List.nodup_append.mp hnd).1
    exact ih (step os s l) (ids ++ submitIds [l]) (inv_statuses_step os s l hinv)
      (listed_step os s ids l hinv h hnd1) hnd

theorem starMatch_isEmpty (s : List Char) : starMatch (fun s => s.isEmpty) s = true := by
  induction s with
  | nil => rfl
  | cons c cs ih => simp [starMatch, ih]

theorem globMatch_jobKey (id : String) : globMatch "job:*".data ("job:" ++ id).data = true := by
  have h1 : "job:*".data = ['j', 'o', 'b', ':', '*'] := by decide
  have h2 : ("job:" ++ id).data = 'j' :: 'o' :: 'b' :: ':' :: id.data := by
    rw [String.data_append]; rfl
  rw [h1, h2]
  simp only [globMatch]
  simpa using starMatch_isEmpty id.data

theorem listJobs_fold (kv : List Entry) (queue : List String) (keys : List String)
    (acc : List ProcessingJob)
    (h : ∀ k ∈ keys, ∃ j, kvGet kv k = some (Doc.job j)) :
    ∃ jobs, keys.foldl listJobsStep (acc, ⟨kv, queue, []⟩) = (acc ++ jobs, ⟨kv, queue, []⟩) ∧
      jobs.length = keys.length ∧
      ∀ j ∈ jobs, ∃ k ∈ keys, kvGet kv k = some (Doc.job j) := by
  induction keys generalizing acc with
  | nil => exact ⟨[], by simp, rfl, by simp⟩
  | cons k ks ih =>
    obtain ⟨j, hj⟩ := h k (List.mem_cons_self _ _)
    have hstep : listJobsStep (acc, ⟨kv, queue, []⟩) k = (acc ++ [j], ⟨kv, queue, []⟩) := by
      simp [listJobsStep, Redis.Get, Redis.next, hj, jsonUnmarshal]
    obtain ⟨jobs, h1, h2, h3⟩ := ih (acc ++ [j]) (fun k' hk' => h k' (List.mem_cons_of_mem _ hk'))
    refine ⟨j :: jobs, ?_, by simp [h2], ?_⟩
    · rw [List.foldl_cons, hstep, h1]; simp
    · intro j' hj'
      rcases List.mem_cons.mp hj' with rfl | hj'
      · exact ⟨k, List.mem_cons_self _ _, hj⟩
      · obtain ⟨k', hk', hg⟩ := h3 j' hj'
        exact ⟨k', List.mem_cons_of_mem _ hk', hg⟩

theorem listJobs_listed (s : Sys) (ids : List String)
    (hinv : Inv (fun k j => j.Status ∈ statuses ∧ k = "job:" ++ j.ID) s)
    (h : Listed s ids) :
    ∃ jobs, (listJobs s.redis).1 =
        ⟨200, { Success := true, Message := "Jobs listed successfully",
                Data := Payload.jobs jobs jobs.length }⟩ ∧
      jobs.length = ids.length ∧ (∀ j ∈ jobs, j.Status ∈ statuses) ∧
      (listJobs s.redis).2 = s.redis := by
  obtain ⟨⟨kv, queue, conn⟩, workers⟩ := s
  obtain ⟨hc, hk, _⟩ := h
  simp only at hc hk
  subst hc
  have hkeys : (kv.map (fun e => e.key)).filter (fun k => globMatch "job:*".data k.data) =
      kv.map (fun e => e.key) := by
    rw [List.filter_eq_self, hk]
    intro k hkm
    obtain ⟨id, _, rfl⟩ := List.mem_map.mp hkm
    exact globMatch_jobKey id
  have hall : ∀ k ∈ kv.map (fun e => e.key), ∃ j, kvGet kv k = some (Doc.job j) := by
    intro k hkm
    obtain ⟨d, hd⟩ := (kvGet_isSome_iff kv k).mpr hkm
    obtain ⟨j, rfl, _⟩ := hinv.1 k d hd
    exact ⟨j, hd⟩
  obtain ⟨jobs, h1, h2, h3⟩ := listJobs_fold kv queue (kv.map (fun e => e.key)) [] hall
  refine ⟨jobs, ?_, ?_, ?_, ?_⟩
  · simp [listJobs, Redis.Keys, Redis.next, hkeys, h1]
  · rw [h2, hk]; simp
  · intro j hj
    obtain ⟨k, _, hg⟩ := h3 j hj
    obtain ⟨j', hj', hst, _⟩ := hinv.1 k _ hg
    cases hj'
    exact hst
  · simp [listJobs, Redis.Keys, Redis.next, hkeys, h1]

/-- C14 (as amended). For every run of the system from an empty store on a
connection whose commands succeed, whatever the interleaving of submits,
cancels, dispatcher and worker steps, if the valid submissions of the run
were assigned pairwise different job ids and there are N of them, `listJobs`
answers 200 with exactly N job records and `total` = N, every returned status
is one of pending, processing, completed, failed, cancelled, and the store is
as before the call. -/
theorem listJobs_counts_submissions {σ : Type} (os : OS σ) (ls : List (Label σ))
    (hnd : (submitIds ls).Nodup) :
    ∃ jobs, (listJobs (run os {} ls).redis).1 =
        ⟨200, { Success := true, Message := "Jobs listed successfully",
                Data := Payload.jobs jobs jobs.length }⟩ ∧
      jobs.length = (submitIds ls).length ∧ (∀ j ∈ jobs, j.Status ∈ statuses) ∧
      (listJobs (run os {} ls).redis).2 = (run os {} ls).redis := by
  have h0 : Listed ({} : Sys) [] := ⟨rfl, rfl, by intro ws hmem; simp at hmem⟩
  have hi0 : Inv (fun k j => j.Status ∈ statuses ∧ k = "job:" ++ j.ID) ({} : Sys) :=
    inv_init _ []
  obtain ⟨hl, hinv⟩ := listed_run os ls {} [] hi0 h0 (by simpa using hnd)
  simpa using listJobs_listed _ _ hinv hl

theorem listJobs_counts_submissions_witness :
    (submitIds demoTwoJobs).Nodup ∧ (submitIds demoTwoJobs).length = 2 ∧
    (listJobs (run testOS {} demoTwoJobs).redis).1.body.Data =
      Payload.jobs [demoCompleted,
        { ID := "job_5", FileID := "other", Status := "cancelled", CreatedAt := 6,
          CompletedAt := some 7 }] 2 ∧
    ∃ jobs, (listJobs (run testOS {} demoTwoJobs).redis).1 =
        ⟨200, { Success := true, Message := "Jobs listed successfully",
                Data := Payload.jobs jobs jobs.length }⟩ ∧
      jobs.length = (submitIds demoTwoJobs).length ∧ (∀ j ∈ jobs, j.Status ∈ statuses) ∧
      (listJobs (run testOS {} demoTwoJobs).redis).2 = (run testOS {} demoTwoJobs).redis :=
  ⟨by decide, by decide, by decide,
    listJobs_counts_submissions testOS demoTwoJobs (by decide)⟩

/-- C14 (as stated) fails. Two submissions that read the same clock value are
both answered 200, yet `listJobs` then returns one record with `total` = 1:
the second submission replaced the record of the first. -/
theorem listJobs_after_same_id :
    (step testOS {} (Label.submit (Except.ok ⟨"abc123"⟩) 1 2)).redis =
      (startProcessing {} (Except.ok ⟨"abc123"⟩) 1 2).2 ∧
    (startProcessing {} (Except.ok ⟨"abc123"⟩) 1 2).1.code = 200 ∧
    (startProcessing (step testOS {} (Label.submit (Except.ok ⟨"abc123"⟩) 1 2)).redis
        (Except.ok ⟨"other"⟩) 1 3).1.code = 200 ∧
    (listJobs (run testOS {} demoCollision).redis).1.code = 200 ∧
    (listJobs (run testOS {} demoCollision).redis).1.body.Data =
      Payload.jobs [{ demoPending with FileID := "other", CreatedAt := 3 }] 1 := by
  decide

/-! ## Status, queue, packaging, retention -/

/-- C15. On a connection whose commands succeed, `getProcessingStatus`
answers 404 exactly when the store holds nothing under the key of the job id;
when it holds a job record it answers 200 with that record, every field as
stored. Whatever the connection does, the call changes neither the stored
records nor the queue. -/
theorem getProcessingStatus_contract (kv : List Entry) (queue : List String) (jobID : String)
    (parseErr : String) :
    ((getProcessingStatus ⟨kv, queue, []⟩ jobID parseErr).1.code = 404 ↔
      kvGet kv ("job:" ++ jobID) = none) ∧
    (∀ j, kvGet kv ("job:" ++ jobID) = some (Doc.job j) →
      (getProcessingStatus ⟨kv, queue, []⟩ jobID parseErr).1 =
        ⟨200, { Success := true, Message := "Job status retrieved", Data := Payload.job j }⟩) ∧
    (getProcessingStatus ⟨kv, queue, []⟩ jobID parseErr).2 = ⟨kv, queue, []⟩ ∧
    (∀ conn, (getProcessingStatus ⟨kv, queue, conn⟩ jobID parseErr).2.kv = kv ∧
      (getProcessingStatus ⟨kv, queue, conn⟩ jobID parseErr).2.queue = queue) := by
  refine ⟨?_, ?_, ?_, ?_⟩
  · rcases hg : kvGet kv ("job:" ++ jobID) with _ | ⟨j | p⟩ <;>
      simp [getProcessingStatus, Redis.Get, Redis.next, hg, jsonUnmarshal]
  · intro j hg
    simp [getProcessingStatus, Redis.Get, Redis.next, hg, jsonUnmarshal]
  · rcases hg : kvGet kv ("job:" ++ jobID) with _ | ⟨j | p⟩ <;>
      simp [getProcessingStatus, Redis.Get, Redis.next, hg, jsonUnmarshal]
  · intro conn
    rcases conn with _ | ⟨_ | e, os⟩ <;>
      rcases hg : kvGet kv ("job:" ++ jobID) with _ | ⟨j | p⟩ <;>
      simp [getProcessingStatus, Redis.Get, Redis.next, hg, jsonUnmarshal]

theorem getProcessingStatus_contract_witness :
    (getProcessingStatus ⟨demoStore demoCompleted, [], []⟩ "job_9" "").1.code = 404 ∧
    (getProcessingStatus ⟨demoStore demoCompleted, [], []⟩ "job_1" "").1 =
      ⟨200, { Success := true, Message := "Job status retrieved",
              Data := Payload.job demoCompleted }⟩ :=
  ⟨(getProcessingStatus_contract (demoStore demoCompleted) [] "job_9" "").1.mpr (by decide),
    (getProcessingStatus_contract (demoStore demoCompleted) [] "job_1" "").2.1 demoCompleted
      (by decide)⟩

theorem redisBRPop_healthy (kv : List Entry) (q : List String) (v : String) :
    (⟨kv, q ++ [v], []⟩ : Redis).BRPop = (some (Except.ok v), ⟨kv, q, []⟩) := by
  simp [Redis.BRPop, Redis.next]

theorem drain_reverse (kv : List Entry) (ids : List String) :
    drain ids.length ⟨kv, ids.reverse, []⟩ = (ids, ⟨kv, [], []⟩) := by
  induction ids with
  | nil => rfl
  | cons id rest ih =>
    simp only [List.length_cons, List.reverse_cons, drain, redisBRPop_healthy, ih]

theorem run_submitSteps {σ : Type} (os : OS σ) (reqs : List (ProcessRequest × Time × Time))
    (hvalid : ∀ q ∈ reqs, q.1.FileID ≠ "") (kv : List Entry) (queue : List String)
    (workers : List Worker) :
    ∃ kv', run os ⟨⟨kv, queue, []⟩, workers⟩ (submitSteps reqs) =
      ⟨⟨kv', (reqs.map (fun q => generateJobID q.2.1)).reverse ++ queue, []⟩, workers⟩ := by
  induction reqs generalizing kv queue with
  | nil => exact ⟨kv, rfl⟩
  | cons q qs ih =>
    have hq : q.1.FileID ≠ "" := hvalid q (List.mem_cons_self _ _)
    simp only [submitSteps, List.map_cons, run, List.foldl_cons, step, startProcessing_healthy,
      hq, if_false]
    obtain ⟨kv', h⟩ := ih (fun q' hq' => hvalid q' (List.mem_cons_of_mem _ hq')) _
      (generateJobID q.2.1 :: queue)
    refine ⟨kv', ?_⟩
    simp only [submitSteps, run] at h
    rw [h]
    simp

theorem run_dequeues {σ : Type} (os : OS σ) (kv : List Entry) (ids : List String)
    (workers : List Worker) :
    run os ⟨⟨kv, ids.reverse, []⟩, workers⟩ (List.replicate ids.length Label.dequeue) =
      ⟨⟨kv, [], []⟩, workers ++ ids.map Worker.spawned⟩ := by
  induction ids generalizing workers with
  | nil => simp [run]
  | cons id rest ih =>
    simp only [List.length_cons, List.replicate_succ, run, List.foldl_cons, step,
      jobProcessorStep, List.reverse_cons, redisBRPop_healthy]
    have := ih (workers ++ [Worker.spawned id])
    simp only [run] at this
    rw [this]
    simp

/-- C16. For every list of valid submissions handled, in order, on an empty
queue and a connection whose commands succeed, the queue then holds their job
ids, the last pushed at its head; that many dequeues then obtain exactly
these ids, each once, in the order of the submissions, leaving the queue
empty; and the dispatcher starts one worker per id, in that order. -/
theorem queue_fifo {σ : Type} (os : OS σ) (kv : List Entry) (workers : List Worker)
    (reqs : List (ProcessRequest × Time × Time)) (hvalid : ∀ q ∈ reqs, q.1.FileID ≠ "") :
    (run os ⟨⟨kv, [], []⟩, workers⟩ (submitSteps reqs)).redis.queue =
      (reqs.map (fun q => generateJobID q.2.1)).reverse ∧
    (drain reqs.length (run os ⟨⟨kv, [], []⟩, workers⟩ (submitSteps reqs)).redis).1 =
      reqs.map (fun q => generateJobID q.2.1) ∧
    (drain reqs.length (run os ⟨⟨kv, [], []⟩, workers⟩ (submitSteps reqs)).redis).2.queue = [] ∧
    (run os (run os ⟨⟨kv, [], []⟩, workers⟩ (submitSteps reqs))
        (List.replicate reqs.length Label.dequeue)).workers =
      workers ++ (reqs.map (fun q => generateJobID q.2.1)).map Worker.spawned ∧
    (run os (run os ⟨⟨kv, [], []⟩, workers⟩ (submitSteps reqs))
        (List.replicate reqs.length Label.dequeue)).redis.queue = [] := by
  obtain ⟨kv', h⟩ := run_submitSteps os reqs hvalid kv [] workers
  rw [h]
  simp only [List.append_nil]
  have hlen : reqs.length = (reqs.map (fun q => generateJobID q.2.1)).length := by simp
  refine ⟨trivial, ?_, ?_, ?_, ?_⟩
  · rw [hlen, drain_reverse]
  · rw [hlen, drain_reverse]
  · rw [hlen, run_dequeues]
  · rw [hlen, run_dequeues]

theorem queue_fifo_witness :
    (drain 3 (run testOS {} (submitSteps
        [(⟨"a"⟩, 1, 2), (⟨"b"⟩, 3, 4), (⟨"c"⟩, 5, 6)])).redis).1 = ["job_1", "job_3", "job_5"] ∧
    (run testOS (run testOS {} (submitSteps [(⟨"a"⟩, 1, 2), (⟨"b"⟩, 3, 4), (⟨"c"⟩, 5, 6)]))
        (List.replicate 3 Label.dequeue)).workers =
      [Worker.spawned "job_1", Worker.spawned "job_3", Worker.spawned "job_5"] :=
  have h := queue_fifo testOS [] [] [(⟨"a"⟩, 1, 2), (⟨"b"⟩, 3, 4), (⟨"c"⟩, 5, 6)]
    (by decide)
  ⟨h.2.1, h.2.2.2.1⟩

/-- C17: the code on a job that completes. With an upload for file `abc123`
and a tool that writes three frames, the worker's last record is completed
with output name `frames_job_1.zip`, yet the world it leaves is the uploads
directory alone: nothing exists under that name in `outputs`. -/
theorem completed_without_archive :
    (processJobBody testOS demoUploads demoPending "job_1" 3 4).writes.getLast? =
      some demoCompleted ∧
    (processJobBody testOS demoUploads demoPending "job_1" 3 4).world = demoUploads ∧
    testOS.Glob (processJobBody testOS demoUploads demoPending "job_1" 3 4).world
      (filepathJoin ["outputs", "frames_job_1.zip"]) = some [] ∧
    testOS.Glob (processJobBody testOS demoUploads demoPending "job_1" 3 4).world
      "outputs/*" = some [] := by
  decide

/-- In `processVideo`, when the tool reports no error and frames are listed,
the name returned and the world left are those of stage C, the scratch
directory removed. -/
theorem processVideo_stageC {σ : Type} (os : OS σ) (w w2 : σ) (inputFile jobID : String)
    (output : List Nat) (job : ProcessingJob) (f : String) (fs : List String)
    (hff : os.ffmpeg (os.MkdirAll w (filepathJoin ["processing", jobID]))
        ["-i", inputFile, "-vf", "fps=1", "-y",
          filepathJoin [filepathJoin ["processing", jobID], "frame_%04d.png"]] =
        (w2, output, none))
    (hglob : os.Glob w2 (filepathJoin [filepathJoin ["processing", jobID], "*.png"]) =
        some (f :: fs)) :
    (processVideo os w inputFile jobID job).result =
      Except.ok ((stageC w2 (f :: fs) jobID).2.1, ((f :: fs).length : Int)) ∧
    (processVideo os w inputFile jobID job).world =
      os.RemoveAll (stageC w2 (f :: fs) jobID).1 (filepathJoin ["processing", jobID]) := by
  simp [processVideo, hff, hglob, createZipFile, stageC]

/-- C18. For every world, frame list and job id, stage C yields the archive
name `frames_` followed by the job id and `.zip`, reports no error and leaves
the world, the output store included, as it was; running it again on the
world it left yields the same name, the same result and the same world. -/
theorem stageC_idempotent {σ : Type} (w : σ) (frames : List String) (jobID : String) :
    stageC (stageC w frames jobID).1 frames jobID = stageC w frames jobID ∧
    (stageC w frames jobID).1 = w ∧
    (stageC w frames jobID).2.1 = "frames_" ++ jobID ++ ".zip" ∧
    (stageC w frames jobID).2.2 = none := by
  simp [stageC, createZipFile]

theorem mem_kvSet (kv : List Entry) (k : String) (v : Doc) (t : Int) (e : Entry)
    (h : e ∈ kvSet kv k v t) : e ∈ kv ∨ e = ⟨k, v, t⟩ := by
  induction kv with
  | nil => simpa [kvSet] using h
  | cons a as ih =>
    by_cases ha : a.key = k
    · simp only [kvSet, ha, if_true, List.mem_cons] at h
      rcases h with h | h
      · exact Or.inr h
      · exact Or.inl (List.mem_cons_of_mem _ h)
    · simp only [kvSet, ha, if_false, List.mem_cons] at h
      rcases h with h | h
      · exact Or.inl (h ▸ List.mem_cons_self _ _)
      · rcases ih h with h | h
        · exact Or.inl (List.mem_cons_of_mem _ h)
        · exact Or.inr h

theorem kvTTL_kvSet (kv : List Entry) (k : String) (v : Doc) (t : Int) :
    kvTTL (kvSet kv k v t) k = some t := by
  induction kv with
  | nil => simp [kvSet, kvTTL]
  | cons a as ih =>
    by_cases ha : a.key = k
    · simp [kvSet, kvTTL, ha]
    · simp [kvSet, kvTTL, ha, ih]

theorem step_kv_effect {σ : Type} (os : OS σ) (s : Sys) (l : Label σ) :
    (step os s l).redis.kv = s.redis.kv ∨
      ∃ key j, (step os s l).redis.kv = kvSet s.redis.kv key (Doc.job j) (24 * Hour) := by
  cases l with
  | submit body idNow createdNow =>
    rcases startProcessing_kv s.redis body idNow createdNow with h | ⟨req, _, _, h⟩
    · exact Or.inl h
    · exact Or.inr ⟨_, _, h⟩
  | cancel jobID now =>
    rcases cancelProcessing_kv s.redis jobID now with h | ⟨d, _, _, h⟩
    · exact Or.inl h
    · exact Or.inr ⟨_, _, h⟩
  | dequeue => exact Or.inl (jobProcessorStep_effect s).1
  | workerRead i w now completedAt =>
    left
    simp only [step]
    rcases hi : s.workers.get? i with _ | ⟨jobID | pending⟩
    · rfl
    · exact processJobRead_kv s.redis jobID
    · rfl
  | workerWrite i =>
    simp only [step]
    rcases hi : s.workers.get? i with _ | ⟨jobID | pending⟩
    · exact Or.inl rfl
    · exact Or.inl rfl
    · cases pending with
      | nil => exact Or.inl rfl
      | cons job rest =>
        rcases updateJob_kv s.redis job with h | h
        · exact Or.inl h
        · exact Or.inr ⟨_, _, h⟩

theorem reachable_ttl {σ : Type} (os : OS σ) (s : Sys) (h : Reachable os s) :
    ∀ e ∈ s.redis.kv, e.ttl = 24 * Hour := by
  obtain ⟨conn, ls, rfl⟩ := h
  have hgen : ∀ (ls : List (Label σ)) (s0 : Sys), (∀ e ∈ s0.redis.kv, e.ttl = 24 * Hour) →
      ∀ e ∈ (run os s0 ls).redis.kv, e.ttl = 24 * Hour := by
    intro ls
    induction ls with
    | nil => intro s0 h0; exact h0
    | cons l ls ih =>
      intro s0 h0
      apply ih (step os s0 l)
      intro e he
      rcases step_kv_effect os s0 l with hk | ⟨key, j, hk⟩
      · rw [hk] at he; exact h0 e he
      · rw [hk] at he
        rcases mem_kvSet _ _ _ _ e he with he | he
        · exact h0 e he
        · rw [he]
  exact hgen ls _ (by intro e he; simp at he)

/-- C19. On a connection whose commands succeed, a valid submit, a cancel of
a pending or processing job and every `updateJob` of a worker replace the
store by the one in which the record is written under the key `job:`
followed by the job id with a TTL of 24 hours, and after such a write the TTL
of that key is 24 hours, whatever it was before. In every reachable state,
whatever the connection outcomes, every entry of the store has a TTL of 24
hours and every stored record is under the key `job:` followed by its own id. -/
theorem writes_set_key_and_ttl {σ : Type} (os : OS σ) :
    (∀ (kv : List Entry) (queue : List String) (req : ProcessRequest) (idNow createdNow : Time),
      req.FileID ≠ "" →
      (startProcessing ⟨kv, queue, []⟩ (Except.ok req) idNow createdNow).2.kv =
        kvSet kv ("job:" ++ generateJobID idNow)
          (Doc.job { ID := generateJobID idNow, FileID := req.FileID, Status := "pending",
                     Progress := 0, CreatedAt := createdNow }) (24 * Hour)) ∧
    (∀ (kv : List Entry) (queue : List String) (jobID : String) (now : Time) (j : ProcessingJob),
      kvGet kv ("job:" ++ jobID) = some (Doc.job j) →
      j.Status = "pending" ∨ j.Status = "processing" →
      (cancelProcessing ⟨kv, queue, []⟩ jobID now).2.kv =
        kvSet kv ("job:" ++ jobID)
          (Doc.job { j with Status := "cancelled", CompletedAt := some now }) (24 * Hour)) ∧
    (∀ (kv : List Entry) (queue : List String) (job : ProcessingJob),
      (updateJob ⟨kv, queue, []⟩ job).kv =
        kvSet kv ("job:" ++ job.ID) (Doc.job job) (24 * Hour)) ∧
    (∀ (kv : List Entry) (key : String) (d : Doc),
      kvTTL (kvSet kv key d (24 * Hour)) key = some (24 * Hour) ∧
      kvGet (kvSet kv key d (24 * Hour)) key = some d) ∧
    (Hour = 3600000000000) ∧
    (∀ s, Reachable os s →
      (∀ e ∈ s.redis.kv, e.ttl = 24 * Hour) ∧
      (∀ k d, kvGet s.redis.kv k = some d → ∃ j, d = Doc.job j ∧ k = "job:" ++ j.ID)) := by
  refine ⟨?_, ?_, ?_, ?_, rfl, ?_⟩
  · intro kv queue req idNow createdNow hne
    simp [startProcessing_healthy, hne]
  · intro kv queue jobID now j hget hst
    rcases hst with h | h <;>
      simp [cancelProcessing, Redis.Get, Redis.Set, Redis.next, hget, GetResult.text,
        jsonUnmarshal, jsonMarshal, h]
  · intro kv queue job
    simp [updateJob_healthy]
  · intro kv key d
    exact ⟨kvTTL_kvSet kv key d _, by simp [kvGet_kvSet]⟩
  · intro s hs
    refine ⟨reachable_ttl os s hs, ?_⟩
    intro k d hd
    obtain ⟨j, hj, _, hk⟩ := reachable_statuses os s hs k d hd
    exact ⟨j, hj, hk⟩

theorem writes_set_key_and_ttl_witness :
    (startProcessing ⟨[], [], []⟩ (Except.ok ⟨"abc123"⟩) 1 2).2.kv = demoStore demoPending ∧
    (cancelProcessing ⟨demoStore demoPending, [], []⟩ "job_1" 5).2.kv =
      demoStore demoCancelled ∧
    kvTTL (demoStore demoCancelled) "job:job_1" = some (24 * 3600000000000) :=
  ⟨by
      have h := (writes_set_key_and_ttl testOS).1 [] [] ⟨"abc123"⟩ 1 2 (by decide)
      rw [h]; decide,
    by
      have h := (writes_set_key_and_ttl testOS).2.1 (demoStore demoPending) [] "job_1" 5
        demoPending (by decide) (Or.inl rfl)
      rw [h]; decide,
    by decide⟩

/-- C20 (as amended). For a job the worker goes on with, whose input
resolves, on a connection whose commands succeed: when the extraction tool
reports an error, the final stored record is failed with progress 10 and the
error `ffmpeg error: ` followed by the text of the tool's error,
a line break, `Output: ` and the tool's combined output as `json.Marshal`
stores it, each byte that is part of no valid UTF-8 encoding replaced by
U+FFFD; an output of ASCII text is stored as it is. When the tool
reports no error and the frame listing is empty or fails, the final stored
record is failed with progress 70 and the error
`no frames extracted from video`. In both cases the output name and the
frame count of the record are those of the record read, nothing being
recorded there. -/
theorem processJob_tool_failure {σ : Type} (os : OS σ) (w w2 : σ) (kv : List Entry)
    (queue : List String) (jobID : String) (now completedAt : Time) (j : ProcessingJob)
    (inputFile : String) (output : List Nat)
    (hget : kvGet kv ("job:" ++ jobID) = some (Doc.job j)) (hst : j.Status ≠ "cancelled")
    (hfind : findInputFile os w j.FileID = Except.ok inputFile) :
    (∀ e, os.ffmpeg (os.MkdirAll w (filepathJoin ["processing", jobID]))
        ["-i", inputFile, "-vf", "fps=1", "-y",
          filepathJoin [filepathJoin ["processing", jobID], "frame_%04d.png"]] =
        (w2, output, some e) →
      kvGet (processJob os w ⟨kv, queue, []⟩ jobID now completedAt).1.kv ("job:" ++ j.ID) =
        some (Doc.job { j with Status := "failed", Progress := 10, StartedAt := some now,
                               Error := "ffmpeg error: " ++ e ++ "\nOutput: " ++ jsonText output,
                               CompletedAt := some now })) ∧
    (∀ text : String, (∀ c ∈ text.data, c.toNat < 128) → jsonText (asciiBytes text) = text) ∧
    (os.ffmpeg (os.MkdirAll w (filepathJoin ["processing", jobID]))
        ["-i", inputFile, "-vf", "fps=1", "-y",
          filepathJoin [filepathJoin ["processing", jobID], "frame_%04d.png"]] =
        (w2, output, none) →
      (os.Glob w2 (filepathJoin [filepathJoin ["processing", jobID], "*.png"]) = none ∨
        os.Glob w2 (filepathJoin [filepathJoin ["processing", jobID], "*.png"]) = some []) →
      kvGet (processJob os w ⟨kv, queue, []⟩ jobID now completedAt).1.kv ("job:" ++ j.ID) =
        some (Doc.job { j with Status := "failed", Progress := 70, StartedAt := some now,
                               Error := "no frames extracted from video",
                               CompletedAt := some now })) := by
  refine ⟨?_, jsonText_ascii, ?_⟩
  · intro e hff
    have hw : workerWrites os w (some j) jobID now completedAt =
        [{ j with Status := "processing", Progress := 0, StartedAt := some now },
         { j with Status := "processing", Progress := 10, StartedAt := some now },
         { j with Status := "failed", Progress := 10, StartedAt := some now,
                  Error := "ffmpeg error: " ++ e ++ "\nOutput: " ++ jsonText output,
                  CompletedAt := some now }] := by
      simp [workerWrites, processJobBody, hfind, processVideo, hff]
    simp [processJob, processJobRead_healthy kv queue jobID j hget hst, hw, updateJob_healthy,
      kvGet_kvSet]
  · intro hff hglob
    have hw : workerWrites os w (some j) jobID now completedAt =
        [{ j with Status := "processing", Progress := 0, StartedAt := some now },
         { j with Status := "processing", Progress := 10, StartedAt := some now },
         { j with Status := "processing", Progress := 70, StartedAt := some now },
         { j with Status := "failed", Progress := 70, StartedAt := some now,
                  Error := "no frames extracted from video",
                  CompletedAt := some now }] := by
      rcases hglob with hglob | hglob <;>
        simp [workerWrites, processJobBody, hfind, processVideo, hff, hglob]
    simp [processJob, processJobRead_healthy kv queue jobID j hget hst, hw, updateJob_healthy,
      kvGet_kvSet]

theorem processJob_tool_failure_witness :
    kvGet (processJob failingOS demoUploads ⟨demoStore demoPending, [], []⟩ "job_1" 3 4).1.kv
        ("job:" ++ demoPending.ID) =
      some (Doc.job { demoPending with
        Status := "failed", Progress := 10, StartedAt := some 3,
        Error := "ffmpeg error: " ++ "exit status 1" ++ "\nOutput: " ++
          jsonText (asciiBytes "Invalid data found when processing input"),
        CompletedAt := some 3 }) ∧
    jsonText (asciiBytes "Invalid data found when processing input") =
      "Invalid data found when processing input" ∧
    kvGet (processJob garbledOS demoUploads ⟨demoStore demoPending, [], []⟩ "job_1" 3 4).1.kv
        ("job:" ++ demoPending.ID) =
      some (Doc.job { demoPending with
        Status := "failed", Progress := 10, StartedAt := some 3,
        Error := "ffmpeg error: " ++ "exit status 1" ++ "\nOutput: " ++
          jsonText [98, 97, 100, 32, 255, 32, 98, 121, 116, 101],
        CompletedAt := some 3 }) ∧
    jsonText [98, 97, 100, 32, 255, 32, 98, 121, 116, 101] = "bad \uFFFD byte" ∧
    kvGet (processJob quietOS demoUploads ⟨demoStore demoPending, [], []⟩ "job_1" 3 4).1.kv
        ("job:" ++ demoPending.ID) =
      some (Doc.job { demoPending with
        Status := "failed", Progress := 70, StartedAt := some 3,
        Error := "no frames extracted from video", CompletedAt := some 3 }) :=
  ⟨(processJob_tool_failure failingOS demoUploads demoUploads (demoStore demoPending) []
      "job_1" 3 4 demoPending "../uploads/abc123_1700000000_video.mp4"
      (asciiBytes "Invalid data found when processing input") (by decide) (by decide)
      (by rfl)).1 "exit status 1" (by rfl),
    (processJob_tool_failure failingOS demoUploads demoUploads (demoStore demoPending) []
      "job_1" 3 4 demoPending "../uploads/abc123_1700000000_video.mp4"
      (asciiBytes "Invalid data found when processing input") (by decide) (by decide)
      (by rfl)).2.1 "Invalid data found when processing input" (by decide),
    (processJob_tool_failure garbledOS demoUploads demoUploads (demoStore demoPending) []
      "job_1" 3 4 demoPending "../uploads/abc123_1700000000_video.mp4"
      [98, 97, 100, 32, 255, 32, 98, 121, 116, 101] (by decide) (by decide)
      (by rfl)).1 "exit status 1" (by rfl),
    by decide,
    (processJob_tool_failure quietOS demoUploads demoUploads (demoStore demoPending) []
      "job_1" 3 4 demoPending "../uploads/abc123_1700000000_video.mp4" []
      (by decide) (by decide) (by rfl)).2.2 (by rfl) (Or.inr (by decide))⟩

/-- C20 (as stated) fails. With a tool that exits without error and writes no
frame, the error of the final record is `no frames extracted from video`,
not `no frames extracted`; with a tool that fails, the error is the
formatted text `ffmpeg error: exit status 1`, a line break and `Output: `
before the tool's output, not the tool's output itself. -/
theorem tool_failure_error_texts :
    ((kvGet (processJob quietOS demoUploads ⟨demoStore demoPending, [], []⟩
        "job_1" 3 4).1.kv "job:job_1").map (fun d => (jsonUnmarshal d).1.Error) =
      some "no frames extracted from video") ∧
    ("no frames extracted from video" : String) ≠ "no frames extracted" ∧
    ((kvGet (processJob failingOS demoUploads ⟨demoStore demoPending, [], []⟩
        "job_1" 3 4).1.kv "job:job_1").map (fun d => (jsonUnmarshal d).1.Error) =
      some "ffmpeg error: exit status 1\nOutput: Invalid data found when processing input") ∧
    jsonText (failingOS.ffmpeg demoUploads []).2.1 = "Invalid data found when processing input" ∧
    ("ffmpeg error: exit status 1\nOutput: Invalid data found when processing input" : String) ≠
      "Invalid data found when processing input" := by
  decide

/-! ## One worker per job when ids are distinct -/

theorem get?_split {α : Type} (l : List α) (i : Nat) (a : α) (h : l.get? i = some a) :
    ∃ l1 l2, l = l1 ++ a :: l2 ∧ ∀ b, l.set i b = l1 ++ b :: l2 := by
  induction l generalizing i with
  | nil => simp at h
  | cons x xs ih =>
    cases i with
    | zero =>
      simp at h
      subst h
      exact ⟨[], xs, rfl, fun b => rfl⟩
    | succ n =>
      simp at h
      obtain ⟨l1, l2, h1, h2⟩ := ih n (by simpa using h)
      refine ⟨x :: l1, l2, by simp [h1], fun b => ?_⟩
      simp [List.set, h2 b]

theorem spawnedIds_append (a b : List Worker) :
    spawnedIds (a ++ b) = spawnedIds a ++ spawnedIds b := by
  induction a with
  | nil => rfl
  | cons w ws ih => cases w <;> simp [spawnedIds, ih]

theorem mem_spawnedIds (ws : List Worker) (id : String) :
    id ∈ spawnedIds ws ↔ Worker.spawned id ∈ ws := by
  induction ws with
  | nil => simp [spawnedIds]
  | cons w ws ih => cases w <;> simp [spawnedIds, ih]

theorem redisLPush_effect (r : Redis) (v : String) :
    (r.LPush v).2.kv = r.kv ∧
      (((r.LPush v).1 ≠ none ∧ (r.LPush v).2.queue = r.queue) ∨
        ((r.LPush v).1 = none ∧ (r.LPush v).2.queue = v :: r.queue)) := by
  obtain ⟨kv, queue, conn⟩ := r
  rcases conn with _ | ⟨_ | e, os⟩ <;> simp [Redis.LPush, Redis.next]

theorem startProcessing_effect (r : Redis) (body : Except String ProcessRequest)
    (idNow createdNow : Time) :
    ((startProcessing r body idNow createdNow).2.kv = r.kv ∧
      (startProcessing r body idNow createdNow).2.queue = r.queue) ∨
    (∃ req, body = Except.ok req ∧ req.FileID ≠ "" ∧
      (startProcessing r body idNow createdNow).2.kv =
        kvSet r.kv ("job:" ++ generateJobID idNow)
          (Doc.job { ID := generateJobID idNow, FileID := req.FileID, Status := "pending",
                     Progress := 0, CreatedAt := createdNow }) (24 * Hour) ∧
      ((startProcessing r body idNow createdNow).2.queue = r.queue ∨
        (startProcessing r body idNow createdNow).2.queue = generateJobID idNow :: r.queue)) := by
  cases body with
  | error e => left; simp [startProcessing, ShouldBindJSON]
  | ok req =>
    by_cases hf : req.FileID = ""
    · left; simp [startProcessing, ShouldBindJSON, hf]
    · obtain ⟨kv, queue, conn⟩ := r
      rcases conn with _ | ⟨_ | e, _ | ⟨_ | e', os⟩⟩ <;>
        simp [startProcessing, Redis.Set, Redis.LPush, Redis.next, ShouldBindJSON, hf,
          jsonMarshal]

theorem cancelProcessing_queue (r : Redis) (jobID : String) (now : Time) :
    (cancelProcessing r jobID now).2.queue = r.queue := by
  obtain ⟨kv, queue, conn⟩ := r
  have e1 : ("" : String) ≠ "pending" := by decide
  have e2 : ("" : String) ≠ "processing" := by decide
  have he : (jsonUnmarshal emptyDoc).1.Status = "" := rfl
  cases hg : kvGet kv ("job:" ++ jobID) with
  | none =>
    rcases conn with _ | ⟨_ | e, os⟩ <;>
      simp [cancelProcessing, Redis.Get, Redis.next, hg, GetResult.text, he, e1, e2]
  | some d =>
    by_cases hst : (jsonUnmarshal d).1.Status ≠ "pending" ∧
        (jsonUnmarshal d).1.Status ≠ "processing"
    · rcases conn with _ | ⟨_ | e, os⟩ <;>
        simp [cancelProcessing, Redis.Get, Redis.next, hg, GetResult.text, he, e1, e2, hst]
    · rcases conn with _ | ⟨_ | e, _ | ⟨_ | e', os⟩⟩ <;>
        simp [cancelProcessing, Redis.Get, Redis.Set, Redis.next, hg, GetResult.text, he,
          jsonMarshal, e1, e2, hst]

theorem jobProcessorStep_cases (s : Sys) :
    ((jobProcessorStep s).redis.kv = s.redis.kv ∧
      (jobProcessorStep s).redis.queue = s.redis.queue ∧
      (jobProcessorStep s).workers = s.workers) ∨
    (∃ q v, s.redis.queue = q ++ [v] ∧ (jobProcessorStep s).redis.kv = s.redis.kv ∧
      (jobProcessorStep s).redis.queue = q ∧
      (jobProcessorStep s).workers = s.workers ++ [Worker.spawned v]) := by
  obtain ⟨⟨kv, queue, conn⟩, workers⟩ := s
  rcases List.eq_nil_or_concat queue with rfl | ⟨q, v, rfl⟩
  · left; simp [jobProcessorStep, Redis.BRPop]
  · rcases conn with _ | ⟨_ | e, os⟩
    · right; exact ⟨q, v, by simp [jobProcessorStep, Redis.BRPop, Redis.next]⟩
    · right; exact ⟨q, v, by simp [jobProcessorStep, Redis.BRPop, Redis.next]⟩
    · left; simp [jobProcessorStep, Redis.BRPop, Redis.next]

theorem processJobRead_queue (r : Redis) (jobID : String) :
    (processJobRead r jobID).2.queue = r.queue := by
  obtain ⟨kv, queue, conn⟩ := r
  rcases conn with _ | ⟨_ | e, os⟩ <;> simp only [processJobRead, Redis.Get, Redis.next] <;>
    first
      | rfl
      | (rcases kvGet kv ("job:" ++ jobID) with _ | ⟨j | p⟩ <;>
          first
            | rfl
            | (simp only [jsonUnmarshal]; split <;> rfl))

theorem updateJob_queue (r : Redis) (job : ProcessingJob) :
    (updateJob r job).queue = r.queue := by
  obtain ⟨kv, queue, conn⟩ := r
  rcases conn with _ | ⟨_ | e, os⟩ <;> simp [updateJob, Redis.Set, Redis.next]

theorem owned_step {σ : Type} (os : OS σ) (s : Sys) (used : List String) (l : Label σ)
    (hinv : Inv (fun k j => j.Status ∈ statuses ∧ k = "job:" ++ j.ID) s)
    (h : Owned s used) (hnd : (used ++ submitIds [l]).Nodup) :
    Owned (step os s l) (used ++ submitIds [l]) ∧ readsPendingStep s l = true := by
  obtain ⟨hN, hU, hP, hW⟩ := h
  have hsub : ∀ id ∈ used, id ∈ used ++ submitIds [l] :=
    fun id hid => List.mem_append_left _ hid
  -- a state with the same waiting ids and workers, whose store is changed only under the key
  -- of a job that does not wait, or to a cancelled record, stays owned
  have hkeep : ∀ (s' : Sys), waiting s' = waiting s → s'.workers = s.workers →
      (∀ id ∈ waiting s, ∀ d, kvGet s'.redis.kv ("job:" ++ id) = some d →
        ∃ j, d = Doc.job j ∧ (j.Status = "pending" ∨ j.Status = "cancelled")) →
      Owned s' (used ++ submitIds [l]) := by
    intro s' hw hws hst
    refine ⟨by rw [hw]; exact hN, ?_, ?_, ?_⟩
    · intro id hid; rw [hw] at hid; exact hsub id (hU id hid)
    · intro id hid; rw [hw] at hid; exact hst id hid
    · intro ws hmem x hx
      rw [hws] at hmem
      rw [hw]
      exact ⟨(hW ws hmem x hx).1, hsub _ (hW ws hmem x hx).2⟩
  cases l with
  | submit body idNow createdNow =>
    refine ⟨?_, rfl⟩
    rcases startProcessing_effect s.redis body idNow createdNow with
      ⟨hk, hq⟩ | ⟨req, hb, hne, hk, hq⟩
    · apply hkeep
      · simp only [waiting, step, hq]
      · rfl
      · intro id hid d hd
        simp only [step, hk] at hd
        exact hP id hid d hd
    · subst hb
      simp only [submitIds, hne, if_false] at hnd ⊢
      have hfresh : generateJobID idNow ∉ used := by
        intro hmem
        exact (List.nodup_append.mp hnd).2.2 hmem (List.mem_singleton.mpr rfl)
      have hold : ∀ id ∈ waiting s, ∀ d,
          kvGet (step os s (Label.submit (Except.ok req) idNow createdNow)).redis.kv
            ("job:" ++ id) = some d →
          ∃ j, d = Doc.job j ∧ (j.Status = "pending" ∨ j.Status = "cancelled") := by
        intro id hid d hd
        simp only [step, hk, kvGet_kvSet] at hd
        have hne' : ¬ "job:" ++ id = "job:" ++ generateJobID idNow := by
          intro heq
          exact hfresh (jobKey_injective _ _ heq ▸ hU id hid)
        rw [if_neg hne'] at hd
        exact hP id hid d hd
      rcases hq with hq | hq
      · have := hkeep (step os s (Label.submit (Except.ok req) idNow createdNow))
          (by simp only [waiting, step, hq]) rfl hold
        simpa [submitIds, hne] using this
      · have hw : waiting (step os s (Label.submit (Except.ok req) idNow createdNow)) =
            generateJobID idNow :: waiting s := by
          simp only [waiting, step, hq, List.cons_append]
        refine ⟨?_, ?_, ?_, ?_⟩
        · rw [hw]
          exact List.nodup_cons.mpr ⟨fun hmem => hfresh (hU _ hmem), hN⟩
        · intro id hid
          rw [hw] at hid
          rcases List.mem_cons.mp hid with rfl | hid
          · exact List.mem_append_right _ (List.mem_singleton.mpr rfl)
          · exact List.mem_append_left _ (hU id hid)
        · intro id hid d hd
          rw [hw] at hid
          rcases List.mem_cons.mp hid with rfl | hid
          · simp only [step, hk, kvGet_kvSet, if_true] at hd
            cases hd
            exact ⟨_, rfl, Or.inl rfl⟩
          · exact hold id hid d hd
        · intro ws hmem x hx
          have hx' := hW ws hmem x hx
          rw [hw]
          refine ⟨?_, List.mem_append_left _ hx'.2⟩
          intro hmem'
          rcases List.mem_cons.mp hmem' with heq | hmem'
          · exact hfresh (heq ▸ hx'.2)
          · exact hx'.1 hmem'
  | cancel jobID now =>
    refine ⟨?_, rfl⟩
    apply hkeep
    · simp only [waiting, step, cancelProcessing_queue]
    · rfl
    · intro id hid d hd
      simp only [step] at hd
      rcases cancelProcessing_kv s.redis jobID now with hk | ⟨d0, _, _, hk⟩
      · rw [hk] at hd; exact hP id hid d hd
      · rw [hk, kvGet_kvSet] at hd
        by_cases hkey : "job:" ++ id = "job:" ++ jobID
        · rw [if_pos hkey] at hd
          cases hd
          exact ⟨_, rfl, Or.inr rfl⟩
        · rw [if_neg hkey] at hd
          exact hP id hid d hd
  | dequeue =>
    refine ⟨?_, rfl⟩
    simp only [submitIds, List.append_nil]
    rcases jobProcessorStep_cases s with ⟨hk, hq, hw⟩ | ⟨q, v, hqv, hk, hq, hw⟩
    · have := hkeep (step os s Label.dequeue) (by simp only [waiting, step, hq, hw])
        (by simp only [step, hw])
        (by intro id hid d hd; simp only [step, hk] at hd; exact hP id hid d hd)
      simpa [submitIds] using this
    · have hperm : List.Perm (waiting (step os s Label.dequeue)) (waiting s) := by
        simp only [waiting, step, hq, hw, hqv, spawnedIds_append, spawnedIds]
        rw [List.append_assoc]
        exact List.Perm.append_left q List.perm_append_comm
      have hmemiff : ∀ id, id ∈ waiting (step os s Label.dequeue) ↔ id ∈ waiting s :=
        fun id => hperm.mem_iff
      refine ⟨hperm.nodup_iff.mpr hN, ?_, ?_, ?_⟩
      · intro id hid; exact hU id ((hmemiff id).mp hid)
      · intro id hid d hd
        simp only [step, hk] at hd
        exact hP id ((hmemiff id).mp hid) d hd
      · intro ws hmem x hx
        simp only [step, hw] at hmem
        have hmem' : Worker.running ws ∈ s.workers := by simpa using hmem
        exact ⟨fun hm => (hW ws hmem' x hx).1 ((hmemiff _).mp hm), (hW ws hmem' x hx).2⟩
  | workerRead i w now completedAt =>
    simp only [submitIds, List.append_nil]
    rcases hi : s.workers.get? i with _ | ⟨jobID | pending⟩
    · refine ⟨?_, by simp only [readsPendingStep, hi]⟩
      have : step os s (Label.workerRead i w now completedAt) = s := by simp only [step, hi]
      rw [this]; exact ⟨hN, hU, hP, hW⟩
    · obtain ⟨l1, l2, hl, hset⟩ := get?_split s.workers i _ hi
      have hwait : jobID ∈ waiting s := by
        simp only [waiting]
        exact List.mem_append_right _ ((mem_spawnedIds _ _).mpr (List.get?_mem hi))
      have hread : ∀ j, (processJobRead s.redis jobID).1 = some j →
          j.Status = "pending" ∧ j.ID = jobID := by
        intro j hj
        obtain ⟨hg, hnc⟩ := processJobRead_some s.redis jobID j hj
        obtain ⟨j', hj', hst⟩ := hP jobID hwait _ hg
        cases hj'
        obtain ⟨j'', hj'', _, hkey⟩ := hinv.1 _ _ hg
        cases hj''
        refine ⟨?_, (jobKey_injective _ _ hkey).symm⟩
        rcases hst with hst | hst
        · exact hst
        · exact absurd hst hnc
      have hstep : step os s (Label.workerRead i w now completedAt) =
          ⟨(processJobRead s.redis jobID).2,
            l1 ++ Worker.running (workerWrites os w (processJobRead s.redis jobID).1 jobID now
              completedAt) :: l2⟩ := by
        simp only [step, hi, hset]
      have hwold : waiting s = s.redis.queue ++ (spawnedIds l1 ++ jobID :: spawnedIds l2) := by
        simp only [waiting, hl, spawnedIds_append, spawnedIds]
      have hwnew : waiting (step os s (Label.workerRead i w now completedAt)) =
          s.redis.queue ++ (spawnedIds l1 ++ spawnedIds l2) := by
        rw [hstep]
        simp only [waiting, processJobRead_queue, spawnedIds_append, spawnedIds]
      have hsubl : List.Sublist (waiting (step os s (Label.workerRead i w now completedAt)))
          (waiting s) := by
        rw [hwnew, hwold]
        exact List.Sublist.append_left
          (List.Sublist.append_left (List.sublist_cons_self _ _) _) _
      have hnot : jobID ∉ waiting (step os s (Label.workerRead i w now completedAt)) := by
        rw [hwnew]
        rw [hwold] at hN
        have h1 := List.nodup_append.mp hN
        have h2 := List.nodup_append.mp h1.2.1
        have h3 := List.nodup_cons.mp h2.2.1
        intro hmem
        rcases List.mem_append.mp hmem with hmem | hmem
        · exact h1.2.2 hmem (by simp)
        · rcases List.mem_append.mp hmem with hmem | hmem
          · exact h2.2.2 hmem (List.mem_cons_self _ _)
          · exact h3.1 hmem
      refine ⟨⟨hsubl.nodup hN, ?_, ?_, ?_⟩, ?_⟩
      · intro id hid; exact hU id (hsubl.subset hid)
      · intro id hid d hd
        rw [hstep] at hd
        simp only [processJobRead_kv] at hd
        exact hP id (hsubl.subset hid) d hd
      · intro ws hmem x hx
        have hmem0 := hmem
        rw [hstep] at hmem
        simp only [List.mem_append, List.mem_cons] at hmem
        have hold : Worker.running ws ∈ s.workers →
            x.ID ∉ waiting (step os s (Label.workerRead i w now completedAt)) ∧ x.ID ∈ used :=
          fun hm => ⟨fun hin => (hW ws hm x hx).1 (hsubl.subset hin), (hW ws hm x hx).2⟩
        rcases hmem with hmem | hmem | hmem
        · exact hold (by rw [hl]; exact List.mem_append_left _ hmem)
        · cases hmem
          cases hr : (processJobRead s.redis jobID).1 with
          | none => rw [hr] at hx; simp [workerWrites] at hx
          | some j =>
            rw [hr] at hx
            have hid : x.ID = j.ID := processJobBody_writes_id os w j jobID now completedAt x hx
            rw [hid, (hread j hr).2]
            exact ⟨hnot, hU jobID hwait⟩
        · exact hold (by rw [hl]; exact List.mem_append_right _ (List.mem_cons_of_mem _ hmem))
      · simp only [readsPendingStep, hi]
        cases hr : (processJobRead s.redis jobID).1 with
        | none => rfl
        | some j => simpa using (hread j hr).1
    · refine ⟨?_, by simp only [readsPendingStep, hi]⟩
      have : step os s (Label.workerRead i w now completedAt) = s := by simp only [step, hi]
      rw [this]; exact ⟨hN, hU, hP, hW⟩
  | workerWrite i =>
    refine ⟨?_, rfl⟩
    simp only [submitIds, List.append_nil]
    have hsame : step os s (Label.workerWrite i) = s → Owned (step os s (Label.workerWrite i)) used :=
      fun h => by rw [h]; exact ⟨hN, hU, hP, hW⟩
    rcases hi : s.workers.get? i with _ | ⟨jobID | pending⟩
    · exact hsame (by simp only [step, hi])
    · exact hsame (by simp only [step, hi])
    · cases pending with
      | nil => exact hsame (by simp only [step, hi])
      | cons job rest =>
        obtain ⟨l1, l2, hl, hset⟩ := get?_split s.workers i _ hi
        have hmem : Worker.running (job :: rest) ∈ s.workers := List.get?_mem hi
        have hjob := hW _ hmem
        have hstep : step os s (Label.workerWrite i) =
            ⟨updateJob s.redis job, l1 ++ Worker.running rest :: l2⟩ := by
          simp only [step, hi, hset]
        have hw : waiting (step os s (Label.workerWrite i)) = waiting s := by
          rw [hstep]
          simp only [waiting, updateJob_queue, hl, spawnedIds_append, spawnedIds]
        refine ⟨by rw [hw]; exact hN, ?_, ?_, ?_⟩
        · intro id hid; rw [hw] at hid; exact hU id hid
        · intro id hid d hd
          rw [hw] at hid
          rw [hstep] at hd
          simp only at hd
          rcases updateJob_kv s.redis job with hk | hk
          · rw [hk] at hd; exact hP id hid d hd
          · rw [hk, kvGet_kvSet] at hd
            have hne : ¬ "job:" ++ id = "job:" ++ job.ID := by
              intro heq
              exact (hjob job (List.mem_cons_self _ _)).1 (jobKey_injective _ _ heq ▸ hid)
            rw [if_neg hne] at hd
            exact hP id hid d hd
        · intro ws hm x hx
          rw [hw]
          rw [hstep] at hm
          simp only [List.mem_append, List.mem_cons] at hm
          rcases hm with hm | hm | hm
          · exact hW ws (by rw [hl]; exact List.mem_append_left _ hm) x hx
          · cases hm
            exact hjob x (List.mem_cons_of_mem _ hx)
          · exact hW ws (by rw [hl]; exact List.mem_append_right _ (List.mem_cons_of_mem _ hm))
              x hx

theorem owned_run {σ : Type} (os : OS σ) (ls : List (Label σ)) (s : Sys) (used : List String)
    (hinv : Inv (fun k j => j.Status ∈ statuses ∧ k = "job:" ++ j.ID) s)
    (h : Owned s used) (hnd : (used ++ submitIds ls).Nodup) :
    readsPending os s ls = true := by
  induction ls generalizing s used with
  | nil => rfl
  | cons l ls ih =>
    rw [submitIds_cons, ← List.append_assoc] at hnd
    have hnd1 : (used ++ submitIds [l]).Nodup := (List.nodup_append.mp hnd).1
    obtain ⟨ho, hr⟩ := owned_step os s used l hinv h hnd1
    simp only [readsPending, Bool.and_eq_true]
    exact ⟨hr, ih (step os s l) (used ++ submitIds [l]) (inv_statuses_step os s l hinv) ho hnd⟩

/-- When the valid submissions of a run from the empty store are assigned
pairwise different job ids, every worker of the run starts from a record as
submit created it, whatever the interleaving and the connection outcomes. -/
theorem readsPending_of_nodup {σ : Type} (os : OS σ) (conn : List (Option String))
    (ls : List (Label σ)) (hnd : (submitIds ls).Nodup) :
    readsPending os { redis := { conn := conn } } ls = true := by
  apply owned_run os ls _ [] (inv_init _ conn) _ (by simpa using hnd)
  exact ⟨by simp [waiting, spawnedIds], by simp [waiting, spawnedIds],
    by simp [waiting, spawnedIds], by intro ws hmem; simp at hmem⟩

/-! ## Notification and timestamps of a run -/

/-- The records `processVideo` hands to `updateJob`, and the job it leaves,
keep the id and the `StartedAt` of the job it was given. -/
theorem processVideo_job {σ : Type} (os : OS σ) (w : σ) (inputFile jobID : String)
    (job : ProcessingJob) :
    (∀ x ∈ (processVideo os w inputFile jobID job).writes,
      x.ID = job.ID ∧ x.StartedAt = job.StartedAt) ∧
    (processVideo os w inputFile jobID job).job.ID = job.ID ∧
    (processVideo os w inputFile jobID job).job.StartedAt = job.StartedAt := by
  unfold processVideo
  rcases hff : os.ffmpeg (os.MkdirAll w (filepathJoin ["processing", jobID]))
    ["-i", inputFile, "-vf", "fps=1", "-y",
      filepathJoin [filepathJoin ["processing", jobID], "frame_%04d.png"]] with ⟨w2, out, err⟩
  cases err with
  | some e => simp [hff]
  | none =>
    rcases hg : os.Glob w2 (filepathJoin [filepathJoin ["processing", jobID], "*.png"])
      with _ | ⟨_ | ⟨f, fs⟩⟩ <;> simp [hff, hg, createZipFile]

/-- The last record of a worker run: it has the id of the record read and
`StartedAt` the reading on entry; either it is failed, carries that same
reading as `CompletedAt`, nothing is handed to `notifyCompletion` and the
records do not depend on the later clock reading, or it is completed, carries
the later reading, and is the one record handed to `notifyCompletion`. -/
theorem processJobBody_last {σ : Type} (os : OS σ) (w : σ) (j : ProcessingJob) (jobID : String)
    (now completedAt : Time) :
    ∃ pre last, (processJobBody os w j jobID now completedAt).writes = pre ++ [last] ∧
      (∀ x ∈ pre ++ [last], x.ID = j.ID) ∧ last.StartedAt = some now ∧
      ((last.Status = "failed" ∧ last.CompletedAt = some now ∧
          (processJobBody os w j jobID now completedAt).notified = [] ∧
          ∀ c, (processJobBody os w j jobID now c).writes = pre ++ [last]) ∨
       (last.Status = "completed" ∧ last.CompletedAt = some completedAt ∧
          (processJobBody os w j jobID now completedAt).notified = [last])) := by
  cases hf : findInputFile os w j.FileID with
  | error e =>
    have key : ∀ c, processJobBody os w j jobID now c =
        ⟨w, [{ j with Status := "processing", Progress := 0, StartedAt := some now },
             { j with Status := "failed", Progress := 0, StartedAt := some now, Error := e,
                      CompletedAt := some now }], []⟩ := by
      intro c; simp [processJobBody, hf]
    refine ⟨[_], _, by rw [key]; rfl, ?_, rfl, Or.inl ⟨rfl, rfl, by rw [key], ?_⟩⟩
    · simp
    · intro c; rw [key]; rfl
  | ok input =>
    obtain ⟨hvw, hvid, hvst⟩ := processVideo_job os w input jobID
      { j with Status := "processing", Progress := 0, StartedAt := some now }
    have hbody : ∀ c, processJobBody os w j jobID now c =
        match (processVideo os w input jobID
          { j with Status := "processing", Progress := 0, StartedAt := some now }).result with
        | Except.error e =>
          ⟨(processVideo os w input jobID
              { j with Status := "processing", Progress := 0, StartedAt := some now }).world,
            { j with Status := "processing", Progress := 0, StartedAt := some now } ::
              ((processVideo os w input jobID
                { j with Status := "processing", Progress := 0, StartedAt := some now }).writes ++
                [{ (processVideo os w input jobID
                    { j with Status := "processing", Progress := 0,
                             StartedAt := some now }).job with
                   Status := "failed", Error := e, CompletedAt := some now }]), []⟩
        | Except.ok (outputFile, frameCount) =>
          ⟨(processVideo os w input jobID
              { j with Status := "processing", Progress := 0, StartedAt := some now }).world,
            { j with Status := "processing", Progress := 0, StartedAt := some now } ::
              ((processVideo os w input jobID
                { j with Status := "processing", Progress := 0, StartedAt := some now }).writes ++
                [{ (processVideo os w input jobID
                    { j with Status := "processing", Progress := 0,
                             StartedAt := some now }).job with
                   Status := "completed", Progress := 100, OutputFile := outputFile,
                   FrameCount := frameCount, CompletedAt := some c }]),
            [{ (processVideo os w input jobID
                { j with Status := "processing", Progress := 0, StartedAt := some now }).job with
               Status := "completed", Progress := 100, OutputFile := outputFile,
               FrameCount := frameCount, CompletedAt := some c }]⟩ := by
      intro c; simp only [processJobBody, hf]
    generalize processVideo os w input jobID
      { j with Status := "processing", Progress := 0, StartedAt := some now } = v
      at hvw hvid hvst hbody
    have hpre : ∀ x ∈ { j with Status := "processing", Progress := 0, StartedAt := some now } ::
        v.writes, x.ID = j.ID := by
      intro x hx
      rcases List.mem_cons.mp hx with rfl | hx
      · rfl
      · exact (hvw x hx).1
    cases hr : v.result with
    | error e =>
      simp only [hr] at hbody
      refine ⟨{ j with Status := "processing", Progress := 0, StartedAt := some now } :: v.writes,
        { v.job with Status := "failed", Error := e, CompletedAt := some now },
        by rw [hbody]; rfl, ?_, hvst, Or.inl ⟨rfl, rfl, by rw [hbody], ?_⟩⟩
      · intro x hx
        rcases List.mem_append.mp hx with hx | hx
        · exact hpre x hx
        · rw [List.mem_singleton.mp hx]; exact hvid
      · intro c; rw [hbody]; rfl
    | ok res =>
      obtain ⟨outputFile, frameCount⟩ := res
      simp only [hr] at hbody
      refine ⟨{ j with Status := "processing", Progress := 0, StartedAt := some now } :: v.writes,
        { v.job with Status := "completed", Progress := 100, OutputFile := outputFile,
                     FrameCount := frameCount, CompletedAt := some completedAt },
        by rw [hbody]; rfl, ?_, hvst, Or.inr ⟨rfl, rfl, by rw [hbody]⟩⟩
      intro x hx
      rcases List.mem_append.mp hx with hx | hx
      · exact hpre x hx
      · rw [List.mem_singleton.mp hx]; exact hvid

/-- C21 (as amended). For every worker run that goes past its cancellation
check, the last record it hands to `updateJob` is completed or failed. When
it is completed, the run calls `notifyCompletion` exactly once, with that
record; when it is failed, the run does not call it. The calls leave the
store, and so every job record, as it was. -/
theorem notify_on_completed_only {σ : Type} (os : OS σ) (w : σ) (j : ProcessingJob)
    (jobID : String) (now completedAt : Time) (r : Redis) :
    (∃ last, (processJobBody os w j jobID now completedAt).writes.getLast? = some last ∧
      ((last.Status = "completed" ∧
          (processJobBody os w j jobID now completedAt).notified = [last]) ∨
       (last.Status = "failed" ∧
          (processJobBody os w j jobID now completedAt).notified = []))) ∧
    (processJobBody os w j jobID now completedAt).notified.foldl notifyCompletion r = r := by
  obtain ⟨pre, last, hw, _, _, h⟩ := processJobBody_last os w j jobID now completedAt
  refine ⟨⟨last, by rw [hw]; simp, ?_⟩, ?_⟩
  · rcases h with ⟨h1, _, h3, _⟩ | ⟨h1, _, h3⟩
    · exact Or.inr ⟨h1, h3⟩
    · exact Or.inl ⟨h1, h3⟩
  · rcases h with ⟨_, _, h3, _⟩ | ⟨_, _, h3⟩ <;> rw [h3] <;> rfl

/-- C21 (as stated) fails. The run for a job whose file id matches no upload
ends with a failed record, a terminal state, and hands nothing to
`notifyCompletion`: no notification is fired, not one. -/
theorem failed_run_without_notification :
    ((processJobBody testOS demoUploads demoMissing "job_1" 3 4).writes.getLast?.map
      (fun x => x.Status)) = some "failed" ∧
    terminal "failed" ∧
    (processJobBody testOS demoUploads demoMissing "job_1" 3 4).notified.length = 0 := by
  decide

/-- C24. For a worker run that goes on with the record it read, on a
connection whose commands succeed: the record stored at the end is the last
one the run handed to `updateJob`, and its `StartedAt` is the clock reading
taken on entering processing. When it is failed, its `CompletedAt` is that
same reading, and the records of the run are the same whatever the later
clock reading is; when it is completed, its `CompletedAt` is the reading taken
on completion. -/
theorem failed_run_completedAt_is_start {σ : Type} (os : OS σ) (w : σ) (kv : List Entry)
    (queue : List String) (jobID : String) (now completedAt : Time) (j : ProcessingJob)
    (hget : kvGet kv ("job:" ++ jobID) = some (Doc.job j)) (hst : j.Status ≠ "cancelled") :
    ∃ last, (processJob os w ⟨kv, queue, []⟩ jobID now completedAt).2.getLast? = some last ∧
      kvGet (processJob os w ⟨kv, queue, []⟩ jobID now completedAt).1.kv ("job:" ++ j.ID) =
        some (Doc.job last) ∧
      last.StartedAt = some now ∧
      ((last.Status = "failed" ∧ last.CompletedAt = last.StartedAt ∧
          ∀ c, (processJob os w ⟨kv, queue, []⟩ jobID now c).2 =
            (processJob os w ⟨kv, queue, []⟩ jobID now completedAt).2) ∨
       (last.Status = "completed" ∧ last.CompletedAt = some completedAt)) := by
  obtain ⟨pre, last, hw, hid, hstart, h⟩ := processJobBody_last os w j jobID now completedAt
  have hp : ∀ c, processJob os w ⟨kv, queue, []⟩ jobID now c =
      ((processJobBody os w j jobID now c).writes.foldl updateJob ⟨kv, queue, []⟩,
        (processJobBody os w j jobID now c).writes) := by
    intro c
    simp [processJob, processJobRead_healthy kv queue jobID j hget hst, workerWrites]
  have hlast : last.ID = j.ID := hid last (by simp)
  refine ⟨last, by rw [hp, hw]; simp, ?_, hstart, ?_⟩
  · rw [hp, hw, ← hlast]
    exact foldl_updateJob_last kv queue pre last
  · rcases h with ⟨h1, h2, _, h4⟩ | ⟨h1, h2, _⟩
    · refine Or.inl ⟨h1, by rw [h2, hstart], fun c => ?_⟩
      rw [hp, hp, h4 c, hw]
    · exact Or.inr ⟨h1, h2⟩

theorem failed_run_completedAt_is_start_witness :
    ∃ last, (processJob testOS demoUploads ⟨demoStore demoMissing, [], []⟩ "job_1" 3 9).2.getLast? =
        some last ∧
      kvGet (processJob testOS demoUploads ⟨demoStore demoMissing, [], []⟩ "job_1" 3 9).1.kv
          ("job:" ++ demoMissing.ID) = some (Doc.job last) ∧
      last.StartedAt = some 3 ∧
      ((last.Status = "failed" ∧ last.CompletedAt = last.StartedAt ∧
          ∀ c, (processJob testOS demoUploads ⟨demoStore demoMissing, [], []⟩ "job_1" 3 c).2 =
            (processJob testOS demoUploads ⟨demoStore demoMissing, [], []⟩ "job_1" 3 9).2) ∨
       (last.Status = "completed" ∧ last.CompletedAt = some 9)) :=
  failed_run_completedAt_is_start testOS demoUploads (demoStore demoMissing) [] "job_1" 3 9
    demoMissing (by decide) (by decide)

/-- The store after `cancelProcessing`: as it was, or with the record read,
its status set to `cancelled` and its `CompletedAt` to the time of the call,
written under the key of the request. -/
theorem cancelProcessing_ok (r : Redis) (jobID : String) (now : Time)
    (h : (cancelProcessing r jobID now).1.code = 200) :
    ∃ d, kvGet r.kv ("job:" ++ jobID) = some d ∧
      ((jsonUnmarshal d).1.Status = "pending" ∨ (jsonUnmarshal d).1.Status = "processing") ∧
      ((cancelProcessing r jobID now).2.kv = r.kv ∨
        (cancelProcessing r jobID now).2.kv =
          kvSet r.kv ("job:" ++ jobID)
            (Doc.job { (jsonUnmarshal d).1 with Status := "cancelled", CompletedAt := some now })
            (24 * Hour)) := by
  obtain ⟨kv, queue, conn⟩ := r
  have e1 : ("" : String) ≠ "pending" := by decide
  have e2 : ("" : String) ≠ "processing" := by decide
  have he : (jsonUnmarshal emptyDoc).1.Status = "" := rfl
  cases hg : kvGet kv ("job:" ++ jobID) with
  | none =>
    exfalso
    revert h
    rcases conn with _ | ⟨_ | e, os⟩ <;>
      simp [cancelProcessing, Redis.Get, Redis.next, hg, GetResult.text, he, e1, e2]
  | some d =>
    by_cases hst : (jsonUnmarshal d).1.Status ≠ "pending" ∧
        (jsonUnmarshal d).1.Status ≠ "processing"
    · exfalso
      revert h
      rcases conn with _ | ⟨_ | e, os⟩ <;>
        simp [cancelProcessing, Redis.Get, Redis.next, hg, GetResult.text, he, e1, e2, hst]
    · have hor : (jsonUnmarshal d).1.Status = "pending" ∨
          (jsonUnmarshal d).1.Status = "processing" := by
        by_cases hp : (jsonUnmarshal d).1.Status = "pending"
        · exact Or.inl hp
        · by_cases hq : (jsonUnmarshal d).1.Status = "processing"
          · exact Or.inr hq
          · exact absurd ⟨hp, hq⟩ hst
      refine ⟨d, rfl, hor, ?_⟩
      rcases cancelProcessing_kv ⟨kv, queue, conn⟩ jobID now with h1 | ⟨d', hd', _, h1⟩
      · exact Or.inl h1
      · simp only at hd'
        rw [hg] at hd'
        cases hd'
        exact Or.inr h1

theorem kvTTL_kvSet_ne (kv : List Entry) (k : String) (v : Doc) (t : Int) (k' : String)
    (h : k' ≠ k) : kvTTL (kvSet kv k v t) k' = kvTTL kv k' := by
  have h' : ¬ k = k' := fun x => h x.symm
  induction kv with
  | nil => simp [kvSet, kvTTL, h']
  | cons a as ih =>
    by_cases ha : a.key = k
    · have : ¬ a.key = k' := fun x => h (x.symm.trans ha)
      simp [kvSet, kvTTL, ha, h', this]
    · by_cases hb : a.key = k'
      · simp [kvSet, kvTTL, hb, h]
      · simp only [kvSet, kvTTL, ha, hb, if_false, ih]

/-- C26. When `cancelProcessing` answers 200, whatever the connection does:
a record was stored under the key of the request; afterwards that key holds
either the same text (the write failed) or a record that has status
`cancelled`, `CompletedAt` the time of the call, and the id, file id,
progress, `CreatedAt`, `StartedAt`, output name, frame count and error of the
record read; every other key holds the text and the TTL it held before. -/
theorem cancelProcessing_frame (r : Redis) (jobID : String) (now : Time)
    (h : (cancelProcessing r jobID now).1.code = 200) :
    (∃ d, kvGet r.kv ("job:" ++ jobID) = some d ∧
      (kvGet (cancelProcessing r jobID now).2.kv ("job:" ++ jobID) = some d ∨
        ∃ j, kvGet (cancelProcessing r jobID now).2.kv ("job:" ++ jobID) = some (Doc.job j) ∧
          j.Status = "cancelled" ∧ j.CompletedAt = some now ∧
          j.ID = (jsonUnmarshal d).1.ID ∧ j.FileID = (jsonUnmarshal d).1.FileID ∧
          j.Progress = (jsonUnmarshal d).1.Progress ∧
          j.CreatedAt = (jsonUnmarshal d).1.CreatedAt ∧
          j.StartedAt = (jsonUnmarshal d).1.StartedAt ∧
          j.OutputFile = (jsonUnmarshal d).1.OutputFile ∧
          j.FrameCount = (jsonUnmarshal d).1.FrameCount ∧
          j.Error = (jsonUnmarshal d).1.Error)) ∧
    ∀ k, k ≠ "job:" ++ jobID →
      kvGet (cancelProcessing r jobID now).2.kv k = kvGet r.kv k ∧
      kvTTL (cancelProcessing r jobID now).2.kv k = kvTTL r.kv k := by
  obtain ⟨d, hd, _, hkv⟩ := cancelProcessing_ok r jobID now h
  refine ⟨⟨d, hd, ?_⟩, ?_⟩
  · rcases hkv with hkv | hkv
    · left; rw [hkv]; exact hd
    · right
      exact ⟨{ (jsonUnmarshal d).1 with Status := "cancelled", CompletedAt := some now },
        by rw [hkv, kvGet_kvSet, if_pos rfl], rfl, rfl, rfl, rfl, rfl, rfl, rfl, rfl, rfl, rfl⟩
  · intro k hk
    rcases hkv with hkv | hkv
    · rw [hkv]; exact ⟨rfl, rfl⟩
    · rw [hkv, kvGet_kvSet, if_neg hk, kvTTL_kvSet_ne _ _ _ _ _ hk]
      exact ⟨rfl, rfl⟩

theorem cancelProcessing_frame_witness :
    kvGet (cancelProcessing ⟨demoStore demoPending ++ [⟨"job:job_5", Doc.job demoMissing, 7⟩],
        [], []⟩ "job_1" 5).2.kv "job:job_1" = some (Doc.job demoCancelled) ∧
    kvGet (cancelProcessing ⟨demoStore demoPending ++ [⟨"job:job_5", Doc.job demoMissing, 7⟩],
        [], []⟩ "job_1" 5).2.kv "job:job_5" = some (Doc.job demoMissing) ∧
    kvTTL (cancelProcessing ⟨demoStore demoPending ++ [⟨"job:job_5", Doc.job demoMissing, 7⟩],
        [], []⟩ "job_1" 5).2.kv "job:job_5" = some 7 :=
  have h := cancelProcessing_frame
    ⟨demoStore demoPending ++ [⟨"job:job_5", Doc.job demoMissing, 7⟩], [], []⟩ "job_1" 5
    (by decide)
  ⟨by decide, (h.2 "job:job_5" (by decide)).1.trans (by decide),
    (h.2 "job:job_5" (by decide)).2.trans (by decide)⟩

/-! ## Submit with a failing store -/

theorem spawnedIds_set_running (ws : List Worker) (i : Nat) (p : List ProcessingJob) :
    ∀ id ∈ spawnedIds (ws.set i (Worker.running p)), id ∈ spawnedIds ws := by
  induction ws generalizing i with
  | nil => intro id h; simp [spawnedIds] at h
  | cons x xs ih =>
    intro id h
    cases i with
    | zero =>
      simp only [List.set, spawnedIds] at h
      cases x with
      | spawned j => simp only [spawnedIds, List.mem_cons]; exact Or.inr h
      | running q => simpa only [spawnedIds] using h
    | succ n =>
      cases x with
      | spawned j =>
        simp only [List.set, spawnedIds, List.mem_cons] at h ⊢
        rcases h with h | h
        · exact Or.inl h
        · exact Or.inr (ih n id h)
      | running q =>
        simp only [List.set, spawnedIds] at h ⊢
        exact ih n id h

/-- An id that waits for a worker's read after a step waited before it, or is
the id the step's valid submit has drawn. -/
theorem waiting_step {σ : Type} (os : OS σ) (s : Sys) (l : Label σ) :
    ∀ id ∈ waiting (step os s l), id ∈ waiting s ∨ id ∈ submitIds [l] := by
  intro id hmem
  cases l with
  | submit body idNow createdNow =>
    simp only [step, waiting, List.mem_append] at hmem ⊢
    rcases hmem with hq | hw
    · rcases startProcessing_effect s.redis body idNow createdNow with
        ⟨_, hq'⟩ | ⟨req, hb, hne, _, hq' | hq'⟩
      · rw [hq'] at hq; exact Or.inl (Or.inl hq)
      · rw [hq'] at hq; exact Or.inl (Or.inl hq)
      · rw [hq'] at hq
        rcases List.mem_cons.mp hq with h | h
        · right; subst hb; simp [submitIds, hne, h]
        · exact Or.inl (Or.inl h)
    · exact Or.inl (Or.inr hw)
  | cancel jobID now =>
    left
    simpa only [step, waiting, cancelProcessing_queue] using hmem
  | dequeue =>
    left
    simp only [step, waiting, List.mem_append] at hmem ⊢
    rcases jobProcessorStep_cases s with ⟨_, hq, hw⟩ | ⟨q, v, hs, _, hq, hw⟩
    · rw [hq, hw] at hmem; exact hmem
    · rw [hq, hw, spawnedIds_append] at hmem
      rw [hs]
      simp only [spawnedIds, List.mem_append, List.mem_singleton] at hmem ⊢
      rcases hmem with h | h | h
      · exact Or.inl (Or.inl h)
      · exact Or.inr h
      · exact Or.inl (Or.inr h)
  | workerRead i w now completedAt =>
    left
    simp only [step] at hmem
    rcases hi : s.workers.get? i with _ | ⟨jobID | pending⟩
    · simpa only [hi] using hmem
    · simp only [hi, waiting, processJobRead_queue, List.mem_append] at hmem ⊢
      rcases hmem with h | h
      · exact Or.inl h
      · exact Or.inr (spawnedIds_set_running _ _ _ id h)
    · simpa only [hi] using hmem
  | workerWrite i =>
    left
    simp only [step] at hmem
    rcases hi : s.workers.get? i with _ | ⟨jobID | pending⟩
    · simpa only [hi] using hmem
    · simpa only [hi] using hmem
    · cases pending with
      | nil => simpa only [hi] using hmem
      | cons job rest =>
        simp only [hi, waiting, updateJob_queue, List.mem_append] at hmem ⊢
        rcases hmem with h | h
        · exact Or.inl h
        · exact Or.inr (spawnedIds_set_running _ _ _ id h)

theorem submitIds_append_one {σ : Type} (l : Label σ) (ls : List (Label σ)) (id : String) :
    id ∈ submitIds (l :: ls) ↔ id ∈ submitIds [l] ∨ id ∈ submitIds ls := by
  cases l with
  | submit body idNow createdNow =>
    cases body with
    | error e => simp [submitIds]
    | ok req => by_cases h : req.FileID = "" <;> simp [submitIds, h]
  | cancel jobID now => simp [submitIds]
  | dequeue => simp [submitIds]
  | workerRead i w now completedAt => simp [submitIds]
  | workerWrite i => simp [submitIds]

theorem waiting_run {σ : Type} (os : OS σ) (ls : List (Label σ)) (s : Sys) :
    ∀ id ∈ waiting (run os s ls), id ∈ waiting s ∨ id ∈ submitIds ls := by
  induction ls generalizing s with
  | nil => intro id h; exact Or.inl h
  | cons l ls ih =>
    intro id h
    rcases ih (step os s l) id h with h | h
    · rcases waiting_step os s l id h with h | h
      · exact Or.inl h
      · exact Or.inr ((submitIds_append_one l ls id).mpr (Or.inl h))
    · exact Or.inr ((submitIds_append_one l ls id).mpr (Or.inr h))

/-- C25. A valid submit on a connection whose next command fails is answered
500 with the text `Failed to create job: ` and the error, and leaves store and
queue as they were. When the next command succeeds and the one after it
fails, the submit is answered 500 with the text `Failed to queue job: ` and
the error, the pending record is stored under the key of the new id, and the
queue is as it was. From then on, whatever steps follow and whatever the
connection does, the id waits for no worker (it is neither in the queue nor
held by a worker that has not read yet), provided it did not wait before and
no later valid submit draws the same id. -/
theorem startProcessing_not_atomic (kv : List Entry) (queue : List String)
    (rest : List (Option String)) (req : ProcessRequest) (idNow createdNow : Time) (e : String)
    (hreq : req.FileID ≠ "") :
    startProcessing ⟨kv, queue, some e :: rest⟩ (Except.ok req) idNow createdNow =
      (⟨500, { Success := false, Error := "Failed to create job: " ++ e }⟩, ⟨kv, queue, rest⟩) ∧
    startProcessing ⟨kv, queue, none :: some e :: rest⟩ (Except.ok req) idNow createdNow =
      (⟨500, { Success := false, Error := "Failed to queue job: " ++ e }⟩,
        ⟨kvSet kv ("job:" ++ generateJobID idNow)
            (Doc.job { ID := generateJobID idNow, FileID := req.FileID, Status := "pending",
                       Progress := 0, CreatedAt := createdNow }) (24 * Hour),
          queue, rest⟩) ∧
    kvGet (startProcessing ⟨kv, queue, none :: some e :: rest⟩ (Except.ok req) idNow
        createdNow).2.kv ("job:" ++ generateJobID idNow) =
      some (Doc.job { ID := generateJobID idNow, FileID := req.FileID, Status := "pending",
                      Progress := 0, CreatedAt := createdNow }) ∧
    ∀ {σ : Type} (os : OS σ) (workers : List Worker) (ls : List (Label σ)),
      generateJobID idNow ∉ waiting ⟨⟨kv, queue, none :: some e :: rest⟩, workers⟩ →
      generateJobID idNow ∉ submitIds ls →
      generateJobID idNow ∉ waiting
        (run os ⟨(startProcessing ⟨kv, queue, none :: some e :: rest⟩ (Except.ok req) idNow
          createdNow).2, workers⟩ ls) := by
  have h1 : startProcessing ⟨kv, queue, some e :: rest⟩ (Except.ok req) idNow createdNow =
      (⟨500, { Success := false, Error := "Failed to create job: " ++ e }⟩,
        ⟨kv, queue, rest⟩) := by
    simp [startProcessing, ShouldBindJSON, hreq, Redis.Set, Redis.next]
  have h2 : startProcessing ⟨kv, queue, none :: some e :: rest⟩ (Except.ok req) idNow
      createdNow =
      (⟨500, { Success := false, Error := "Failed to queue job: " ++ e }⟩,
        ⟨kvSet kv ("job:" ++ generateJobID idNow)
            (Doc.job { ID := generateJobID idNow, FileID := req.FileID, Status := "pending",
                       Progress := 0, CreatedAt := createdNow }) (24 * Hour),
          queue, rest⟩) := by
    simp [startProcessing, ShouldBindJSON, hreq, Redis.Set, Redis.LPush, Redis.next, jsonMarshal]
  refine ⟨h1, h2, by rw [h2]; simp [kvGet_kvSet], ?_⟩
  intro σ os workers ls hw hs hmem
  rw [h2] at hmem
  rcases waiting_run os ls _ _ hmem with h | h
  · exact hw h
  · exact hs h

theorem startProcessing_not_atomic_witness :
    (startProcessing ⟨[], [], [none, some "connection refused"]⟩ (Except.ok ⟨"abc123"⟩) 1 2).1 =
      ⟨500, { Success := false, Error := "Failed to queue job: connection refused" }⟩ ∧
    kvGet (startProcessing ⟨[], [], [none, some "connection refused"]⟩ (Except.ok ⟨"abc123"⟩) 1
        2).2.kv "job:job_1" = some (Doc.job demoPending) ∧
    "job_1" ∉ waiting
      (run testOS ⟨(startProcessing ⟨[], [], [none, some "connection refused"]⟩
          (Except.ok ⟨"abc123"⟩) 1 2).2, []⟩
        [Label.dequeue, Label.submit (Except.ok ⟨"other"⟩) 5 6, Label.dequeue,
          Label.workerRead 0 demoUploads 7 8, Label.dequeue]) :=
  have h := startProcessing_not_atomic [] [] [] ⟨"abc123"⟩ 1 2 "connection refused" (by decide)
  ⟨congrArg Prod.fst h.2.1, h.2.2.1,
    h.2.2.2 testOS [] [Label.dequeue, Label.submit (Except.ok ⟨"other"⟩) 5 6, Label.dequeue,
      Label.workerRead 0 demoUploads 7 8, Label.dequeue] (by decide) (by decide)⟩

/-! ## A cancel against a running worker -/

theorem step_conn_healthy {σ : Type} (os : OS σ) (s : Sys) (l : Label σ)
    (h : s.redis.conn = []) : (step os s l).redis.conn = [] := by
  obtain ⟨⟨kv, queue, conn⟩, workers⟩ := s
  simp only at h
  subst h
  cases l with
  | submit body idNow createdNow =>
    simp only [step, startProcessing_healthy]
    cases body with
    | error e => rfl
    | ok req => by_cases hf : req.FileID = "" <;> simp [hf]
  | cancel jobID now => exact cancelProcessing_conn kv queue jobID now
  | dequeue => exact jobProcessorStep_conn _ rfl
  | workerRead i w now completedAt =>
    simp only [step]
    rcases hi : workers.get? i with _ | ⟨jobID | pending⟩
    · rfl
    · simp only [processJobRead_healthy_state]
    · rfl
  | workerWrite i =>
    simp only [step]
    rcases hi : workers.get? i with _ | ⟨jobID | pending⟩
    · rfl
    · rfl
    · cases pending with
      | nil => rfl
      | cons job rest => simp only [updateJob_healthy]

/-- A step other than a write leaves each worker that is past its read as it
is. -/
theorem step_keeps_running {σ : Type} (os : OS σ) (s : Sys) (l : Label σ) (i : Nat)
    (b : List ProcessingJob) (hi : s.workers.get? i = some (Worker.running b))
    (hl : ∀ k, l ≠ Label.workerWrite k) :
    (step os s l).workers.get? i = some (Worker.running b) := by
  have hlt : i < s.workers.length := by
    rcases Nat.lt_or_ge i s.workers.length with h | h
    · exact h
    · rw [List.get?_eq_none.mpr h] at hi
      cases hi
  cases l with
  | submit body idNow createdNow => exact hi
  | cancel jobID now => exact hi
  | dequeue =>
    simp only [step]
    rcases (jobProcessorStep_effect s).2 with h | ⟨jobID, h⟩
    · rw [h]; exact hi
    · rw [h]
      simpa [List.getElem?_append_left hlt] using hi
  | workerRead k w now completedAt =>
    simp only [step]
    rcases hk : s.workers.get? k with _ | ⟨jobID | pending⟩
    · exact hi
    · have hne : k ≠ i := by
        intro hki
        rw [hki, hi] at hk
        cases hk
      simpa [List.getElem?_set_ne hne] using hi
    · exact hi
  | workerWrite k => exact absurd rfl (hl k)

/-! ## Cancel requests in two steps -/

theorem cancelRead_kv (r : Redis) (jobID : String) (now : Time) :
    (cancelRead r jobID now).2.kv = r.kv := by
  have h : (cancelRead r jobID now).2 = (r.Get ("job:" ++ jobID)).2 := by
    unfold cancelRead
    rcases r.Get ("job:" ++ jobID) with ⟨_ | _ | _, r1⟩ <;> simp <;> split <;> rfl
  rw [h, redisGet_kv]

theorem cancelRead_healthy (kv : List Entry) (queue : List String) (jobID : String)
    (now : Time) : (cancelRead ⟨kv, queue, []⟩ jobID now).2 = ⟨kv, queue, []⟩ := by
  have h : (cancelRead ⟨kv, queue, []⟩ jobID now).2 =
      ((⟨kv, queue, []⟩ : Redis).Get ("job:" ++ jobID)).2 := by
    unfold cancelRead
    rcases (⟨kv, queue, []⟩ : Redis).Get ("job:" ++ jobID) with ⟨_ | _ | _, r1⟩ <;> simp <;>
      split <;> rfl
  rw [h]
  simp only [Redis.Get, Redis.next]
  cases kvGet kv ("job:" ++ jobID) <;> rfl

/-- The two commands of a cancel request, one after the other, are
`cancelProcessing`. -/
theorem cancelProcessing_two_commands (r : Redis) (jobID : String) (now : Time) :
    cancelProcessing r jobID now =
      match cancelRead r jobID now with
      | (Sum.inl reply, r1) => (reply, r1)
      | (Sum.inr job, r1) => cancelWrite r1 jobID job := by
  unfold cancelProcessing cancelRead cancelWrite
  rcases r.Get ("job:" ++ jobID) with ⟨d | _ | e, r1⟩
  · simp only
    split <;> rfl
  · rfl
  · simp only
    split <;> rfl

/-- A cancel request whose `GET` finds a record with a terminal status, or
fails, returns before its `SET`. -/
theorem cancelRead_terminal (r : Redis) (jobID : String) (now : Time) (j : ProcessingJob)
    (hget : kvGet r.kv ("job:" ++ jobID) = some (Doc.job j)) (hterm : terminal j.Status) :
    ∃ reply, (cancelRead r jobID now).1 = Sum.inl reply := by
  obtain ⟨kv, queue, conn⟩ := r
  simp only at hget
  have e1 : ("" : String) ≠ "pending" := by decide
  have e2 : ("" : String) ≠ "processing" := by decide
  have he : (jsonUnmarshal emptyDoc).1.Status = "" := rfl
  have hj : j.Status ≠ "pending" ∧ j.Status ≠ "processing" := by
    rcases hterm with h | h | h <;> rw [h] <;> decide
  have hu : (jsonUnmarshal (Doc.job j)).1 = j := rfl
  rcases conn with _ | ⟨_ | e, os⟩ <;>
    simp [cancelRead, Redis.Get, Redis.next, hget, GetResult.text, he, e1, e2, hu, hj]

theorem concRun_append {σ : Type} (os : OS σ) (s : ConcSys) (ls ls' : List (ConcLabel σ)) :
    concRun os s (ls ++ ls') = concRun os (concRun os s ls) ls' := by
  simp [concRun, List.foldl_append]

/-- A run of `step` is a run of the system with cancel requests in two
steps. -/
theorem concRun_whole {σ : Type} (os : OS σ) (s : ConcSys) (ls : List (Label σ)) :
    concRun os s (ls.map ConcLabel.whole) = { s with sys := run os s.sys ls } := by
  induction ls generalizing s with
  | nil => rfl
  | cons l ls ih =>
    simp only [List.map_cons, concRun, List.foldl_cons, run] at ih ⊢
    rw [ih]
    rfl

/-- The `GET` of a cancel request followed at once by its `SET` is the cancel
step of `step`. -/
theorem concStep_cancel {σ : Type} (os : OS σ) (s : ConcSys) (jobID : String) (now : Time) :
    (concStep os (concStep os s (ConcLabel.cancelRead jobID now))
      (ConcLabel.cancelWrite s.cancels.length)).sys = step os s.sys (Label.cancel jobID now) := by
  simp only [step, cancelProcessing_two_commands]
  rcases h : cancelRead s.sys.redis jobID now with ⟨reply | job, r1⟩
  · simp [concStep, h]
  · simp [concStep, h]

theorem concStep_conn_healthy {σ : Type} (os : OS σ) (s : ConcSys) (l : ConcLabel σ)
    (h : s.sys.redis.conn = []) : (concStep os s l).sys.redis.conn = [] := by
  cases l with
  | whole l => exact step_conn_healthy os s.sys l h
  | cancelRead jobID now =>
    obtain ⟨⟨⟨kv, queue, conn⟩, workers⟩, cancels⟩ := s
    simp only at h
    subst h
    have h2 := cancelRead_healthy kv queue jobID now
    simp only [concStep]
    rcases h1 : cancelRead ⟨kv, queue, []⟩ jobID now with ⟨reply | job, r1⟩ <;>
      rw [h1] at h2 <;> simp only at h2 <;> subst h2 <;> rfl
  | cancelWrite c =>
    obtain ⟨⟨⟨kv, queue, conn⟩, workers⟩, cancels⟩ := s
    simp only at h
    subst h
    simp only [concStep]
    rcases cancels.get? c with _ | _ | cancel <;> rfl

theorem concRun_conn_healthy {σ : Type} (os : OS σ) (ls : List (ConcLabel σ)) (s : ConcSys)
    (h : s.sys.redis.conn = []) : (concRun os s ls).sys.redis.conn = [] := by
  induction ls generalizing s with
  | nil => exact h
  | cons l ls ih => exact ih (concStep os s l) (concStep_conn_healthy os s l h)

theorem concWriteSteps_cons {σ : Type} (i : Nat) (l : ConcLabel σ) (ls : List (ConcLabel σ)) :
    concWriteSteps i (l :: ls) = concWriteSteps i [l] + concWriteSteps i ls := by
  rcases l with l | _ | _
  · cases l <;> simp [concWriteSteps]
  · simp [concWriteSteps]
  · simp [concWriteSteps]

theorem concWriteSteps_append {σ : Type} (i : Nat) (ls ls' : List (ConcLabel σ)) :
    concWriteSteps i (ls ++ ls') = concWriteSteps i ls + concWriteSteps i ls' := by
  induction ls with
  | nil => simp [concWriteSteps]
  | cons l ls ih =>
    rw [List.cons_append, concWriteSteps_cons, ih, concWriteSteps_cons i l ls]
    omega

/-- A worker past its read loses a record of those it still has to write by
its own write step and by no other step. -/
theorem concStep_worker {σ : Type} (os : OS σ) (s : ConcSys) (l : ConcLabel σ) (i : Nat)
    (b : List ProcessingJob) (hi : s.sys.workers.get? i = some (Worker.running b)) :
    (concStep os s l).sys.workers.get? i =
      some (Worker.running (b.drop (concWriteSteps i [l]))) := by
  have hlt : i < s.sys.workers.length := by
    rcases Nat.lt_or_ge i s.sys.workers.length with h | h
    · exact h
    · rw [List.get?_eq_none.mpr h] at hi
      cases hi
  rcases l with l | ⟨jobID, now⟩ | c
  · by_cases hw : ∃ k, l = Label.workerWrite k
    · obtain ⟨k, rfl⟩ := hw
      by_cases hk : k = i
      · subst hk
        cases b with
        | nil =>
          simp only [concStep, step, hi]
          simp [concWriteSteps]
        | cons x rest =>
          simp only [concStep, step, hi]
          simp [concWriteSteps, hlt]
      · simp only [concStep, step, concWriteSteps, if_neg hk, List.drop_zero]
        rcases hkw : s.sys.workers.get? k with _ | ⟨jobID | pending⟩
        · exact hi
        · exact hi
        · cases pending with
          | nil => exact hi
          | cons job rest => simpa [List.getElem?_set_ne hk] using hi
    · have hnw : ∀ k, l ≠ Label.workerWrite k := fun k hk => hw ⟨k, hk⟩
      have h0 : concWriteSteps i [ConcLabel.whole l] = 0 := by
        cases l with
        | workerWrite k => exact absurd rfl (hnw k)
        | _ => rfl
      rw [h0, List.drop_zero]
      exact step_keeps_running os s.sys l i b hi hnw
  · simp only [concStep, concWriteSteps, List.drop_zero]
    rcases cancelRead s.sys.redis jobID now with ⟨reply | job, r1⟩ <;> exact hi
  · simp only [concStep, concWriteSteps, List.drop_zero]
    rcases s.cancels.get? c with _ | _ | cancel <;> exact hi

theorem concRun_worker {σ : Type} (os : OS σ) (i : Nat) (ls : List (ConcLabel σ)) (s : ConcSys)
    (b : List ProcessingJob) (hi : s.sys.workers.get? i = some (Worker.running b)) :
    (concRun os s ls).sys.workers.get? i =
      some (Worker.running (b.drop (concWriteSteps i ls))) := by
  induction ls generalizing s b with
  | nil => simpa [concRun, concWriteSteps] using hi
  | cons l ls ih =>
    rw [concWriteSteps_cons, ← List.drop_drop]
    exact ih (concStep os s l) _ (concStep_worker os s l i b hi)

/-- On a connection whose commands succeed, the record a worker writes is the
stored record of its job right after the write. -/
theorem concStep_write_stored {σ : Type} (os : OS σ) (s : ConcSys) (i : Nat) (x : ProcessingJob)
    (rest : List ProcessingJob) (hconn : s.sys.redis.conn = [])
    (hi : s.sys.workers.get? i = some (Worker.running (x :: rest))) :
    kvGet (concStep os s (ConcLabel.whole (Label.workerWrite i))).sys.redis.kv ("job:" ++ x.ID) =
      some (Doc.job x) := by
  obtain ⟨⟨⟨kv, queue, conn⟩, workers⟩, cancels⟩ := s
  simp only at hconn hi
  subst hconn
  simp only [concStep, step, hi, updateJob_healthy, kvGet_kvSet, if_true]

/-- A step that does not write under the key of a record with a terminal
status leaves that record as it is. -/
theorem conc_terminal_frame_step {σ : Type} (os : OS σ) (s : ConcSys) (key : String)
    (j : ProcessingJob) (l : ConcLabel σ)
    (hget : kvGet s.sys.redis.kv key = some (Doc.job j)) (hterm : terminal j.Status)
    (hav : concWritesKey s key l = false) :
    kvGet (concStep os s l).sys.redis.kv key = some (Doc.job j) := by
  rcases l with l | ⟨jobID, now⟩ | c
  · exact terminal_frame_step os s.sys key j l hget hterm hav
  · have h : (concStep os s (ConcLabel.cancelRead jobID now)).sys.redis.kv = s.sys.redis.kv := by
      have h1 := cancelRead_kv s.sys.redis jobID now
      simp only [concStep]
      rcases h2 : cancelRead s.sys.redis jobID now with ⟨reply | job, r1⟩ <;>
        rw [h2] at h1 <;> exact h1
    rw [h]
    exact hget
  · simp only [concStep]
    simp only [concWritesKey] at hav
    rcases hc : s.cancels.get? c with _ | _ | cancel
    · exact hget
    · exact hget
    · rw [hc] at hav
      simp only [decide_eq_false_iff_not] at hav
      simp only [cancelWrite]
      rcases redisSet_kv s.sys.redis ("job:" ++ cancel.jobID) (jsonMarshal cancel.job)
        (24 * Hour) with h | h
      · rw [h]; exact hget
      · rw [h, kvGet_kvSet, if_neg (fun hk => hav hk.symm)]; exact hget

theorem conc_terminal_frame_run {σ : Type} (os : OS σ) (key : String) (j : ProcessingJob)
    (hterm : terminal j.Status) (ls : List (ConcLabel σ)) (s : ConcSys)
    (hget : kvGet s.sys.redis.kv key = some (Doc.job j))
    (hav : concAvoids os s key ls = true) :
    kvGet (concRun os s ls).sys.redis.kv key = some (Doc.job j) := by
  induction ls generalizing s with
  | nil => exact hget
  | cons l ls ih =>
    simp only [concAvoids, Bool.and_eq_true, Bool.not_eq_true'] at hav
    exact ih (concStep os s l) (conc_terminal_frame_step os s key j l hget hterm hav.1) hav.2

/-- C7 (as amended). Cancel requests are taken as the two commands they send,
with any steps between them. Once the record of a job has a terminal status,
it stays exactly as it is through every later sequence of steps none of which
writes under its key: dispatcher dequeue, worker read, the `GET` of a cancel
request, a cancel request handled without interruption, a submit drawing
another id, and a worker write or the `SET` of a cancel request addressed to
another job never change it. After such a sequence a cancel request for the
job that sends its `GET` returns before its `SET`, so the list of cancel
requests that have a `SET` to send is as it was. What can change the record is
a submit drawing the same id, a write of a worker that holds the job, and the
`SET` of a cancel request for the job whose `GET` came before the record had
its terminal status. -/
theorem terminal_record_frame {σ : Type} (os : OS σ) (s : ConcSys) (jobID : String)
    (j : ProcessingJob) (ls : List (ConcLabel σ))
    (hget : kvGet s.sys.redis.kv ("job:" ++ jobID) = some (Doc.job j))
    (hterm : terminal j.Status)
    (hav : concAvoids os s ("job:" ++ jobID) ls = true) :
    kvGet (concRun os s ls).sys.redis.kv ("job:" ++ jobID) = some (Doc.job j) ∧
    ∀ now, (concStep os (concRun os s ls) (ConcLabel.cancelRead jobID now)).cancels =
      (concRun os s ls).cancels := by
  have h1 := conc_terminal_frame_run os ("job:" ++ jobID) j hterm ls s hget hav
  refine ⟨h1, fun now => ?_⟩
  obtain ⟨reply, hr⟩ := cancelRead_terminal (concRun os s ls).sys.redis jobID now j h1 hterm
  simp only [concStep]
  rcases h2 : cancelRead (concRun os s ls).sys.redis jobID now with ⟨reply2 | job, r1⟩
  · rfl
  · rw [h2] at hr
    cases hr

theorem terminal_record_frame_witness :
    kvGet (concRun testOS demoRunning
        [ConcLabel.whole (Label.workerWrite 0), ConcLabel.whole (Label.workerWrite 0),
          ConcLabel.whole (Label.workerWrite 0),
          ConcLabel.whole (Label.workerWrite 0)]).sys.redis.kv ("job:" ++ "job_1") =
      some (Doc.job demoCompleted) ∧
    terminal demoCompleted.Status ∧
    concAvoids testOS
      (concRun testOS demoRunning
        [ConcLabel.whole (Label.workerWrite 0), ConcLabel.whole (Label.workerWrite 0),
          ConcLabel.whole (Label.workerWrite 0), ConcLabel.whole (Label.workerWrite 0)])
      ("job:" ++ "job_1")
      ([ConcLabel.cancelRead "job_1" 9, ConcLabel.whole (Label.submit (Except.ok ⟨"other"⟩) 5 6),
        ConcLabel.cancelRead "job_5" 6] ++ demoSecondJob.tail ++
        [ConcLabel.cancelWrite 0, ConcLabel.whole (Label.cancel "job_1" 10)]) = true ∧
    kvGet (concRun testOS
      (concRun testOS demoRunning
        [ConcLabel.whole (Label.workerWrite 0), ConcLabel.whole (Label.workerWrite 0),
          ConcLabel.whole (Label.workerWrite 0), ConcLabel.whole (Label.workerWrite 0)])
      ([ConcLabel.cancelRead "job_1" 9, ConcLabel.whole (Label.submit (Except.ok ⟨"other"⟩) 5 6),
        ConcLabel.cancelRead "job_5" 6] ++ demoSecondJob.tail ++
        [ConcLabel.cancelWrite 0, ConcLabel.whole (Label.cancel "job_1" 10)])).sys.redis.kv
      ("job:" ++ "job_1") = some (Doc.job demoCompleted) :=
  ⟨by decide, by decide, by decide,
    (terminal_record_frame testOS
      (concRun testOS demoRunning
        [ConcLabel.whole (Label.workerWrite 0), ConcLabel.whole (Label.workerWrite 0),
          ConcLabel.whole (Label.workerWrite 0), ConcLabel.whole (Label.workerWrite 0)])
      "job_1" demoCompleted
      ([ConcLabel.cancelRead "job_1" 9, ConcLabel.whole (Label.submit (Except.ok ⟨"other"⟩) 5 6),
        ConcLabel.cancelRead "job_5" 6] ++ demoSecondJob.tail ++
        [ConcLabel.cancelWrite 0, ConcLabel.whole (Label.cancel "job_1" 10)])
      (by decide) (by decide) (by decide)).1⟩

/-- C23. Cancel requests are taken as the two commands they send, with any
steps between them. Worker `i` has read the record `j` of job `jobID`, so it
is past its cancellation check, and still has the records `todo` of its run
to write, on a connection whose commands succeed. Whatever steps are taken
from there, cancel requests for this or another job and the steps of other
jobs and their workers among them, the worker keeps the records it has not
written yet, each of its write steps taking the next one, and the record it
writes is the stored record of the job right after the write. The last record
of the run has status `completed` or `failed`, and it is the stored record of
the job after every sequence of steps in which no write under the key of the
job lands after the last write of the worker. -/
theorem cancel_after_read {σ : Type} (os : OS σ) (w : σ) (j : ProcessingJob) (jobID : String)
    (now completedAt : Time) (s : ConcSys) (i : Nat) (done todo : List ProcessingJob)
    (hid : j.ID = jobID)
    (hrun : (processJobBody os w j jobID now completedAt).writes = done ++ todo)
    (hconn : s.sys.redis.conn = [])
    (hi : s.sys.workers.get? i = some (Worker.running todo)) :
    (∀ ls, (concRun os s ls).sys.workers.get? i =
      some (Worker.running (todo.drop (concWriteSteps i ls)))) ∧
    (∀ ls x, todo.get? (concWriteSteps i ls) = some x →
      kvGet (concRun os s (ls ++ [ConcLabel.whole (Label.workerWrite i)])).sys.redis.kv
        ("job:" ++ jobID) = some (Doc.job x)) ∧
    ∃ last, (processJobBody os w j jobID now completedAt).writes.getLast? = some last ∧
      (last.Status = "completed" ∨ last.Status = "failed") ∧
      ∀ ls1 ls2, concWriteSteps i ls1 + 1 = todo.length →
        concAvoids os (concRun os s (ls1 ++ [ConcLabel.whole (Label.workerWrite i)]))
          ("job:" ++ jobID) ls2 = true →
        kvGet (concRun os s
          (ls1 ++ [ConcLabel.whole (Label.workerWrite i)] ++ ls2)).sys.redis.kv
          ("job:" ++ jobID) = some (Doc.job last) := by
  obtain ⟨pre, last, hw, hids, _, h⟩ := processJobBody_last os w j jobID now completedAt
  have hterm : last.Status = "completed" ∨ last.Status = "failed" := by
    rcases h with ⟨h1, _⟩ | ⟨h1, _⟩
    · exact Or.inr h1
    · exact Or.inl h1
  have hT : terminal last.Status := by
    rcases hterm with h | h
    · exact Or.inl h
    · exact Or.inr (Or.inl h)
  have hstored : ∀ ls x, todo.get? (concWriteSteps i ls) = some x →
      kvGet (concRun os s (ls ++ [ConcLabel.whole (Label.workerWrite i)])).sys.redis.kv
        ("job:" ++ jobID) = some (Doc.job x) := by
    intro ls x hx
    have hmem : x ∈ todo := List.get?_mem hx
    have hxid : x.ID = jobID := by
      rw [← hid]
      apply hids
      rw [← hw, hrun]
      exact List.mem_append_right _ hmem
    have hdrop : todo.drop (concWriteSteps i ls) = x :: todo.drop (concWriteSteps i ls + 1) := by
      rw [List.get?_eq_getElem?] at hx
      obtain ⟨hlt, hget⟩ := List.getElem?_eq_some_iff.mp hx
      rw [← hget]
      exact List.drop_eq_getElem_cons hlt
    have hwk := concRun_worker os i ls s todo hi
    rw [hdrop] at hwk
    have h1 := concStep_write_stored os (concRun os s ls) i x _
      (concRun_conn_healthy os ls s hconn) hwk
    rw [hxid] at h1
    rw [concRun_append]
    exact h1
  refine ⟨fun ls => concRun_worker os i ls s todo hi, hstored, last, by rw [hw]; simp, hterm, ?_⟩
  intro ls1 ls2 hn hav
  have hlast : todo.get? (concWriteSteps i ls1) = some last := by
    have hne : todo ≠ [] := by
      intro h0
      rw [h0] at hn
      simp at hn
    have h1 : (done ++ todo).getLast? = some last := by rw [← hrun, hw]; simp
    rw [List.getLast?_append_of_ne_nil _ hne, List.getLast?_eq_getElem?] at h1
    have h2 : todo.length - 1 = concWriteSteps i ls1 := by omega
    rw [h2] at h1
    rw [List.get?_eq_getElem?]
    exact h1
  rw [concRun_append]
  exact conc_terminal_frame_run os _ last hT ls2 _ (hstored ls1 last hlast) hav

theorem cancel_after_read_witness :
    concRun testOS {} ((demoStart ++ [Label.workerWrite 0]).map ConcLabel.whole) = demoRunning ∧
    (concRun testOS demoRunning
      ([ConcLabel.cancelRead "job_1" 5] ++ demoSecondJob ++
        [ConcLabel.whole (Label.workerWrite 0), ConcLabel.whole (Label.workerWrite 0),
          ConcLabel.cancelWrite 0, ConcLabel.whole (Label.workerWrite 0)])).sys.workers.get? 0 =
      some (Worker.running [demoCompleted]) ∧
    kvGet (concRun testOS demoRunning
      ([ConcLabel.cancelRead "job_1" 5] ++ demoSecondJob ++
        [ConcLabel.whole (Label.workerWrite 0), ConcLabel.whole (Label.workerWrite 0),
          ConcLabel.cancelWrite 0, ConcLabel.whole (Label.workerWrite 0)] ++
        [ConcLabel.whole (Label.workerWrite 0)] ++
        [ConcLabel.cancelRead "job_1" 9, ConcLabel.cancelWrite 0,
          ConcLabel.whole (Label.cancel "job_1" 10)])).sys.redis.kv
      ("job:" ++ "job_1") = some (Doc.job demoCompleted) :=
  ⟨by decide,
    (cancel_after_read testOS demoUploads demoPending "job_1" 3 4 demoRunning 0
      [demoProcessing 0]
      [demoProcessing 10, demoProcessing 70, demoProcessing 100, demoCompleted]
      rfl (by decide) (by decide) (by decide)).1
      ([ConcLabel.cancelRead "job_1" 5] ++ demoSecondJob ++
        [ConcLabel.whole (Label.workerWrite 0), ConcLabel.whole (Label.workerWrite 0),
          ConcLabel.cancelWrite 0, ConcLabel.whole (Label.workerWrite 0)]),
    (cancel_after_read testOS demoUploads demoPending "job_1" 3 4 demoRunning 0
      [demoProcessing 0]
      [demoProcessing 10, demoProcessing 70, demoProcessing 100, demoCompleted]
      rfl (by decide) (by decide) (by decide)).2.2.elim
      (fun last h => by
        have h1 : (processJobBody testOS demoUploads demoPending "job_1" 3 4).writes.getLast? =
            some demoCompleted := by decide
        have hl : last = demoCompleted := (Option.some.inj (h1.symm.trans h.1)).symm
        subst hl
        exact h.2.2
          ([ConcLabel.cancelRead "job_1" 5] ++ demoSecondJob ++
            [ConcLabel.whole (Label.workerWrite 0), ConcLabel.whole (Label.workerWrite 0),
              ConcLabel.cancelWrite 0, ConcLabel.whole (Label.workerWrite 0)])
          [ConcLabel.cancelRead "job_1" 9, ConcLabel.cancelWrite 0,
            ConcLabel.whole (Label.cancel "job_1" 10)]
          (by decide) (by decide))⟩

/-- The `SET` of a cancel request can land after the last write of the
worker. In the run of `demoStart` the cancel request sends its `GET` while the
record is processing at progress 0; the worker then makes its remaining four
writes and the stored record is completed; the `SET` of the cancel request
then replaces it by the record the request read, with status `cancelled`. -/
theorem cancel_set_after_last_write :
    kvGet (concRun testOS demoRunning
      [ConcLabel.cancelRead "job_1" 5, ConcLabel.whole (Label.workerWrite 0),
        ConcLabel.whole (Label.workerWrite 0), ConcLabel.whole (Label.workerWrite 0),
        ConcLabel.whole (Label.workerWrite 0)]).sys.redis.kv "job:job_1" =
      some (Doc.job demoCompleted) ∧
    kvGet (concRun testOS demoRunning
      [ConcLabel.cancelRead "job_1" 5, ConcLabel.whole (Label.workerWrite 0),
        ConcLabel.whole (Label.workerWrite 0), ConcLabel.whole (Label.workerWrite 0),
        ConcLabel.whole (Label.workerWrite 0), ConcLabel.cancelWrite 0]).sys.redis.kv
      "job:job_1" =
      some (Doc.job { demoProcessing 0 with Status := "cancelled", CompletedAt := some 5 }) := by
  decide

/-! ## Lookup of the input by file id -/

theorem splitSlash_plain (cs : List Char) (h : ∀ c ∈ cs, c ≠ '/') : splitSlash cs = [cs] := by
  induction cs with
  | nil => rfl
  | cons c cs ih =>
    have hc : c ≠ '/' := h c (List.mem_cons_self _ _)
    simp [splitSlash, ih (fun x hx => h x (List.mem_cons_of_mem _ hx)), hc]

theorem toDigitsCore_chars (P : Char → Prop) (hP : ∀ d, d < 10 → P (Nat.digitChar d))
    (fuel n : Nat) (ds : List Char) (h : ∀ c ∈ ds, P c) :
    ∀ c ∈ Nat.toDigitsCore 10 fuel n ds, P c := by
  induction fuel generalizing n ds with
  | zero => simpa [Nat.toDigitsCore] using h
  | succ fuel ih =>
    have hds : ∀ c ∈ Nat.digitChar (n % 10) :: ds, P c := by
      intro c hc
      rcases List.mem_cons.mp hc with rfl | hc
      · exact hP _ (Nat.mod_lt _ (by decide))
      · exact h c hc
    simp only [Nat.toDigitsCore]
    split
    · exact hds
    · exact ih _ _ hds

/-- Every character of the decimal text of an integer is a digit or the
minus sign. -/
theorem intToString_chars (P : Char → Prop) (hP : ∀ d, d < 10 → P (Nat.digitChar d))
    (hm : P '-') (t : Int) : ∀ c ∈ (toString t).data, P c := by
  have hnat : ∀ n : Nat, ∀ c ∈ (Nat.repr n).data, P c := by
    intro n c hc
    have : (Nat.repr n).data = Nat.toDigits 10 n := by simp [Nat.repr, List.asString]
    rw [this] at hc
    exact toDigitsCore_chars P hP (n + 1) n [] (by simp) c hc
  intro c hc
  cases t with
  | ofNat m => exact hnat m c hc
  | negSucc m =>
    have : (toString (Int.negSucc m)).data = '-' :: (Nat.repr (m + 1)).data := by
      show ("-" ++ Nat.repr (m + 1)).data = _
      simp [String.data_append]
    rw [this] at hc
    rcases List.mem_cons.mp hc with rfl | hc
    · exact hm
    · exact hnat _ c hc

theorem extScan_eq (l acc : List Char) :
    extScan l acc =
      if '.' ∈ l.takeWhile (fun c => c ≠ '/') then
        '.' :: (((l.takeWhile (fun c => c ≠ '/')).takeWhile (fun c => c ≠ '.')).reverse ++ acc)
      else [] := by
  induction l generalizing acc with
  | nil => simp [extScan]
  | cons c cs ih =>
    by_cases h1 : c = '/'
    · subst h1; simp [extScan]
    · by_cases h2 : c = '.'
      · subst h2; simp [extScan]
      · have h3 : ¬ '.' = c := fun h => h2 h.symm
        simp only [extScan, h1, h2, if_false, ih, List.takeWhile, ne_eq, not_false_eq_true,
          decide_True, List.mem_cons, h3, false_or, List.reverse_cons, List.append_assoc,
          List.singleton_append]

/-- The extension `filepath.Ext` computes is the one the specification
describes. -/
theorem filepathExt_eq_extensionOf (path : String) : filepathExt path = extensionOf path := by
  unfold filepathExt extensionOf lastElement
  rw [extScan_eq]
  simp only [List.reverse_reverse, List.mem_reverse, List.append_nil]
  split <;> rfl

/-- C28. For every file name and every mapping of characters to lower case,
`isValidVideoFile` under the configuration of `loadConfig` returns true exactly
when the extension of the name (the text from the last dot of its last path
element), lower-cased, is one of `.mp4`, `.avi`, `.mov`, `.mkv`, `.wmv`,
`.flv`, `.webm`. So two names whose extensions are equal after lower-casing
get the same verdict, and a name whose last element has no dot is rejected. -/
theorem isValidVideoFile_iff (unicodeToLower : Char → Char) (redisURL storageServiceURL : String)
    (filename : String) :
    (isValidVideoFile unicodeToLower (loadConfig redisURL storageServiceURL) filename = true ↔
      stringsToLower unicodeToLower (extensionOf filename) ∈
        [".mp4", ".avi", ".mov", ".mkv", ".wmv", ".flv", ".webm"]) ∧
    (∀ other : String,
      stringsToLower unicodeToLower (extensionOf other) =
        stringsToLower unicodeToLower (extensionOf filename) →
      isValidVideoFile unicodeToLower (loadConfig redisURL storageServiceURL) other =
        isValidVideoFile unicodeToLower (loadConfig redisURL storageServiceURL) filename) ∧
    ('.' ∉ lastElement filename →
      isValidVideoFile unicodeToLower (loadConfig redisURL storageServiceURL) filename =
        false) := by
  have hiff : ∀ f : String,
      (isValidVideoFile unicodeToLower (loadConfig redisURL storageServiceURL) f = true ↔
        stringsToLower unicodeToLower (extensionOf f) ∈
          [".mp4", ".avi", ".mov", ".mkv", ".wmv", ".flv", ".webm"]) := by
    intro f
    simp only [isValidVideoFile, loadConfig, filepathExt_eq_extensionOf, List.any_eq_true,
      decide_eq_true_eq]
    constructor
    · rintro ⟨x, hx, rfl⟩; exact hx
    · intro h; exact ⟨_, h, rfl⟩
  refine ⟨hiff filename, ?_, ?_⟩
  · intro other h
    rw [Bool.eq_iff_iff, hiff, hiff, h]
  · intro hdot
    rw [← Bool.not_eq_true, hiff]
    have : extensionOf filename = "" := by simp [extensionOf, hdot]
    have h0 : stringsToLower unicodeToLower "" = "" := rfl
    rw [this, h0]
    decide

theorem isValidVideoFile_iff_witness :
    isValidVideoFile Char.toLower (loadConfig "" "") "Holiday.MP4" = true ∧
    isValidVideoFile Char.toLower (loadConfig "" "") "holiday.mp4" = true ∧
    isValidVideoFile Char.toLower (loadConfig "" "") "clips.mp4/holiday" = false ∧
    isValidVideoFile Char.toLower (loadConfig "" "") "holiday.mp4.txt" = false :=
  ⟨by decide,
    ((isValidVideoFile_iff Char.toLower "" "" "Holiday.MP4").2.1 "holiday.mp4" (by decide)).trans
      (by decide),
    (isValidVideoFile_iff Char.toLower "" "" "clips.mp4/holiday").2.2 (by decide),
    by decide⟩

/-! ## Notification service: unread ids are among all ids -/

/-- C30: the code on a cleanup in which a removal fails. Both entries of
`uploads` are 25 hours old. The video is removed and listed; the directory is
not empty, so `os.Remove` refuses it and it is not listed, but its size was
added to the total before the removal was tried. The response lists one file
of 1000 bytes, counts one file, and reports 5096 bytes freed. -/
theorem cleanupOldFiles_counts_failed_removal :
    (cleanupOldFiles listDisk (fun _ => 25 * Hour) demoDisk).1.deleted_files = ["old.mp4"] ∧
    (cleanupOldFiles listDisk (fun _ => 25 * Hour) demoDisk).1.files_count = 1 ∧
    (cleanupOldFiles listDisk (fun _ => 25 * Hour) demoDisk).1.bytes_freed = 5096 ∧
    ((demoDisk.filter (fun e => filepathBase e.path ∈
        (cleanupOldFiles listDisk (fun _ => 25 * Hour) demoDisk).1.deleted_files)).map
      (fun e => e.size)).sum = 1000 ∧
    (cleanupOldFiles listDisk (fun _ => 25 * Hour) demoDisk).2 =
      [⟨"uploads/parts", 4096, 0, true⟩] := by
  decide

/-! ## The scratch directory of a job -/

/-- For a job id without a slash that is not empty, `.` or `..`, the scratch
directory is `processing/` followed by the id. -/
theorem scratchDir_plain (jobID : String) (h : ∀ c ∈ jobID.data, c ≠ '/')
    (hne : jobID.data ≠ [] ∧ jobID.data ≠ ['.'] ∧ jobID.data ≠ ['.', '.']) :
    filepathJoin ["processing", jobID] = "processing/" ++ jobID := by
  have hsplit : splitSlash ("processing/".data ++ jobID.data) =
      ["processing".data, jobID.data] := by
    simp [splitSlash, splitSlash_plain _ h]
  have hdrop : (["processing", jobID].dropWhile (fun e => decide (e = ""))) =
      ["processing", jobID] := by
    simp [List.dropWhile]
  have hint : String.intercalate "/" ["processing", jobID] =
      ⟨"processing/".data ++ jobID.data⟩ := by
    apply String.ext
    simp [String.intercalate, String.intercalate.go, String.data_append]
  unfold filepathJoin
  rw [hdrop]
  simp only [filepathClean, hint, hsplit]
  have hfold : List.foldl (cleanStep false) [] ["processing".data, jobID.data] =
      [jobID.data, "processing".data] := by
    simp [cleanStep, hne.1, hne.2.1, hne.2.2]
  have hroot : decide ((("processing/".data ++ jobID.data).head?) = some '/') = false := by
    simp
  rw [hroot, hfold]
  have hbody : String.intercalate "/"
      (List.map String.mk [jobID.data, "processing".data].reverse) = "processing/" ++ jobID := by
    apply String.ext
    simp [String.intercalate, String.intercalate.go, String.data_append]
  rw [hbody]
  have hnz : "processing/" ++ jobID ≠ "" := append_ne_empty _ _ (by decide)
  rw [if_neg (by simp), if_neg hnz]

/-- For the ids `generateJobID` yields, the scratch directory is `processing/`
followed by the id. -/
theorem scratchDir_generated (t : Time) :
    filepathJoin ["processing", generateJobID t] = "processing/" ++ generateJobID t := by
  apply scratchDir_plain
  · intro c hc
    simp only [generateJobID, String.data_append, List.mem_append] at hc
    rcases hc with hc | hc
    · have : c ∈ ['j', 'o', 'b', '_'] := hc
      simp only [List.mem_cons, List.mem_singleton, List.not_mem_nil, or_false] at this
      rcases this with rfl | rfl | rfl | rfl <;> decide
    · refine intToString_chars (fun c => c ≠ '/') ?_ (by decide) t c hc
      intro d hd
      interval_cases d <;> decide
  · have : (generateJobID t).data = 'j' :: 'o' :: 'b' :: '_' :: (toString t).data := by
      simp [generateJobID, String.data_append]
    rw [this]
    simp

/-- C22. Whatever `processVideo` returns (a tool error, no frames, a
packaging error or the archive name), the world it leaves is the result of
`RemoveAll` on the scratch directory `processing/<jobID>`, applied to the
world the extraction tool left: removing the directory is the last thing done.
So whatever holds of a world right after that directory is removed, such as
that neither it nor a frame file in it exists, holds when `processVideo`
returns. For the job ids the service generates, the directory is `processing/`
followed by the id, as written. -/
theorem processVideo_releases_scratch {σ : Type} (os : OS σ) (w : σ) (inputFile jobID : String)
    (job : ProcessingJob) :
    (processVideo os w inputFile jobID job).world =
      os.RemoveAll
        (os.ffmpeg (os.MkdirAll w (filepathJoin ["processing", jobID]))
          ["-i", inputFile, "-vf", "fps=1", "-y",
            filepathJoin [filepathJoin ["processing", jobID], "frame_%04d.png"]]).1
        (filepathJoin ["processing", jobID]) ∧
    (∀ Gone : σ → Prop, (∀ w1, Gone (os.RemoveAll w1 (filepathJoin ["processing", jobID]))) →
      Gone (processVideo os w inputFile jobID job).world) ∧
    ∀ t : Time, filepathJoin ["processing", generateJobID t] = "processing/" ++ generateJobID t := by
  have h : (processVideo os w inputFile jobID job).world =
      os.RemoveAll
        (os.ffmpeg (os.MkdirAll w (filepathJoin ["processing", jobID]))
          ["-i", inputFile, "-vf", "fps=1", "-y",
            filepathJoin [filepathJoin ["processing", jobID], "frame_%04d.png"]]).1
        (filepathJoin ["processing", jobID]) := by
    unfold processVideo
    rcases hff : os.ffmpeg (os.MkdirAll w (filepathJoin ["processing", jobID]))
      ["-i", inputFile, "-vf", "fps=1", "-y",
        filepathJoin [filepathJoin ["processing", jobID], "frame_%04d.png"]] with ⟨w2, out, err⟩
    cases err with
    | some e => simp [hff]
    | none =>
      rcases hg : os.Glob w2 (filepathJoin [filepathJoin ["processing", jobID], "*.png"])
        with _ | ⟨_ | ⟨f, fs⟩⟩ <;> simp [hff, hg, createZipFile]
  exact ⟨h, fun Gone hG => h ▸ hG _, scratchDir_generated⟩

theorem processVideo_releases_scratch_witness :
    filepathJoin ["processing", "job_1"] = "processing/job_1" ∧
    (processVideo testOS demoUploads "../uploads/abc123_1700000000_video.mp4" "job_1"
      demoPending).result = Except.ok ("frames_job_1.zip", 3) ∧
    ∀ p ∈ (processVideo testOS demoUploads "../uploads/abc123_1700000000_video.mp4" "job_1"
        demoPending).world, "processing/job_1/".data.isPrefixOf p.data = false :=
  ⟨by decide, by rfl,
    (processVideo_releases_scratch testOS demoUploads "../uploads/abc123_1700000000_video.mp4"
      "job_1" demoPending).2.1
      (fun w => ∀ p ∈ w, "processing/job_1/".data.isPrefixOf p.data = false)
      (fun w1 p hp => by
        have h1 : filepathJoin ["processing", "job_1"] ++ "/" = "processing/job_1/" := by decide
        simp only [testOS, h1, List.mem_filter, Bool.not_eq_true'] at hp
        exact hp.2)⟩

end Processing
